import Mathlib

/-!
Verification of the `dag_gettsim` computation engine.

This file gives a shallow embedding of `src/dag_gettsim/main.py` (together
with the domain functions in `taxes.py`, `benefits.py`, `aggregation.py`)
and proves properties of the embedded definitions.

Modelling conventions:
* Python `dict`s are insertion-ordered association lists (`Dict`);
  `insert` overwrites in place, new keys are appended at the end,
  matching CPython dict semantics.
* `pd.Series` values are modelled as exact rationals (the arithmetic of the
  built-in functions is elementwise, so a single component suffices; the
  concrete numbers of the reference scenario are exact in float as well).
* The networkx `DiGraph` is modelled by insertion-ordered node and edge
  lists (`DiGraph`); `nx.ancestors` / `nx.descendants` are reachability
  closures computed by bounded iteration, and `nx.topological_sort` is
  Kahn's algorithm with the exact LIFO tie-breaking of networkx
  (`zero_indegree.pop()` pops from the end of the list).
* Exceptions are modelled by `Except RunError`; `RunError` constructors are
  named after the concrete exceptions the Python code raises
  (`KeyError`, `nx.NetworkXUnfeasible`, `nx.NetworkXError`, `TypeError`).
* Executions additionally record the list of function invocations in order
  (the `invoked` trace); this instrumentation changes no computed value and
  lets us state "before any function is invoked" properties.
-/

set_option maxHeartbeats 1000000
set_option maxRecDepth 100000

abbrev Name := String

/-- Python dict: insertion-ordered association list with unique keys
(uniqueness is maintained by `insert`, which overwrites in place). -/
abbrev Dict (V : Type) := List (Name × V)

/-- Membership test / item access of a Python dict (`k in d`, `d[k]`). -/
def Dict.lookup {V : Type} : Dict V → Name → Option V
  | [], _ => none
  | (k', v) :: d, k => if k' = k then some v else Dict.lookup d k

/-- Python `d[k] = v`: overwrite in place if present, else append. -/
def Dict.insert {V : Type} : Dict V → Name → V → Dict V
  | [], k, v => [(k, v)]
  | (k', v') :: d, k, v =>
      if k' = k then (k', v) :: d else (k', v') :: Dict.insert d k v

/-- Python `del d[k]` for a dict with unique keys: drop the first entry. -/
def Dict.erase {V : Type} : Dict V → Name → Dict V
  | [], _ => []
  | (k', v') :: d, k => if k' = k then d else (k', v') :: Dict.erase d k

/-- Python `d.update(e)`. -/
def Dict.update {V : Type} (d e : Dict V) : Dict V :=
  e.foldl (fun acc kv => Dict.insert acc kv.1 kv.2) d

/-- The keys of a dict, in order. -/
def Dict.keys {V : Type} (d : Dict V) : List Name :=
  d.map Prod.fst

/-- Map a function over the values of a dict, keeping keys and order. -/
def Dict.mapVals {V W : Type} (f : V → W) (d : Dict V) : Dict W :=
  d.map (fun kv => (kv.1, f kv.2))

/-- A Python function as seen by the engine: its declared
positional-or-keyword parameter names, in order, and its body.  The body
receives the keyword arguments (a partial valuation of names) and the
parameter bundle; it returns `none` when the Python call would raise
(missing argument access, attribute error, or a domain error). -/
structure PyFunc (V P : Type) where
  args : List Name
  impl : (Name → Option V) → P → Option V

/-- The exceptions the pipeline can raise, named after the concrete Python
exceptions in `main.py` and its libraries:
* `unsupportedCallable n`: `TypeError` from `inspect.getfullargspec` in
  `create_dag` when the partial object for function `n` binds the keyword
  `params` that the underlying function does not accept;
* `nodeNotInGraph n`: `nx.NetworkXError` from `nx.ancestors(dag, n)` when
  `n` is not a node of the graph;
* `unfeasible`: `nx.NetworkXUnfeasible` raised by `nx.topological_sort`
  when the graph contains a cycle;
* `missingVariable n`: the `KeyError(f"Missing variable or function: {n}")`
  raised by `execute_dag`;
* `missingKey n`: a `KeyError` from a raw dict access (`_dict_subset` or
  `del results[n]` in `collect_garbage`);
* `funcFailed n`: an exception raised inside the domain function for `n`. -/
inductive RunError where
  | unsupportedCallable (n : Name)
  | nodeNotInGraph (n : Name)
  | unfeasible
  | missingVariable (n : Name)
  | missingKey (n : Name)
  | funcFailed (n : Name)
  deriving DecidableEq, Repr

/-- Model of `nx.DiGraph`: insertion-ordered node and edge lists.  An edge
`(u, v)` points from `u` to `v`. -/
structure DiGraph where
  nodes : List Name
  edges : List (Name × Name)
  deriving DecidableEq, Repr

def DiGraph.empty : DiGraph := ⟨[], []⟩

/-- `G.add_node(n)`: a no-op when the node exists, else appended. -/
def DiGraph.addNode (g : DiGraph) (n : Name) : DiGraph :=
  if n ∈ g.nodes then g else ⟨g.nodes ++ [n], g.edges⟩

/-- `G.add_edge(u, v)`: endpoints are added as nodes if new, the edge is
added unless already present. -/
def DiGraph.addEdge (g : DiGraph) (u v : Name) : DiGraph :=
  let g := (g.addNode u).addNode v
  if (u, v) ∈ g.edges then g else ⟨g.nodes, g.edges ++ [(u, v)]⟩

/-- `G.reverse()`: same nodes, every edge flipped. -/
def DiGraph.rev (g : DiGraph) : DiGraph :=
  ⟨g.nodes, g.edges.map (fun e => (e.2, e.1))⟩

/-- `G.successors(u)` (adjacency order = edge insertion order). -/
def DiGraph.succs (g : DiGraph) (u : Name) : List Name :=
  (g.edges.filter (fun e => e.1 = u)).map (fun e => e.2)

/-- `G.predecessors(v)` (adjacency order = edge insertion order). -/
def DiGraph.preds (g : DiGraph) (v : Name) : List Name :=
  (g.edges.filter (fun e => e.2 = v)).map (fun e => e.1)

/-- Well-formedness maintained by the networkx adjacency representation:
nodes are unique, edges are unique, and edge endpoints are nodes. -/
structure DiGraph.WF (g : DiGraph) : Prop where
  nodes_nodup : g.nodes.Nodup
  edges_nodup : g.edges.Nodup
  edges_fst : ∀ e ∈ g.edges, e.1 ∈ g.nodes
  edges_snd : ∀ e ∈ g.edges, e.2 ∈ g.nodes

/-- A Python `set` of names, modelled as a duplicate-free list; the list
order models the (unspecified) iteration order of the set. -/
abbrev NSet := List Name

/-- Python `s.add(x)` / set union element insertion. -/
def NSet.push (s : NSet) (x : Name) : NSet :=
  if x ∈ s then s else s ++ [x]

/-- Python set union `s | t` (keeps the elements of `s`, then the fresh
elements of `t`). -/
def NSet.union (s t : NSet) : NSet :=
  s ++ t.filter (fun x => decide (x ∉ s))

/-- One expansion step of a reachability closure: append every element of
the universe that is an `E`-successor of the current set and not yet in
it. -/
def closStep (univ : List Name) (E : Name → Name → Bool) (s : NSet) : NSet :=
  s ++ univ.filter (fun v => decide (v ∉ s ∧ ∃ u ∈ s, E u v = true))

/-- Reachability closure: iterate `closStep` as many times as there are
universe elements, which reaches the least fixed point. -/
def clos (univ : List Name) (E : Name → Name → Bool) (s : NSet) : NSet :=
  (closStep univ E)^[univ.length] s

/-- Edge test of a graph as a boolean relation. -/
def DiGraph.edgeB (g : DiGraph) (u v : Name) : Bool :=
  decide ((u, v) ∈ g.edges)

/-- All nodes reachable from `n` (including `n` itself). -/
def DiGraph.reachFrom (g : DiGraph) (n : Name) : NSet :=
  clos g.nodes g.edgeB [n]

/-- All nodes that reach `n` (including `n` itself). -/
def DiGraph.reachTo (g : DiGraph) (n : Name) : NSet :=
  clos g.nodes (fun u v => g.edgeB v u) [n]

/-- `nx.descendants(G, n)`: all nodes reachable from `n`, never `n` itself
(breadth-first search never revisits its source). -/
def DiGraph.descendants (g : DiGraph) (n : Name) : NSet :=
  (g.reachFrom n).filter (fun v => decide (v ≠ n))

/-- `nx.ancestors(G, n)`: all nodes with a path to `n`, never `n` itself. -/
def DiGraph.ancestors (g : DiGraph) (n : Name) : NSet :=
  (g.reachTo n).filter (fun v => decide (v ≠ n))

/-- `nx.ancestors` with the membership check networkx performs: raises
`NetworkXError` when the node is not in the graph. -/
def nxAncestors (g : DiGraph) (n : Name) : Except RunError NSet :=
  if n ∈ g.nodes then .ok (g.ancestors n) else .error (.nodeNotInGraph n)

/-- `nx.descendants` with the membership check networkx performs. -/
def nxDescendants (g : DiGraph) (n : Name) : Except RunError NSet :=
  if n ∈ g.nodes then .ok (g.descendants n) else .error (.nodeNotInGraph n)

/-- Number of in-edges of `v` from sources not yet popped: the value
`nx.topological_sort` tracks for `v` in `indegree_map`. -/
def remIndeg (g : DiGraph) (popped : List Name) (v : Name) : Nat :=
  (g.edges.filter (fun e => decide (e.2 = v ∧ e.1 ∉ popped))).length

/-- Initial state of `nx.topological_sort`: `indegree_map` holds the nodes
with positive in-degree, `zero_indegree` the rest, both in node order. -/
def kahnInit (g : DiGraph) : Dict Nat × List Name :=
  ((g.nodes.filter (fun v => decide (remIndeg g [] v ≠ 0))).map
      (fun v => (v, remIndeg g [] v)),
   g.nodes.filter (fun v => decide (remIndeg g [] v = 0)))

/-- The inner loop of `nx.topological_sort` over the successors of the
popped node: decrement each child's count; a child reaching zero moves
from `indegree_map` to the end of `zero_indegree`.  A child absent from
the map is impossible for the adjacency representation (comment in
networkx); we keep it a no-op. -/
def processSuccs : List Name → Dict Nat → List Name → Dict Nat × List Name
  | [], indeg, newz => (indeg, newz)
  | c :: cs, indeg, newz =>
      match Dict.lookup indeg c with
      | none => processSuccs cs indeg newz
      | some d =>
          if d - 1 = 0 then processSuccs cs (Dict.erase indeg c) (newz ++ [c])
          else processSuccs cs (Dict.insert indeg c (d - 1)) newz

/-- The main loop of `nx.topological_sort` (Kahn's algorithm):
`zero_indegree.pop()` pops from the end; yielded nodes are collected in
order; when the stack drains with `indegree_map` nonempty the generator
raises `NetworkXUnfeasible` (the `Bool` component).  The fuel only bounds
the loop; one unit is consumed per pop, and the caller supplies enough. -/
def kahnFuel (g : DiGraph) : Nat → Dict Nat → List Name → List Name × Bool
  | fuel, indeg, zero =>
      match zero.getLast? with
      | none => ([], !List.isEmpty indeg)
      | some node =>
          match fuel with
          | 0 => ([], true)
          | fuel + 1 =>
              let p := processSuccs (g.succs node) indeg []
              let r := kahnFuel g fuel p.1 (zero.dropLast ++ p.2)
              (node :: r.1, r.2)

/-- `nx.topological_sort(G)`, run to completion: the list of yielded nodes
in order, and whether the generator ends by raising `NetworkXUnfeasible`. -/
def topological_sort (g : DiGraph) : List Name × Bool :=
  (kahnFuel g ((kahnInit g).1.length + (kahnInit g).2.length)
    (kahnInit g).1 (kahnInit g).2)

/-- A `functools.partial(func, params=params)` object. -/
structure BoundFunc (V P : Type) where
  func : PyFunc V P
  params : P

/-- `inspect.getfullargspec(partial(func, params=params)).args`: the
positional-or-keyword parameters strictly before `params` (binding the
keyword `params` turns it and everything after it keyword-only).  When the
function has no parameter named `params`, signature reconstruction fails
and `getfullargspec` raises `TypeError` (modelled by `none`). -/
def BoundFunc.argspec {V P : Type} (b : BoundFunc V P) : Option (List Name) :=
  if "params" ∈ b.func.args then
    some (b.func.args.takeWhile (fun a => decide (a ≠ "params")))
  else none

/-- Calling the partial object with keyword arguments. -/
def BoundFunc.call {V P : Type} (b : BoundFunc V P) (kwargs : Name → Option V) :
    Option V :=
  b.func.impl kwargs b.params

/-- The comprehension
`{name: getfullargspec(func).args for name, func in func_dict.items()}`
of `create_dag`; fails at the first unsupported callable. -/
def dag_dict_of {V P : Type} (func_dict : Dict (BoundFunc V P)) :
    Except RunError (Dict (List Name)) :=
  List.foldlM
    (fun acc nf =>
      match BoundFunc.argspec nf.2 with
      | some args => .ok (acc ++ [(nf.1, args)])
      | none => .error (.unsupportedCallable nf.1))
    [] func_dict

/-- `nx.DiGraph(dag_dict)` built from a dict of lists: all keys are added
as nodes first, then an edge `key → dep` for every listed dependency. -/
def graph_of_dag_dict (dd : Dict (List Name)) : DiGraph :=
  let g0 := dd.foldl (fun g kv => g.addNode kv.1) DiGraph.empty
  dd.foldl (fun g kv => kv.2.foldl (fun g2 a => g2.addEdge kv.1 a) g) g0

/-- `create_dag(func_dict)` of `main.py`:
`nx.DiGraph({name: getfullargspec(func).args ...}).reverse()`. -/
def create_dag {V P : Type} (func_dict : Dict (BoundFunc V P)) :
    Except RunError DiGraph := do
  let dd ← dag_dict_of func_dict
  pure (graph_of_dag_dict dd).rev

/-- One pass of the `while` loop of `prune_dag`: union in the ancestors of
every currently visited node, iterating over the snapshot of the set. -/
def prunePass (dag : DiGraph) (visited : NSet) : Except RunError NSet :=
  visited.foldlM
    (fun acc node => do
      let a ← nxAncestors dag node
      pure (NSet.union acc a))
    visited

/-- The `while visited_nodes_changed` loop of `prune_dag`, comparing set
sizes before and after each pass, with enough fuel to reach the fixed
point (growth is bounded by the node count). -/
def pruneLoop (dag : DiGraph) : Nat → NSet → Except RunError NSet
  | 0, visited => .ok visited
  | fuel + 1, visited => do
      let v' ← prunePass dag visited
      if v'.length = visited.length then .ok v' else pruneLoop dag fuel v'

/-- `prune_dag(dag, targets)` of `main.py`: collect the targets and their
transitive ancestors, then `remove_nodes_from` the rest. -/
def prune_dag (dag : DiGraph) (targets : List Name) : Except RunError DiGraph := do
  let visited ← pruneLoop dag (dag.nodes.length + 1) targets.dedup
  let redundant := dag.nodes.filter (fun n => decide (n ∉ visited))
  pure ⟨dag.nodes.filter (fun n => decide (n ∉ redundant)),
        dag.edges.filter (fun e => decide (e.1 ∉ redundant ∧ e.2 ∉ redundant))⟩

/-- `_dict_subset(dictionary, keys)` of `main.py`; a missing key is a
`KeyError`. -/
def dict_subset {V : Type} (dictionary : Dict V) (keys : List Name) :
    Except RunError (Dict V) :=
  List.foldlM
    (fun acc k =>
      match Dict.lookup dictionary k with
      | some v => .ok (acc ++ [(k, v)])
      | none => .error (.missingKey k))
    [] keys

/-- Python `del results[node]`: a `KeyError` when the key is absent. -/
def delStrict {V : Type} (results : Dict V) (n : Name) :
    Except RunError (Dict V) :=
  if (Dict.lookup results n).isSome then .ok (Dict.erase results n)
  else .error (.missingKey n)

/-- `collect_garbage(results, task, visited_nodes, targets, dag)` of
`main.py`: delete every ancestor of `task` whose descendants have all been
visited, unless `task` itself is a target. -/
def collect_garbage {V : Type} (results : Dict V) (task : Name)
    (visited_nodes : NSet) (targets : List Name) (dag : DiGraph) :
    Except RunError (Dict V) := do
  let ancestors_of_task ← nxAncestors dag task
  ancestors_of_task.foldlM
    (fun res node => do
      let desc ← nxDescendants dag node
      if (∀ d ∈ desc, d ∈ visited_nodes) ∧ task ∉ targets then
        delStrict res node
      else pure res)
    results

/-- The mutable state of the `execute_dag` loop, plus the instrumentation
trace of function invocations. -/
structure ExecState (V : Type) where
  results : Dict V
  visited : NSet
  invoked : List Name
  deriving DecidableEq, Repr

/-- The body of the `for task in nx.topological_sort(dag)` loop of
`execute_dag`, for one task.  Returns the new state and the exception the
iteration raises, if any (the state records everything mutated before the
raise). -/
def execTask {V P : Type} (func_dict : Dict (BoundFunc V P)) (dag : DiGraph)
    (targets : Option (List Name)) (st : ExecState V) (task : Name) :
    ExecState V × Option RunError :=
  if (Dict.lookup st.results task).isSome then (st, none)
  else
    match Dict.lookup func_dict task with
    | none => (st, some (.missingVariable task))
    | some f =>
        match dict_subset st.results (dag.preds task) with
        | .error e => (st, some e)
        | .ok kwargs =>
            let invoked := st.invoked ++ [task]
            match BoundFunc.call f (fun n => Dict.lookup kwargs n) with
            | none => (⟨st.results, st.visited, invoked⟩, some (.funcFailed task))
            | some v =>
                let results := Dict.insert st.results task v
                let visited := NSet.push st.visited task
                match targets with
                | none => (⟨results, visited, invoked⟩, none)
                | some ts =>
                    match collect_garbage results task visited ts dag with
                    | .ok r => (⟨r, visited, invoked⟩, none)
                    | .error e => (⟨results, visited, invoked⟩, some e)

/-- Run the loop body over a list of yielded tasks, stopping at the first
exception. -/
def execList {V P : Type} (func_dict : Dict (BoundFunc V P)) (dag : DiGraph)
    (targets : Option (List Name)) :
    List Name → ExecState V → ExecState V × Option RunError
  | [], st => (st, none)
  | t :: ts, st =>
      match execTask func_dict dag targets st t with
      | (st', none) => execList func_dict dag targets ts st'
      | (st', some e) => (st', some e)

/-- `execute_dag(func_dict, dag, data, targets)` of `main.py`, with the
invocation trace.  The generator `nx.topological_sort` yields all its nodes
before raising `NetworkXUnfeasible`, so the loop body runs on the yielded
prefix and the cycle error surfaces afterwards. -/
def execute_dag_trace {V P : Type} (func_dict : Dict (BoundFunc V P))
    (dag : DiGraph) (data : Dict V) (targets : Option (List Name)) :
    Except RunError (Dict V) × List Name :=
  let ts := topological_sort dag
  let r := execList func_dict dag targets ts.1 ⟨data, [], []⟩
  match r.2 with
  | some e => (.error e, r.1.invoked)
  | none =>
      if ts.2 then (.error .unfeasible, r.1.invoked)
      else (.ok r.1.results, r.1.invoked)

/-- `execute_dag` without the instrumentation trace. -/
def execute_dag {V P : Type} (func_dict : Dict (BoundFunc V P)) (dag : DiGraph)
    (data : Dict V) (targets : Option (List Name)) : Except RunError (Dict V) :=
  (execute_dag_trace func_dict dag data targets).1

/-- The generic pipeline shared by every run: build the DAG from the
function table, prune it when an explicit target set is given, execute.
`tax_transfer` instantiates it with the merged function table. -/
def run_pipeline {V P : Type} (func_dict : Dict (BoundFunc V P)) (data : Dict V)
    (targets : Option (List Name)) : Except RunError (Dict V) × List Name :=
  match create_dag func_dict with
  | .error e => (.error e, [])
  | .ok dag =>
      match (match targets with
             | none => .ok dag
             | some ts => prune_dag dag ts : Except RunError DiGraph) with
      | .error e => (.error e, [])
      | .ok dag2 => execute_dag_trace func_dict dag2 data targets

/-- Exact rational numbers used as the (elementwise) model of `pd.Series`
values: a normalized fraction with nonnegative denominator.  Defined from
scratch (rather than Mathlib's `Rat`) so that every arithmetic operation
is structurally recursive and the kernel can evaluate concrete runs. -/
structure Val where
  num : Int
  den : Nat
  deriving DecidableEq, Repr

/-- Build the normalized fraction `n / d` (callers always pass `d > 0`). -/
def Val.mk' (n : Int) (d : Nat) : Val :=
  let g : Nat := Int.gcd n (Int.ofNat d)
  ⟨n / (Int.ofNat g), d / g⟩

instance {n : Nat} : OfNat Val n := ⟨⟨Int.ofNat n, 1⟩⟩

instance : Add Val :=
  ⟨fun a b => Val.mk' (a.num * Int.ofNat b.den + b.num * Int.ofNat a.den) (a.den * b.den)⟩

instance : Sub Val :=
  ⟨fun a b => Val.mk' (a.num * Int.ofNat b.den - b.num * Int.ofNat a.den) (a.den * b.den)⟩

instance : Mul Val := ⟨fun a b => Val.mk' (a.num * b.num) (a.den * b.den)⟩

instance : LE Val := ⟨fun a b => a.num * Int.ofNat b.den ≤ b.num * Int.ofNat a.den⟩

instance (a b : Val) : Decidable (a ≤ b) :=
  inferInstanceAs (Decidable (a.num * Int.ofNat b.den ≤ b.num * Int.ofNat a.den))

/-- `income_taxes(income, params)` of `taxes.py`:
`params.income_tax * income`. -/
def income_taxes : PyFunc Val (Dict Val) :=
  ⟨["income", "params"],
   fun kw params => do
     let rate ← Dict.lookup params "income_tax"
     let income ← kw "income"
     pure (rate * income)⟩

/-- `wealth_taxes(wealth, params)` of `taxes.py`:
`params.wealth_tax * wealth`. -/
def wealth_taxes : PyFunc Val (Dict Val) :=
  ⟨["wealth", "params"],
   fun kw params => do
     let rate ← Dict.lookup params "wealth_tax"
     let wealth ← kw "wealth"
     pure (rate * wealth)⟩

/-- `benefits(income, n_children, params)` of `benefits.py`:
`(n_children * params.benefit_per_child).where(income <= params.benefit_cutoff, 0)`. -/
def benefits : PyFunc Val (Dict Val) :=
  ⟨["income", "n_children", "params"],
   fun kw params => do
     let benefit_per_child ← Dict.lookup params "benefit_per_child"
     let benefit_cutoff ← Dict.lookup params "benefit_cutoff"
     let income ← kw "income"
     let n_children ← kw "n_children"
     let raw_benefits := n_children * benefit_per_child
     pure (if income ≤ benefit_cutoff then raw_benefits else 0)⟩

/-- `disposable_income(income, wealth, income_taxes, wealth_taxes, benefits,
params)` of `aggregation.py`. -/
def disposable_income : PyFunc Val (Dict Val) :=
  ⟨["income", "wealth", "income_taxes", "wealth_taxes", "benefits", "params"],
   fun kw _params => do
     let income ← kw "income"
     let wealth ← kw "wealth"
     let income_taxes ← kw "income_taxes"
     let wealth_taxes ← kw "wealth_taxes"
     let benefits ← kw "benefits"
     pure (income + wealth - income_taxes - wealth_taxes + benefits)⟩

/-- `get_params(baseline_date, user_params)` of `main.py`: the toy baseline
parameters, updated with the user parameters (the date is unused). -/
def get_params (_baseline_date : String) (user_params : Dict Val) : Dict Val :=
  Dict.update
    [("income_tax", Val.mk' 2 10), ("wealth_tax", Val.mk' 9 10),
     ("benefit_per_child", 2000), ("benefit_cutoff", 30000)]
    user_params

/-- The built-in catalog collected by
`getmembers(module, inspect.isfunction)` over the modules `taxes`,
`benefits`, `aggregation` in that order; `getmembers` sorts each module's
functions by name. -/
def builtin_function_dict : Dict (PyFunc Val (Dict Val)) :=
  [("income_taxes", income_taxes), ("wealth_taxes", wealth_taxes),
   ("benefits", benefits), ("disposable_income", disposable_income)]

/-- Bind the parameter bundle into every function:
`{name: partial(func, params=params) for name, func in func_dict.items()}`. -/
def bindParams {V P : Type} (fd : Dict (PyFunc V P)) (params : P) :
    Dict (BoundFunc V P) :=
  Dict.mapVals (fun f => ⟨f, params⟩) fd

/-- `create_function_dict(user_functions, params)` of `main.py`: built-ins
updated by the user functions, then every entry partially applied to the
parameter bundle. -/
def create_function_dict (user_functions : Dict (PyFunc Val (Dict Val)))
    (params : Dict Val) : Dict (BoundFunc Val (Dict Val)) :=
  bindParams (Dict.update builtin_function_dict user_functions) params

/-- `tax_transfer(baseline_date, data, functions, params, targets)` of
`main.py` (with `return_dag=False`; `functions=None` / `params=None`
correspond to the empty dict, `targets="all"` to `none`).  The second
component is the instrumentation trace of function invocations. -/
def tax_transfer (baseline_date : String) (data : Dict Val)
    (functions : Dict (PyFunc Val (Dict Val))) (params : Dict Val)
    (targets : Option (List Name)) : Except RunError (Dict Val) × List Name :=
  let ps := get_params baseline_date params
  let func_dict := create_function_dict functions ps
  run_pipeline func_dict data targets

/-- The input data of the reference scenario in §8 of the specification:
`{income: 25000, wealth: 0, n_children: 2}`. -/
def scenario_data : Dict Val :=
  [("income", 25000), ("wealth", 0), ("n_children", 2)]

/-- Decidable equality for `Except`, for evaluating concrete runs. -/
instance {E A : Type} [DecidableEq E] [DecidableEq A] : DecidableEq (Except E A)
  | .ok x, .ok y =>
      if h : x = y then .isTrue (by rw [h]) else .isFalse (by simp [h])
  | .ok _, .error _ => .isFalse (by simp)
  | .error _, .ok _ => .isFalse (by simp)
  | .error x, .error y =>
      if h : x = y then .isTrue (by rw [h]) else .isFalse (by simp [h])

/-- Restriction of a result mapping to a set of requested names (the
specification's "subset of the result set restricted to the requested
names"). -/
def restrict_to {V : Type} (d : Dict V) (ks : List Name) : Dict V :=
  d.filter (fun kv => decide (kv.1 ∈ ks))

/-- The mapping actually returned by both reference-scenario runs: all
three inputs and all four computed quantities, in insertion order. -/
def scenario_full_result : Dict Val :=
  [("income", 25000), ("wealth", 0), ("n_children", 2), ("wealth_taxes", 0),
   ("benefits", 4000), ("income_taxes", 5000), ("disposable_income", 24000)]

/-- The invocation order of the reference-scenario runs. -/
def scenario_invoked : List Name :=
  ["wealth_taxes", "benefits", "income_taxes", "disposable_income"]

/-- A user function `a(b, params)` used to form the cycle `a ↔ b`. -/
def cyc_a : PyFunc Val (Dict Val) := ⟨["b", "params"], fun kw _ => kw "b"⟩

/-- A user function `b(a, params)` used to form the cycle `a ↔ b`. -/
def cyc_b : PyFunc Val (Dict Val) := ⟨["a", "params"], fun kw _ => kw "a"⟩

/-- A user function `extra(income)` that does not accept `params`. -/
def no_params_func : PyFunc Val (Dict Val) := ⟨["income"], fun kw _ => kw "income"⟩

/-- A user function `income_taxes(income, params)` that returns 0,
overriding the built-in of the same name. -/
def zero_income_taxes : PyFunc Val (Dict Val) :=
  ⟨["income", "params"], fun _ _ => some 0⟩

/-- Nonempty-path reachability along the edges of a graph. -/
def DiGraph.Reaches (g : DiGraph) (a b : Name) : Prop :=
  Relation.TransGen (fun x y => (x, y) ∈ g.edges) a b

/-- A list of nodes is in topological order: every edge source occurs
before the edge's consumer. -/
def TopoList (g : DiGraph) (L : List Name) : Prop :=
  ∀ l1 v l2, L = l1 ++ v :: l2 → ∀ u, (u, v) ∈ g.edges → u ∈ l1

/-- The loop invariant of Kahn's algorithm relative to the list `P` of
nodes popped so far. -/
structure KahnInv (g : DiGraph) (P : List Name) (indeg : Dict Nat)
    (zero : List Name) : Prop where
  popped_nodes : ∀ p ∈ P, p ∈ g.nodes
  popped_nodup : P.Nodup
  zero_nodup : zero.Nodup
  zero_fresh : ∀ z ∈ zero, z ∉ P
  zero_nodes : ∀ z ∈ zero, z ∈ g.nodes
  zero_rem : ∀ z ∈ zero, remIndeg g P z = 0
  popped_rem : ∀ p ∈ P, remIndeg g P p = 0
  indeg_some : ∀ v, v ∈ g.nodes → v ∉ P → v ∉ zero →
    Dict.lookup indeg v = some (remIndeg g P v) ∧ 0 < remIndeg g P v
  indeg_none : ∀ v, v ∉ g.nodes ∨ v ∈ P ∨ v ∈ zero →
    Dict.lookup indeg v = none
  indeg_keys : (indeg.map Prod.fst).Nodup
  popped_topo : TopoList g P

/-- The invariant of the `execute_dag` loop after the prefix `pre` of the
yielded task order has been processed successfully, relative to the input
`data` and a per-name value predicate `RefOk` (instantiated with the
trivial predicate, or with agreement against a reference run). -/
structure ExecInv {V : Type} (data : Dict V) (RefOk : Name → V → Prop)
    (pre : List Name) (st : ExecState V) : Prop where
  visited_sub : ∀ v ∈ st.visited, v ∈ pre
  presence : ∀ u ∈ pre, (Dict.lookup st.results u).isSome
  refok : ∀ k v, Dict.lookup st.results k = some v → RefOk k v
  provenance : ∀ k v, Dict.lookup st.results k = some v →
    Dict.lookup data k = some v ∨ k ∈ pre
  invoked_sub : ∀ v ∈ st.invoked, v ∈ pre
  data_sub : ∀ k v, Dict.lookup data k = some v →
    Dict.lookup st.results k = some v

/-- The dependency graph of the built-in catalog, as built by
`create_dag` (nodes in insertion order: function names first, then data
names; edges point from dependency to consumer). -/
def scenario_graph : DiGraph :=
  ⟨["income_taxes", "wealth_taxes", "benefits", "disposable_income",
    "income", "wealth", "n_children"],
   [("income", "income_taxes"), ("wealth", "wealth_taxes"),
    ("income", "benefits"), ("n_children", "benefits"),
    ("income", "disposable_income"), ("wealth", "disposable_income"),
    ("income_taxes", "disposable_income"), ("wealth_taxes", "disposable_income"),
    ("benefits", "disposable_income")]⟩

/-- The merged, parameter-bound function table of the cyclic-catalog
scenario: the built-ins plus the user functions `a(b, params)` and
`b(a, params)`. -/
def cyc_function_dict : Dict (BoundFunc Val (Dict Val)) :=
  create_function_dict [("a", cyc_a), ("b", cyc_b)]
    (get_params "2019-01-01" [])

/-- The dependency graph `create_dag` builds for the cyclic catalog: the
scenario graph plus the two-cycle `a ↔ b`. -/
def cyc_graph : DiGraph :=
  ⟨["income_taxes", "wealth_taxes", "benefits", "disposable_income",
    "a", "b", "income", "wealth", "n_children"],
   [("income", "income_taxes"), ("wealth", "wealth_taxes"),
    ("income", "benefits"), ("n_children", "benefits"),
    ("income", "disposable_income"), ("wealth", "disposable_income"),
    ("income_taxes", "disposable_income"),
    ("wealth_taxes", "disposable_income"),
    ("benefits", "disposable_income"), ("b", "a"), ("a", "b")]⟩

theorem Dict.lookup_insert_self {V : Type} (d : Dict V) (k : Name) (v : V) :
    Dict.lookup (Dict.insert d k v) k = some v := by
  induction d with
  | nil => simp [Dict.insert, Dict.lookup]
  | cons kv d ih =>
      by_cases h : kv.1 = k
      · simp [Dict.insert, Dict.lookup, h]
      · simp [Dict.insert, Dict.lookup, h, ih]

theorem Dict.lookup_insert_ne {V : Type} (d : Dict V) (k k' : Name) (v : V)
    (h : k ≠ k') : Dict.lookup (Dict.insert d k v) k' = Dict.lookup d k' := by
  induction d with
  | nil => simp [Dict.insert, Dict.lookup, h]
  | cons kv d ih =>
      by_cases hk : kv.1 = k
      · simp [Dict.insert, Dict.lookup, hk, h]
      · simp only [Dict.insert, hk, if_false, Dict.lookup, ih]

theorem Dict.lookup_eq_none_of_not_mem {V : Type} (d : Dict V) (k : Name)
    (h : k ∉ d.map Prod.fst) : Dict.lookup d k = none := by
  induction d with
  | nil => simp [Dict.lookup]
  | cons kv d ih =>
      simp only [List.map_cons, List.mem_cons, not_or] at h
      have h1 : kv.1 ≠ k := fun he => h.1 he.symm
      simp only [Dict.lookup, h1, if_false]
      exact ih h.2

theorem Dict.lookup_erase_self {V : Type} (d : Dict V) (k : Name)
    (hnd : (d.map Prod.fst).Nodup) : Dict.lookup (Dict.erase d k) k = none := by
  induction d with
  | nil => simp [Dict.erase, Dict.lookup]
  | cons kv d ih =>
      simp only [List.map_cons, List.nodup_cons] at hnd
      by_cases h : kv.1 = k
      · simp only [Dict.erase, h, if_true]
        apply Dict.lookup_eq_none_of_not_mem
        rw [← h]
        exact hnd.1
      · simp only [Dict.erase, h, if_false, Dict.lookup, ih hnd.2]

theorem Dict.lookup_erase_ne {V : Type} (d : Dict V) (k k' : Name)
    (h : k ≠ k') : Dict.lookup (Dict.erase d k) k' = Dict.lookup d k' := by
  induction d with
  | nil => simp [Dict.erase, Dict.lookup]
  | cons kv d ih =>
      by_cases hk : kv.1 = k
      · subst hk
        have h1 : kv.1 ≠ k' := h
        simp [Dict.erase, Dict.lookup, h1]
      · simp only [Dict.erase, hk, if_false, Dict.lookup, ih]

theorem Dict.lookup_mapVals {V W : Type} (f : V → W) (d : Dict V) (k : Name) :
    Dict.lookup (Dict.mapVals f d) k = Option.map f (Dict.lookup d k) := by
  induction d with
  | nil => simp [Dict.mapVals, Dict.lookup]
  | cons kv d ih =>
      by_cases h : kv.1 = k
      · simp [Dict.mapVals, Dict.lookup, h]
      · simp only [Dict.mapVals, List.map_cons, Dict.lookup, h, if_false]
        simpa [Dict.mapVals] using ih

theorem Dict.lookup_update_none {V : Type} (d e : Dict V) (k : Name)
    (h : Dict.lookup e k = none) :
    Dict.lookup (Dict.update d e) k = Dict.lookup d k := by
  induction e generalizing d with
  | nil => simp [Dict.update]
  | cons kv e ih =>
      by_cases hk : kv.1 = k
      · simp [Dict.lookup, hk] at h
      · simp only [Dict.lookup, hk, if_false] at h
        show Dict.lookup (Dict.update (Dict.insert d kv.1 kv.2) e) k = Dict.lookup d k
        rw [ih _ h, Dict.lookup_insert_ne _ _ _ _ hk]

theorem Dict.lookup_update_some {V : Type} (d e : Dict V) (k : Name) (v : V)
    (h : Dict.lookup e k = some v) (hnd : (e.map Prod.fst).Nodup) :
    Dict.lookup (Dict.update d e) k = some v := by
  induction e generalizing d with
  | nil => simp [Dict.lookup] at h
  | cons kv e ih =>
      simp only [List.map_cons, List.nodup_cons] at hnd
      by_cases hk : kv.1 = k
      · simp only [Dict.lookup, hk, if_true, Option.some.injEq] at h
        subst h
        subst hk
        show Dict.lookup (Dict.update (Dict.insert d kv.1 kv.2) e) kv.1 = some kv.2
        have he : Dict.lookup e kv.1 = none :=
          Dict.lookup_eq_none_of_not_mem _ _ hnd.1
        rw [Dict.lookup_update_none _ _ _ he, Dict.lookup_insert_self]
      · simp only [Dict.lookup, hk, if_false] at h
        show Dict.lookup (Dict.update (Dict.insert d kv.1 kv.2) e) k = some v
        exact ih _ h hnd.2

/-- Claim C1, counterexample.  The claim states that a run with an
explicit target set returns exactly the subset of the result set
restricted to the requested names.  In the reference scenario with
`targets = ["disposable_income"]` the run returns the full surviving
result set — inputs and all intermediates included — which is not equal
to its restriction to the requested names. -/
theorem C1_counterexample :
    (tax_transfer "2019-01-01" scenario_data [] [] (some ["disposable_income"])).1 =
      Except.ok scenario_full_result ∧
    restrict_to scenario_full_result ["disposable_income"] =
      [("disposable_income", 24000)] ∧
    scenario_full_result ≠ [("disposable_income", 24000)] ∧
    Dict.lookup scenario_full_result "income" = some 25000 := by
  refine ⟨by decide, by decide, by decide, by decide⟩

/-- Claim C2, counterexample.  Running with `targets = "all"` and then
restricting the output to `S = ["disposable_income"]` yields the
one-entry mapping, which differs from the mapping returned by running
directly with `targets = S` (the full surviving result set). -/
theorem C2_counterexample :
    (tax_transfer "2019-01-01" scenario_data [] [] none).1 =
      Except.ok scenario_full_result ∧
    (tax_transfer "2019-01-01" scenario_data [] [] (some ["disposable_income"])).1 =
      Except.ok scenario_full_result ∧
    restrict_to scenario_full_result ["disposable_income"] ≠
      scenario_full_result := by
  refine ⟨by decide, by decide, by decide⟩

/-- Claim C3, counterexample.  With user functions `a(b, params)` and
`b(a, params)` forming a cycle, the run does not fail before any
registered function is invoked: all four built-in functions are invoked
first, and the failure is the `NetworkXUnfeasible` cycle error raised by
the topological-sort generator during execution (the code defines no
`ConfigurationError` and performs no pre-execution cycle check). -/
theorem C3_counterexample :
    tax_transfer "2019-01-01" scenario_data [("a", cyc_a), ("b", cyc_b)] [] none =
      (Except.error RunError.unfeasible, scenario_invoked) ∧
    scenario_invoked ≠ [] := by
  refine ⟨by decide, by decide⟩

/-- Claim C7, counterexample.  A target name absent from the graph is not
a silent no-op for pruning: `prune_dag` itself fails, because the first
pass of its closure loop calls `nx.ancestors(dag, "nonexistent")`, which
raises `NetworkXError` for a node not in the graph.  The full run fails
at the pruning stage with no function invoked, not later during
execution. -/
theorem C7_counterexample :
    prune_dag scenario_graph ["nonexistent"] =
      Except.error (RunError.nodeNotInGraph "nonexistent") ∧
    create_dag (create_function_dict [] (get_params "2019-01-01" [])) =
      Except.ok scenario_graph ∧
    tax_transfer "2019-01-01" scenario_data [] [] (some ["nonexistent"]) =
      (Except.error (RunError.nodeNotInGraph "nonexistent"), []) := by
  refine ⟨by decide, by decide, by decide⟩

/-- Claim C8, corrected version.  In the reference scenario, the run with
`targets = ["disposable_income"]` does not return the one-entry mapping
`{disposable_income: 24000}`: it returns the full surviving result set
(nothing is ever reclaimed), identical to the `targets = "all"` result;
all the individual values claimed are correct. -/
theorem C8_theorem :
    (tax_transfer "2019-01-01" scenario_data [] [] (some ["disposable_income"])).1 =
      Except.ok scenario_full_result ∧
    (tax_transfer "2019-01-01" scenario_data [] [] none).1 =
      Except.ok scenario_full_result ∧
    Dict.lookup scenario_full_result "disposable_income" = some 24000 ∧
    Dict.lookup scenario_full_result "income_taxes" = some 5000 ∧
    Dict.lookup scenario_full_result "wealth_taxes" = some 0 ∧
    Dict.lookup scenario_full_result "benefits" = some 4000 ∧
    Dict.lookup scenario_full_result "income" = some 25000 ∧
    Dict.lookup scenario_full_result "wealth" = some 0 ∧
    Dict.lookup scenario_full_result "n_children" = some 2 := by
  refine ⟨by decide, by decide, by decide, by decide, by decide, by decide,
    by decide, by decide, by decide⟩

/-- Claim C8, counterexample.  The run with an explicit target set does
not return `{disposable_income: 24000}`; the returned mapping has seven
entries. -/
theorem C8_counterexample :
    (tax_transfer "2019-01-01" scenario_data [] [] (some ["disposable_income"])).1 =
      Except.ok scenario_full_result ∧
    scenario_full_result ≠ [("disposable_income", 24000)] := by
  refine ⟨by decide, by decide⟩

/-- Claim C10, counterexample.  Supplying the user function
`extra(income)`, which does not accept a parameter named `params`, makes
the run fail during `create_dag` (signature inspection of the partial
object raises `TypeError`), not "when that node is evaluated": the
failure happens with no function invoked at all, and even though the
requested target `income_taxes` does not depend on `extra`. -/
theorem C10_counterexample :
    tax_transfer "2019-01-01" scenario_data [("extra", no_params_func)] []
        (some ["income_taxes"]) =
      (Except.error (RunError.unsupportedCallable "extra"), []) := by
  decide

theorem NSet.mem_push {s : NSet} {x y : Name} :
    y ∈ NSet.push s x ↔ y ∈ s ∨ y = x := by
  by_cases h : x ∈ s
  · simp only [NSet.push, h, if_true]
    constructor
    · exact Or.inl
    · rintro (hy | rfl)
      · exact hy
      · exact h
  · simp [NSet.push, h]

theorem NSet.subset_push (s : NSet) (x : Name) : s ⊆ NSet.push s x := by
  intro y hy
  exact NSet.mem_push.mpr (Or.inl hy)

theorem NSet.mem_union {s t : NSet} {x : Name} :
    x ∈ NSet.union s t ↔ x ∈ s ∨ x ∈ t := by
  simp only [NSet.union, List.mem_append, List.mem_filter, decide_eq_true_eq]
  constructor
  · rintro (h | ⟨h, _⟩)
    · exact Or.inl h
    · exact Or.inr h
  · rintro (h | h)
    · exact Or.inl h
    · by_cases hs : x ∈ s
      · exact Or.inl hs
      · exact Or.inr ⟨h, hs⟩

theorem mem_closStep {univ : List Name} {E : Name → Name → Bool} {s : NSet}
    {v : Name} :
    v ∈ closStep univ E s ↔
      v ∈ s ∨ (v ∈ univ ∧ v ∉ s ∧ ∃ u ∈ s, E u v = true) := by
  simp [closStep, List.mem_filter, decide_eq_true_eq]

theorem closStep_subset (univ : List Name) (E : Name → Name → Bool) (s : NSet) :
    s ⊆ closStep univ E s :=
  List.subset_append_left _ _

theorem closStep_nodup {univ : List Name} {E : Name → Name → Bool} {s : NSet}
    (hs : s.Nodup) (hu : univ.Nodup) : (closStep univ E s).Nodup := by
  refine List.Nodup.append hs (List.Nodup.filter _ hu) ?_
  intro a ha hb
  simp only [List.mem_filter, decide_eq_true_eq] at hb
  exact hb.2.1 ha

theorem closStep_mem_elim {univ : List Name} {E : Name → Name → Bool}
    {s : NSet} {v : Name} (h : v ∈ closStep univ E s) : v ∈ s ∨ v ∈ univ := by
  rcases mem_closStep.mp h with h | h
  · exact Or.inl h
  · exact Or.inr h.1

theorem clos_iterate_mem_elim {univ : List Name} {E : Name → Name → Bool}
    {s : NSet} {v : Name} :
    ∀ k, v ∈ (closStep univ E)^[k] s → v ∈ s ∨ v ∈ univ := by
  intro k
  induction k generalizing s with
  | zero => exact Or.inl
  | succ k ih =>
      intro hv
      rw [Function.iterate_succ_apply] at hv
      rcases ih hv with h | h
      · exact closStep_mem_elim h
      · exact Or.inr h

theorem clos_iterate_nodup {univ : List Name} {E : Name → Name → Bool}
    {s : NSet} (hs : s.Nodup) (hu : univ.Nodup) :
    ∀ k, ((closStep univ E)^[k] s).Nodup := by
  intro k
  induction k generalizing s with
  | zero => exact hs
  | succ k ih =>
      rw [Function.iterate_succ_apply]
      exact ih (closStep_nodup hs hu)

theorem clos_iterate_subset {univ : List Name} {E : Name → Name → Bool}
    {s : NSet} : ∀ k, s ⊆ (closStep univ E)^[k] s := by
  intro k
  induction k generalizing s with
  | zero => exact fun _ h => h
  | succ k ih =>
      rw [Function.iterate_succ_apply]
      exact fun x hx => ih (closStep_subset univ E s hx)

theorem clos_subset {univ : List Name} {E : Name → Name → Bool} {s : NSet} :
    s ⊆ clos univ E s :=
  clos_iterate_subset univ.length

theorem closStep_eq_of_length {univ : List Name} {E : Name → Name → Bool}
    {s : NSet} (h : (closStep univ E s).length = s.length) :
    closStep univ E s = s := by
  have : (List.filter (fun v => decide (v ∉ s ∧ ∃ u ∈ s, E u v = true)) univ) = [] := by
    have hl : s.length +
        (List.filter (fun v => decide (v ∉ s ∧ ∃ u ∈ s, E u v = true)) univ).length =
        s.length := by
      simpa [closStep] using h
    have := Nat.add_left_cancel (hl.trans (Nat.add_zero s.length).symm)
    exact List.eq_nil_of_length_eq_zero this
  show s ++ _ = s
  rw [this, List.append_nil]

theorem closStep_stable_iterate {univ : List Name} {E : Name → Name → Bool}
    {t : NSet} (h : closStep univ E t = t) :
    ∀ m, (closStep univ E)^[m] t = t := by
  intro m
  induction m with
  | zero => rfl
  | succ m ih => rw [Function.iterate_succ_apply, h, ih]

theorem closStep_length_lt {univ : List Name} {E : Name → Name → Bool}
    {s : NSet} (h : closStep univ E s ≠ s) :
    s.length + 1 ≤ (closStep univ E s).length := by
  by_contra hc
  push_neg at hc
  have hle : s.length ≤ (closStep univ E s).length := by
    simp [closStep]
  have : (closStep univ E s).length = s.length := by omega
  exact h (closStep_eq_of_length this)

theorem clos_iterate_length_le {univ : List Name} {E : Name → Name → Bool}
    {s : NSet} (hs : s.Nodup) (hu : univ.Nodup) (k : Nat) :
    ((closStep univ E)^[k] s).length ≤ s.length + univ.length := by
  have hnd : ((closStep univ E)^[k] s).Nodup := clos_iterate_nodup hs hu k
  have hsub : ∀ v ∈ (closStep univ E)^[k] s, v ∈ s ++ univ := by
    intro v hv
    rcases clos_iterate_mem_elim k hv with h | h
    · exact List.mem_append_left _ h
    · exact List.mem_append_right _ h
  calc ((closStep univ E)^[k] s).length
      = ((closStep univ E)^[k] s).toFinset.card := (List.toFinset_card_of_nodup hnd).symm
    _ ≤ (s ++ univ).toFinset.card := by
        apply Finset.card_le_card
        intro x hx
        rw [List.mem_toFinset] at hx
        rw [List.mem_toFinset]
        exact hsub x hx
    _ ≤ (s ++ univ).length := List.toFinset_card_le _
    _ = s.length + univ.length := List.length_append _ _

theorem clos_fixed {univ : List Name} {E : Name → Name → Bool} {s : NSet}
    (hs : s.Nodup) (hu : univ.Nodup) :
    closStep univ E (clos univ E s) = clos univ E s := by
  by_cases hstab : ∃ k ≤ univ.length, closStep univ E ((closStep univ E)^[k] s) =
      (closStep univ E)^[k] s
  · obtain ⟨k, hk, hfix⟩ := hstab
    have : (closStep univ E)^[univ.length] s = (closStep univ E)^[k] s := by
      have hsplit : univ.length = (univ.length - k) + k := by omega
      rw [hsplit, Function.iterate_add_apply]
      exact closStep_stable_iterate hfix _
    rw [clos, this, hfix]
  · push_neg at hstab
    exfalso
    have hgrow : ∀ k ≤ univ.length + 1,
        s.length + k ≤ ((closStep univ E)^[k] s).length := by
      intro k
      induction k with
      | zero => simp
      | succ k ih =>
          intro hk
          have h1 := ih (by omega)
          have h2 : closStep univ E ((closStep univ E)^[k] s) ≠
              (closStep univ E)^[k] s := hstab k (by omega)
          have h3 := closStep_length_lt h2
          rw [Function.iterate_succ_apply']
          omega
    have h1 := hgrow (univ.length + 1) (le_refl _)
    have h2 := @clos_iterate_length_le univ E s hs hu (univ.length + 1)
    omega

theorem clos_closed {univ : List Name} {E : Name → Name → Bool} {s : NSet}
    (hs : s.Nodup) (hu : univ.Nodup) {u v : Name} (hu' : u ∈ clos univ E s)
    (he : E u v = true) (hv : v ∈ univ) : v ∈ clos univ E s := by
  by_cases hmem : v ∈ clos univ E s
  · exact hmem
  · have : v ∈ closStep univ E (clos univ E s) :=
      mem_closStep.mpr (Or.inr ⟨hv, hmem, u, hu', he⟩)
    rwa [clos_fixed hs hu] at this

theorem clos_minimal {univ : List Name} {E : Name → Name → Bool} {s : NSet}
    (T : Name → Prop) (hbase : ∀ x ∈ s, T x)
    (hstep : ∀ u v, T u → E u v = true → v ∈ univ → T v) :
    ∀ x ∈ clos univ E s, T x := by
  suffices h : ∀ k x, x ∈ (closStep univ E)^[k] s → T x from h univ.length
  intro k
  induction k with
  | zero => exact hbase
  | succ k ih =>
      intro x hx
      rw [Function.iterate_succ_apply'] at hx
      rcases mem_closStep.mp hx with h | ⟨hx1, _, u, hu, he⟩
      · exact ih x h
      · exact hstep u x (ih u hu) he hx1

theorem clos_induction {univ : List Name} {E : Name → Name → Bool} {s : NSet}
    (hs : s.Nodup) (hu : univ.Nodup) (P : Name → Prop)
    (hbase : ∀ x ∈ s, P x)
    (hstep : ∀ u v, u ∈ clos univ E s → P u → E u v = true → v ∈ univ → P v) :
    ∀ x ∈ clos univ E s, P x := by
  have h := @clos_minimal univ E s
    (fun x => x ∈ clos univ E s ∧ P x)
    (fun x hx => ⟨clos_subset hx, hbase x hx⟩)
    (fun u v hT he hv =>
      ⟨clos_closed hs hu hT.1 he hv, hstep u v hT.1 hT.2 he hv⟩)
  exact fun x hx => (h x hx).2

theorem mem_clos_iff {univ : List Name} {E : Name → Name → Bool} {s : NSet}
    (hs : s.Nodup) (hu : univ.Nodup) {v : Name} :
    v ∈ clos univ E s ↔
      v ∈ s ∨ ∃ u ∈ s,
        Relation.TransGen (fun a b => E a b = true ∧ b ∈ univ) u v := by
  constructor
  · intro hv
    refine clos_induction hs hu
      (fun x => x ∈ s ∨ ∃ u ∈ s,
        Relation.TransGen (fun a b => E a b = true ∧ b ∈ univ) u x)
      (fun x hx => Or.inl hx) ?_ v hv
    intro u w _ hPu he hw
    rcases hPu with hu' | ⟨r, hr, htg⟩
    · exact Or.inr ⟨u, hu', Relation.TransGen.single ⟨he, hw⟩⟩
    · exact Or.inr ⟨r, hr, htg.tail ⟨he, hw⟩⟩
  · rintro (hv | ⟨u, hu', htg⟩)
    · exact clos_subset hv
    · induction htg with
      | single h => exact clos_closed hs hu (clos_subset hu') h.1 h.2
      | tail _ h ih => exact clos_closed hs hu ih h.1 h.2

theorem DiGraph.mem_succs {g : DiGraph} {u v : Name} :
    v ∈ g.succs u ↔ (u, v) ∈ g.edges := by
  simp only [DiGraph.succs, List.mem_map, List.mem_filter, decide_eq_true_eq]
  constructor
  · rintro ⟨e, ⟨he, h1⟩, h2⟩
    obtain ⟨a, b⟩ := e
    simp only at h1 h2
    subst h1
    subst h2
    exact he
  · intro h
    exact ⟨(u, v), ⟨h, rfl⟩, rfl⟩

theorem DiGraph.mem_preds {g : DiGraph} {u v : Name} :
    u ∈ g.preds v ↔ (u, v) ∈ g.edges := by
  simp only [DiGraph.preds, List.mem_map, List.mem_filter, decide_eq_true_eq]
  constructor
  · rintro ⟨e, ⟨he, h1⟩, h2⟩
    obtain ⟨a, b⟩ := e
    simp only at h1 h2
    subst h1
    subst h2
    exact he
  · intro h
    exact ⟨(u, v), ⟨h, rfl⟩, rfl⟩

theorem DiGraph.succs_nodup {g : DiGraph} (hwf : g.WF) (u : Name) :
    (g.succs u).Nodup := by
  apply List.Nodup.map_on
  · intro e1 h1 e2 h2 he
    simp only [List.mem_filter, decide_eq_true_eq] at h1 h2
    obtain ⟨a1, b1⟩ := e1
    obtain ⟨a2, b2⟩ := e2
    simp only at h1 h2 he
    rw [h1.2, h2.2, he]
  · exact List.Nodup.filter _ hwf.edges_nodup

theorem DiGraph.preds_nodup {g : DiGraph} (hwf : g.WF) (v : Name) :
    (g.preds v).Nodup := by
  apply List.Nodup.map_on
  · intro e1 h1 e2 h2 he
    simp only [List.mem_filter, decide_eq_true_eq] at h1 h2
    obtain ⟨a1, b1⟩ := e1
    obtain ⟨a2, b2⟩ := e2
    simp only at h1 h2 he
    rw [h1.2, h2.2, he]
  · exact List.Nodup.filter _ hwf.edges_nodup

theorem transGen_fwd_iff {g : DiGraph} (hwf : g.WF) {a b : Name} :
    Relation.TransGen (fun x y => g.edgeB x y = true ∧ y ∈ g.nodes) a b ↔
      g.Reaches a b := by
  constructor
  · intro h
    exact Relation.TransGen.mono
      (fun x y hxy => by
        have := hxy.1
        simpa [DiGraph.edgeB] using this) h
  · intro h
    exact Relation.TransGen.mono
      (fun x y hxy => ⟨by simpa [DiGraph.edgeB] using hxy,
        hwf.edges_snd _ hxy⟩) h

theorem transGen_bwd_iff {g : DiGraph} (hwf : g.WF) {a b : Name} :
    Relation.TransGen (fun x y => g.edgeB y x = true ∧ y ∈ g.nodes) a b ↔
      g.Reaches b a := by
  constructor
  · intro h
    have h' : Relation.TransGen
        (Function.swap (fun x y => g.edgeB y x = true ∧ y ∈ g.nodes)) b a :=
      Relation.transGen_swap.mpr h
    exact Relation.TransGen.mono
      (fun x y hxy => by
        have := hxy.1
        simpa [DiGraph.edgeB, Function.swap] using this) h'
  · intro h
    rw [← Relation.transGen_swap (r := fun x y => g.edgeB y x = true ∧ y ∈ g.nodes)]
    exact Relation.TransGen.mono
      (fun x y hxy => ⟨by simpa [DiGraph.edgeB, Function.swap] using hxy,
        hwf.edges_fst _ hxy⟩) h

theorem mem_reachFrom_iff {g : DiGraph} (hwf : g.WF) {n v : Name} :
    v ∈ g.reachFrom n ↔ v = n ∨ g.Reaches n v := by
  rw [DiGraph.reachFrom, mem_clos_iff (List.nodup_singleton n) hwf.nodes_nodup]
  simp only [List.mem_singleton]
  constructor
  · rintro (h | ⟨u, rfl, htg⟩)
    · exact Or.inl h
    · exact Or.inr ((transGen_fwd_iff hwf).mp htg)
  · rintro (h | h)
    · exact Or.inl h
    · exact Or.inr ⟨n, rfl, (transGen_fwd_iff hwf).mpr h⟩

theorem mem_reachTo_iff {g : DiGraph} (hwf : g.WF) {n v : Name} :
    v ∈ g.reachTo n ↔ v = n ∨ g.Reaches v n := by
  rw [DiGraph.reachTo, mem_clos_iff (List.nodup_singleton n) hwf.nodes_nodup]
  simp only [List.mem_singleton]
  constructor
  · rintro (h | ⟨u, rfl, htg⟩)
    · exact Or.inl h
    · exact Or.inr ((transGen_bwd_iff hwf).mp htg)
  · rintro (h | h)
    · exact Or.inl h
    · exact Or.inr ⟨n, rfl, (transGen_bwd_iff hwf).mpr h⟩

theorem mem_descendants_iff {g : DiGraph} (hwf : g.WF) {n v : Name} :
    v ∈ g.descendants n ↔ v ≠ n ∧ g.Reaches n v := by
  simp only [DiGraph.descendants, List.mem_filter, decide_eq_true_eq,
    mem_reachFrom_iff hwf]
  constructor
  · rintro ⟨h | h, hne⟩
    · exact absurd h hne
    · exact ⟨hne, h⟩
  · rintro ⟨hne, h⟩
    exact ⟨Or.inr h, hne⟩

theorem mem_ancestors_iff {g : DiGraph} (hwf : g.WF) {n v : Name} :
    v ∈ g.ancestors n ↔ v ≠ n ∧ g.Reaches v n := by
  simp only [DiGraph.ancestors, List.mem_filter, decide_eq_true_eq,
    mem_reachTo_iff hwf]
  constructor
  · rintro ⟨h | h, hne⟩
    · exact absurd h hne
    · exact ⟨hne, h⟩
  · rintro ⟨hne, h⟩
    exact ⟨Or.inr h, hne⟩

theorem ancestors_iff_descendants {g : DiGraph} (hwf : g.WF) {a b : Name} :
    a ∈ g.ancestors b ↔ b ∈ g.descendants a := by
  rw [mem_ancestors_iff hwf, mem_descendants_iff hwf]
  constructor
  · rintro ⟨hne, h⟩
    exact ⟨fun he => hne he.symm, h⟩
  · rintro ⟨hne, h⟩
    exact ⟨fun he => hne he.symm, h⟩

theorem descendants_subset_nodes {g : DiGraph} (hwf : g.WF) {n v : Name}
    (h : v ∈ g.descendants n) : v ∈ g.nodes := by
  rw [mem_descendants_iff hwf] at h
  rcases h.2 with h' | h'
  · exact hwf.edges_snd _ h'
  · rename_i c hc
    exact hwf.edges_snd _ hc

theorem ancestors_subset_nodes {g : DiGraph} (hwf : g.WF) {n v : Name}
    (h : v ∈ g.ancestors n) : v ∈ g.nodes := by
  rw [mem_ancestors_iff hwf] at h
  obtain ⟨-, htg⟩ := h
  induction htg with
  | single he => exact hwf.edges_fst _ he
  | tail _ _ ih => exact ih

theorem Dict.keys_insert {V : Type} (d : Dict V) (k : Name) (v : V) :
    (Dict.insert d k v).map Prod.fst =
      if k ∈ d.map Prod.fst then d.map Prod.fst else d.map Prod.fst ++ [k] := by
  induction d with
  | nil => simp [Dict.insert]
  | cons kv d ih =>
      by_cases hk : kv.1 = k
      · subst hk
        simp [Dict.insert]
      · by_cases hm : k ∈ d.map Prod.fst
        · simp [Dict.insert, hk, ih, hm, List.mem_cons]
        · simp [Dict.insert, hk, ih, hm, List.mem_cons, Ne.symm hk]

theorem Dict.keys_insert_nodup {V : Type} {d : Dict V} (k : Name) (v : V)
    (h : (d.map Prod.fst).Nodup) :
    ((Dict.insert d k v).map Prod.fst).Nodup := by
  rw [Dict.keys_insert]
  by_cases hm : k ∈ d.map Prod.fst
  · simpa [hm] using h
  · simp only [hm, if_false]
    simp [List.nodup_append, h, hm]

theorem Dict.keys_erase {V : Type} (d : Dict V) (k : Name) :
    (Dict.erase d k).map Prod.fst = (d.map Prod.fst).erase k := by
  induction d with
  | nil => simp [Dict.erase]
  | cons kv d ih =>
      by_cases hk : kv.1 = k
      · subst hk
        simp [Dict.erase]
      · simp only [Dict.erase, hk, if_false, List.map_cons, ih]
        rw [List.erase_cons_tail]
        simp [hk]

theorem Dict.keys_erase_nodup {V : Type} {d : Dict V} (k : Name)
    (h : (d.map Prod.fst).Nodup) :
    ((Dict.erase d k).map Prod.fst).Nodup := by
  rw [Dict.keys_erase]
  exact h.erase k

theorem Dict.length_insert_of_isSome {V : Type} {d : Dict V} {k : Name} (v : V)
    (h : (Dict.lookup d k).isSome) :
    (Dict.insert d k v).length = d.length := by
  induction d with
  | nil => simp [Dict.lookup] at h
  | cons kv d ih =>
      by_cases hk : kv.1 = k
      · simp [Dict.insert, hk]
      · simp only [Dict.lookup, hk, if_false] at h
        simp [Dict.insert, hk, ih h]

theorem Dict.length_erase_of_isSome {V : Type} {d : Dict V} {k : Name}
    (h : (Dict.lookup d k).isSome) :
    (Dict.erase d k).length + 1 = d.length := by
  induction d with
  | nil => simp [Dict.lookup] at h
  | cons kv d ih =>
      by_cases hk : kv.1 = k
      · simp [Dict.erase, hk]
      · simp only [Dict.lookup, hk, if_false] at h
        simp only [Dict.erase, hk, if_false, List.length_cons]
        rw [← ih h]

theorem remIndeg_eq_preds (g : DiGraph) (P : List Name) (v : Name) :
    remIndeg g P v =
      ((g.preds v).filter (fun u => decide (u ∉ P))).length := by
  unfold remIndeg DiGraph.preds
  induction g.edges with
  | nil => rfl
  | cons e es ih =>
      by_cases h2 : e.2 = v
      · by_cases h1 : e.1 ∈ P
        · rw [List.filter_cons, if_neg (by simp [h1, h2]), List.filter_cons,
            if_pos (by simp [h2]), List.map_cons, List.filter_cons,
            if_neg (by simp [h1])]
          exact ih
        · rw [List.filter_cons, if_pos (by simp [h1, h2]), List.filter_cons,
            if_pos (by simp [h2]), List.map_cons, List.filter_cons,
            if_pos (by simp [h1])]
          simp only [List.length_cons, ih]
      · rw [List.filter_cons, if_neg (by simp [h2]), List.filter_cons,
          if_neg (by simp [h2])]
        exact ih

theorem remIndeg_zero_iff (g : DiGraph) (P : List Name) (v : Name) :
    remIndeg g P v = 0 ↔ ∀ u, (u, v) ∈ g.edges → u ∈ P := by
  unfold remIndeg
  rw [List.length_eq_zero, List.filter_eq_nil_iff]
  constructor
  · intro h u hu
    by_contra hc
    exact h (u, v) hu (by simp [hc])
  · intro h e he
    simp only [decide_eq_true_eq, not_and, not_not]
    intro h2
    apply h e.1
    rw [← h2]
    have heta : (e.1, e.2) = e := rfl
    rw [heta]
    exact he

theorem remIndeg_pos (g : DiGraph) (P : List Name) {u v : Name}
    (he : (u, v) ∈ g.edges) (hu : u ∉ P) : 0 < remIndeg g P v := by
  unfold remIndeg
  have hmem : (u, v) ∈ g.edges.filter (fun e => decide (e.2 = v ∧ e.1 ∉ P)) := by
    rw [List.mem_filter]
    exact ⟨he, by simp [hu]⟩
  exact List.length_pos_of_mem hmem

theorem filter_ne_eq_erase (l : List Name) (n : Name) (hl : l.Nodup) :
    l.filter (fun u => decide (u ≠ n)) = l.erase n := by
  rw [List.Nodup.erase_eq_filter hl n]
  apply List.filter_congr
  intro a _
  by_cases h : a = n <;> simp [h]

theorem remIndeg_append (g : DiGraph) (hwf : g.WF) (P : List Name) (n v : Name) :
    remIndeg g (P ++ [n]) v =
      if (n, v) ∈ g.edges ∧ n ∉ P then remIndeg g P v - 1
      else remIndeg g P v := by
  rw [remIndeg_eq_preds, remIndeg_eq_preds]
  have hcong : (g.preds v).filter (fun u => decide (u ∉ P ++ [n])) =
      ((g.preds v).filter (fun u => decide (u ∉ P))).filter
        (fun u => decide (u ≠ n)) := by
    rw [List.filter_filter]
    apply List.filter_congr
    intro a _
    by_cases h1 : a ∈ P <;> by_cases h2 : a = n <;>
      simp [h1, h2, List.mem_append]
  have hnd : ((g.preds v).filter (fun u => decide (u ∉ P))).Nodup :=
    List.Nodup.filter _ (DiGraph.preds_nodup hwf v)
  rw [hcong, filter_ne_eq_erase _ _ hnd]
  by_cases hcase : (n, v) ∈ g.edges ∧ n ∉ P
  · have hmem : n ∈ (g.preds v).filter (fun u => decide (u ∉ P)) := by
      rw [List.mem_filter]
      exact ⟨DiGraph.mem_preds.mpr hcase.1, by simp [hcase.2]⟩
    rw [if_pos hcase, List.length_erase_of_mem hmem]
  · have hnm : n ∉ (g.preds v).filter (fun u => decide (u ∉ P)) := by
      rw [List.mem_filter]
      rintro ⟨hp, hnp⟩
      simp only [decide_eq_true_eq] at hnp
      exact hcase ⟨DiGraph.mem_preds.mp hp, hnp⟩
    rw [if_neg hcase, List.erase_of_not_mem hnm]

theorem remIndeg_append_zero (g : DiGraph) (hwf : g.WF) (P : List Name)
    (n v : Name) (h : remIndeg g P v = 0) : remIndeg g (P ++ [n]) v = 0 := by
  rw [remIndeg_append g hwf]
  split <;> omega

theorem topoList_nil (g : DiGraph) : TopoList g [] := by
  intro l1 v l2 heq
  exact absurd heq (by simp)

theorem topoList_append_singleton {g : DiGraph} {P : List Name} {n : Name}
    (hP : TopoList g P) (hn : ∀ u, (u, n) ∈ g.edges → u ∈ P) :
    TopoList g (P ++ [n]) := by
  intro l1 v l2 heq u hu
  rcases List.eq_nil_or_concat l2 with rfl | ⟨l2h, last, rfl⟩
  · have h2 : l1 ++ [v] = P ++ [n] := by simpa using heq.symm
    obtain ⟨h3, h4⟩ := List.append_inj' h2 rfl
    simp only [List.cons.injEq, and_true] at h4
    subst h3
    subst h4
    exact hn u hu
  · have h2 : (l1 ++ v :: l2h) ++ [last] = P ++ [n] := by
      simpa using heq.symm
    obtain ⟨h3, -⟩ := List.append_inj' h2 rfl
    exact hP l1 v l2h h3.symm u hu

theorem exists_first_with {L : List Name} {Q : Name → Prop} [DecidablePred Q]
    (h : ∃ x ∈ L, Q x) :
    ∃ l1 x l2, L = l1 ++ x :: l2 ∧ Q x ∧ ∀ y ∈ l1, ¬Q y := by
  induction L with
  | nil => simp at h
  | cons a L ih =>
      by_cases ha : Q a
      · exact ⟨[], a, L, rfl, ha, by simp⟩
      · have h' : ∃ x ∈ L, Q x := by
          obtain ⟨x, hx, hQ⟩ := h
          rcases List.mem_cons.mp hx with rfl | hx'
          · exact absurd hQ ha
          · exact ⟨x, hx', hQ⟩
        obtain ⟨l1, x, l2, heq, hQ, hnone⟩ := ih h'
        refine ⟨a :: l1, x, l2, by rw [heq]; rfl, hQ, ?_⟩
        intro y hy
        rcases List.mem_cons.mp hy with rfl | hy'
        · exact ha
        · exact hnone y hy'

theorem not_mem_of_nodup_middle {L pre rest : List Name} {t : Name}
    (hnd : L.Nodup) (heq : L = pre ++ t :: rest) : t ∉ pre := by
  subst heq
  rw [List.nodup_append] at hnd
  intro hc
  exact hnd.2.2 hc (List.mem_cons_self _ _)

theorem topo_reach_not_before {g : DiGraph} {L : List Name}
    (ht : TopoList g L) (hnd : L.Nodup) {pre rest : List Name} {t : Name}
    (heq : L = pre ++ t :: rest) {w : Name} (hr : g.Reaches t w) :
    w ∉ pre ∧ w ≠ t := by
  have htpre : t ∉ pre := not_mem_of_nodup_middle hnd heq
  induction hr with
  | @single b he =>
      constructor
      · intro hw
        obtain ⟨p1, p2, hp⟩ := List.append_of_mem hw
        have hdec : L = p1 ++ b :: (p2 ++ t :: rest) := by
          rw [heq, hp]
          simp
        have := ht p1 b (p2 ++ t :: rest) hdec t he
        exact htpre (hp ▸ List.mem_append_left _ this)
      · rintro rfl
        exact htpre (ht pre b rest heq b he)
  | @tail b c htb he ih =>
      obtain ⟨hb1, hb2⟩ := ih
      constructor
      · intro hw
        obtain ⟨p1, p2, hp⟩ := List.append_of_mem hw
        have hdec : L = p1 ++ c :: (p2 ++ t :: rest) := by
          rw [heq, hp]
          simp
        have := ht p1 c (p2 ++ t :: rest) hdec b he
        exact hb1 (hp ▸ List.mem_append_left _ this)
      · rintro rfl
        exact hb1 (ht pre c rest heq b he)

theorem processSuccs_length :
    ∀ (cs : List Name) (indeg : Dict Nat) (newz : List Name),
      (processSuccs cs indeg newz).1.length +
        (processSuccs cs indeg newz).2.length =
      indeg.length + newz.length := by
  intro cs
  induction cs with
  | nil => intro indeg newz; rfl
  | cons c cs ih =>
      intro indeg newz
      cases hl : Dict.lookup indeg c with
      | none => simp only [processSuccs, hl]; exact ih indeg newz
      | some d =>
          simp only [processSuccs, hl]
          by_cases hd : d - 1 = 0
          · simp only [hd, if_true]
            rw [ih]
            have h1 : (Dict.erase indeg c).length + 1 = indeg.length :=
              Dict.length_erase_of_isSome (by rw [hl]; rfl)
            simp only [List.length_append, List.length_cons, List.length_nil]
            omega
          · simp only [hd, if_false]
            rw [ih]
            have h1 : (Dict.insert indeg c (d - 1)).length = indeg.length :=
              Dict.length_insert_of_isSome _ (by rw [hl]; rfl)
            omega

theorem processSuccs_go {g : DiGraph} (hwf : g.WF) (P zero : List Name)
    (n : Name) (hnP : n ∉ P)
    (hPrem : ∀ p ∈ P, remIndeg g P p = 0)
    (hzrem : ∀ z ∈ zero, remIndeg g P z = 0) :
    ∀ (cs done : List Name) (indeg : Dict Nat) (newz : List Name),
      g.succs n = done ++ cs →
      newz = done.filter (fun v => decide (remIndeg g P v = 1)) →
      (indeg.map Prod.fst).Nodup →
      (∀ v, v ∈ g.nodes → v ∉ P → v ∉ zero →
        (v ∈ done → (remIndeg g P v = 1 → Dict.lookup indeg v = none) ∧
          (remIndeg g P v ≠ 1 →
            Dict.lookup indeg v = some (remIndeg g P v - 1) ∧
              1 < remIndeg g P v)) ∧
        (v ∉ done →
          Dict.lookup indeg v = some (remIndeg g P v) ∧ 0 < remIndeg g P v)) →
      (∀ v, v ∉ g.nodes ∨ v ∈ P ∨ v ∈ zero → Dict.lookup indeg v = none) →
      ((processSuccs cs indeg newz).2 =
          (g.succs n).filter (fun v => decide (remIndeg g P v = 1))) ∧
      ((processSuccs cs indeg newz).1.map Prod.fst).Nodup ∧
      (∀ v, v ∈ g.nodes → v ∉ P → v ∉ zero →
        (v ∈ g.succs n → (remIndeg g P v = 1 →
            Dict.lookup (processSuccs cs indeg newz).1 v = none) ∧
          (remIndeg g P v ≠ 1 →
            Dict.lookup (processSuccs cs indeg newz).1 v =
              some (remIndeg g P v - 1) ∧ 1 < remIndeg g P v)) ∧
        (v ∉ g.succs n →
          Dict.lookup (processSuccs cs indeg newz).1 v =
            some (remIndeg g P v) ∧ 0 < remIndeg g P v)) ∧
      (∀ v, v ∉ g.nodes ∨ v ∈ P ∨ v ∈ zero →
        Dict.lookup (processSuccs cs indeg newz).1 v = none) := by
  intro cs
  induction cs with
  | nil =>
      intro done indeg newz heq hnewz hkeys hsome hnone
      rw [List.append_nil] at heq
      subst heq
      refine ⟨by simpa [processSuccs] using hnewz, hkeys, ?_, hnone⟩
      intro v hv1 hv2 hv3
      exact hsome v hv1 hv2 hv3
  | cons c cs ih =>
      intro done indeg newz heq hnewz hkeys hsome hnone
      have hcmem : c ∈ g.succs n := by
        rw [heq]
        exact List.mem_append_right _ (List.mem_cons_self _ _)
      have hedge : (n, c) ∈ g.edges := DiGraph.mem_succs.mp hcmem
      have hcnodes : c ∈ g.nodes := hwf.edges_snd _ hedge
      have hcpos : 0 < remIndeg g P c := remIndeg_pos g P hedge hnP
      have hcP : c ∉ P := by
        intro hc
        rw [hPrem c hc] at hcpos
        exact Nat.lt_irrefl 0 hcpos
      have hczero : c ∉ zero := by
        intro hc
        rw [hzrem c hc] at hcpos
        exact Nat.lt_irrefl 0 hcpos
      have hsnodup : (g.succs n).Nodup := DiGraph.succs_nodup hwf n
      have hcdone : c ∉ done := by
        rw [heq, List.nodup_append] at hsnodup
        intro hc
        exact hsnodup.2.2 hc (List.mem_cons_self _ _)
      have hlook : Dict.lookup indeg c = some (remIndeg g P c) :=
        ((hsome c hcnodes hcP hczero).2 hcdone).1
      have heq' : g.succs n = (done ++ [c]) ++ cs := by
        rw [heq, List.append_assoc, List.singleton_append]
      by_cases hrem1 : remIndeg g P c = 1
      · have hred : processSuccs (c :: cs) indeg newz =
            processSuccs cs (Dict.erase indeg c) (newz ++ [c]) := by
          simp [processSuccs, hlook, hrem1]
        rw [hred]
        apply ih (done ++ [c]) (Dict.erase indeg c) (newz ++ [c]) heq'
        · rw [hnewz, List.filter_append]
          congr 1
          simp [hrem1]
        · exact Dict.keys_erase_nodup c hkeys
        · intro v hv1 hv2 hv3
          constructor
          · intro hvdone
            rcases List.mem_append.mp hvdone with hvd | hvc
            · have hvc : v ≠ c := fun he => hcdone (he ▸ hvd)
              constructor
              · intro h1
                rw [Dict.lookup_erase_ne _ _ _ (Ne.symm hvc)]
                exact ((hsome v hv1 hv2 hv3).1 hvd).1 h1
              · intro h1
                rw [Dict.lookup_erase_ne _ _ _ (Ne.symm hvc)]
                exact ((hsome v hv1 hv2 hv3).1 hvd).2 h1
            · rw [List.mem_singleton] at hvc
              subst hvc
              constructor
              · intro _
                exact Dict.lookup_erase_self _ _ hkeys
              · intro h1
                exact absurd hrem1 h1
          · intro hvdone
            have hvd : v ∉ done := fun hc => hvdone (List.mem_append_left _ hc)
            have hvc : v ≠ c := by
              intro he
              apply hvdone
              rw [he]
              exact List.mem_append_right _ (List.mem_singleton_self c)
            rw [Dict.lookup_erase_ne _ _ _ (Ne.symm hvc)]
            exact (hsome v hv1 hv2 hv3).2 hvd
        · intro v hv
          have hvc : v ≠ c := by
            intro he
            subst he
            rcases hv with h | h | h
            · exact h hcnodes
            · exact hcP h
            · exact hczero h
          rw [Dict.lookup_erase_ne _ _ _ (Ne.symm hvc)]
          exact hnone v hv
      · have hgt : 1 < remIndeg g P c := by omega
        have hred : processSuccs (c :: cs) indeg newz =
            processSuccs cs (Dict.insert indeg c (remIndeg g P c - 1)) newz := by
          simp only [processSuccs, hlook]
          rw [if_neg (by omega)]
        rw [hred]
        apply ih (done ++ [c]) _ newz heq'
        · rw [hnewz, List.filter_append]
          have : List.filter (fun v => decide (remIndeg g P v = 1)) [c] = [] := by
            simp [hrem1]
          rw [this, List.append_nil]
        · exact Dict.keys_insert_nodup c _ hkeys
        · intro v hv1 hv2 hv3
          constructor
          · intro hvdone
            rcases List.mem_append.mp hvdone with hvd | hvc
            · have hvc : v ≠ c := fun he => hcdone (he ▸ hvd)
              constructor
              · intro h1
                rw [Dict.lookup_insert_ne _ _ _ _ (Ne.symm hvc)]
                exact ((hsome v hv1 hv2 hv3).1 hvd).1 h1
              · intro h1
                rw [Dict.lookup_insert_ne _ _ _ _ (Ne.symm hvc)]
                exact ((hsome v hv1 hv2 hv3).1 hvd).2 h1
            · rw [List.mem_singleton] at hvc
              subst hvc
              constructor
              · intro h1
                exact absurd h1 hrem1
              · intro _
                exact ⟨Dict.lookup_insert_self _ _ _, hgt⟩
          · intro hvdone
            have hvd : v ∉ done := fun hc => hvdone (List.mem_append_left _ hc)
            have hvc : v ≠ c := by
              intro he
              apply hvdone
              rw [he]
              exact List.mem_append_right _ (List.mem_singleton_self c)
            rw [Dict.lookup_insert_ne _ _ _ _ (Ne.symm hvc)]
            exact (hsome v hv1 hv2 hv3).2 hvd
        · intro v hv
          have hvc : v ≠ c := by
            intro he
            subst he
            rcases hv with h | h | h
            · exact h hcnodes
            · exact hcP h
            · exact hczero h
          rw [Dict.lookup_insert_ne _ _ _ _ (Ne.symm hvc)]
          exact hnone v hv

theorem kahnFuel_spec {g : DiGraph} (hwf : g.WF) :
    ∀ (fuel : Nat) (indeg : Dict Nat) (zero P : List Name),
      KahnInv g P indeg zero →
      indeg.length + zero.length ≤ fuel →
      TopoList g (P ++ (kahnFuel g fuel indeg zero).1) ∧
      (P ++ (kahnFuel g fuel indeg zero).1).Nodup ∧
      (∀ v ∈ (kahnFuel g fuel indeg zero).1, v ∈ g.nodes) ∧
      ((kahnFuel g fuel indeg zero).2 = false →
        ∀ v ∈ g.nodes, v ∈ P ++ (kahnFuel g fuel indeg zero).1) := by
  intro fuel
  induction fuel with
  | zero =>
      intro indeg zero P inv hfuel
      rcases List.eq_nil_or_concat zero with rfl | ⟨zs, nd, rfl⟩
      · simp only [kahnFuel, List.getLast?_eq_none_iff.mpr rfl]
        refine ⟨by simpa using inv.popped_topo, by simpa using inv.popped_nodup,
          by simp, ?_⟩
        intro herr v hv
        simp only [Bool.not_eq_false'] at herr
        have hempty : indeg = [] := List.isEmpty_iff.mp herr
        rw [List.append_nil]
        by_contra hP
        have := (inv.indeg_some v hv hP (by simp)).1
        rw [hempty] at this
        exact Option.noConfusion this
      · exfalso
        rw [List.concat_eq_append] at hfuel
        simp only [List.length_append, List.length_cons, List.length_nil] at hfuel
        omega
  | succ f ihf =>
      intro indeg zero P inv hfuel
      rcases List.eq_nil_or_concat zero with rfl | ⟨zs, nd, rfl⟩
      · simp only [kahnFuel, List.getLast?_eq_none_iff.mpr rfl]
        refine ⟨by simpa using inv.popped_topo, by simpa using inv.popped_nodup,
          by simp, ?_⟩
        intro herr v hv
        simp only [Bool.not_eq_false'] at herr
        have hempty : indeg = [] := List.isEmpty_iff.mp herr
        rw [List.append_nil]
        by_contra hP
        have := (inv.indeg_some v hv hP (by simp)).1
        rw [hempty] at this
        exact Option.noConfusion this
      · rw [List.concat_eq_append] at inv hfuel ⊢
        have hndzero : nd ∈ zs ++ [nd] :=
          List.mem_append_right _ (List.mem_singleton_self nd)
        have hndP : nd ∉ P := inv.zero_fresh nd hndzero
        have hndrem : remIndeg g P nd = 0 := inv.zero_rem nd hndzero
        have hndnodes : nd ∈ g.nodes := inv.zero_nodes nd hndzero
        have hndnotzs : nd ∉ zs := by
          have := inv.zero_nodup
          rw [List.nodup_append] at this
          intro hc
          exact this.2.2 hc (List.mem_singleton_self nd)
        have hred : kahnFuel g (f + 1) indeg (zs ++ [nd]) =
            ((nd :: (kahnFuel g f (processSuccs (g.succs nd) indeg []).1
                (zs ++ (processSuccs (g.succs nd) indeg []).2)).1),
             (kahnFuel g f (processSuccs (g.succs nd) indeg []).1
                (zs ++ (processSuccs (g.succs nd) indeg []).2)).2) := by
          conv_lhs => rw [kahnFuel]
          rw [List.getLast?_concat, List.dropLast_concat]
        have hspec := processSuccs_go hwf P (zs ++ [nd]) nd hndP
          inv.popped_rem inv.zero_rem (g.succs nd) [] indeg [] rfl rfl
          inv.indeg_keys
          (by
            intro v hv1 hv2 hv3
            exact ⟨fun hc => absurd hc (List.not_mem_nil v),
              fun _ => inv.indeg_some v hv1 hv2 hv3⟩)
          inv.indeg_none
        obtain ⟨hz2, hkeys2, hsome2, hnone2⟩ := hspec
        set ps := processSuccs (g.succs nd) indeg [] with hps
        have hlen : ps.1.length + ps.2.length = indeg.length := by
          have := processSuccs_length (g.succs nd) indeg []
          simpa using this
        have hnewz_mem : ∀ v ∈ ps.2, v ∈ g.succs nd ∧ remIndeg g P v = 1 := by
          intro v hv
          rw [hz2] at hv
          rw [List.mem_filter] at hv
          exact ⟨hv.1, by simpa using hv.2⟩
        have hnewz_in : ∀ v, v ∈ g.succs nd → remIndeg g P v = 1 → v ∈ ps.2 := by
          intro v hv hr
          rw [hz2, List.mem_filter]
          exact ⟨hv, by simpa using hr⟩
        have hsucc_edge : ∀ v, v ∈ g.succs nd ↔ (nd, v) ∈ g.edges :=
          fun v => DiGraph.mem_succs
        have hnewz_nodes : ∀ v ∈ ps.2, v ∈ g.nodes := by
          intro v hv
          exact hwf.edges_snd _ ((hsucc_edge v).mp (hnewz_mem v hv).1)
        have hnewz_notP : ∀ v ∈ ps.2, v ∉ P := by
          intro v hv hc
          have := inv.popped_rem v hc
          rw [(hnewz_mem v hv).2] at this
          exact Nat.noConfusion this
        have hnewz_notzero : ∀ v ∈ ps.2, v ∉ zs ++ [nd] := by
          intro v hv hc
          have := inv.zero_rem v hc
          rw [(hnewz_mem v hv).2] at this
          exact Nat.noConfusion this
        have hrem' : ∀ v, remIndeg g (P ++ [nd]) v =
            if (nd, v) ∈ g.edges ∧ nd ∉ P then remIndeg g P v - 1
            else remIndeg g P v := fun v => remIndeg_append g hwf P nd v
        have inv' : KahnInv g (P ++ [nd]) ps.1 (zs ++ ps.2) := by
          refine ⟨?_, ?_, ?_, ?_, ?_, ?_, ?_, ?_, ?_, ?_, ?_⟩
          · intro p hp
            rcases List.mem_append.mp hp with h | h
            · exact inv.popped_nodes p h
            · rw [List.mem_singleton] at h
              exact h ▸ hndnodes
          · rw [List.nodup_append]
            exact ⟨inv.popped_nodup, List.nodup_singleton nd,
              fun a ha hb => (List.mem_singleton.mp hb ▸ hndP) (List.mem_singleton.mp hb ▸ ha)⟩
          · rw [List.nodup_append]
            refine ⟨(List.nodup_append.mp inv.zero_nodup).1, ?_, ?_⟩
            · rw [hz2]
              exact List.Nodup.filter _ (DiGraph.succs_nodup hwf nd)
            · intro a ha hb
              have := inv.zero_rem a (List.mem_append_left _ ha)
              rw [(hnewz_mem a hb).2] at this
              exact Nat.noConfusion this
          · intro z hz
            rcases List.mem_append.mp hz with h | h
            · intro hc
              rcases List.mem_append.mp hc with h2 | h2
              · exact inv.zero_fresh z (List.mem_append_left _ h) h2
              · rw [List.mem_singleton] at h2
                exact hndnotzs (h2 ▸ h)
            · intro hc
              rcases List.mem_append.mp hc with h2 | h2
              · exact hnewz_notP z h h2
              · rw [List.mem_singleton] at h2
                have := (hnewz_mem z h).2
                rw [h2, hndrem] at this
                exact Nat.noConfusion this
          · intro z hz
            rcases List.mem_append.mp hz with h | h
            · exact inv.zero_nodes z (List.mem_append_left _ h)
            · exact hnewz_nodes z h
          · intro z hz
            rcases List.mem_append.mp hz with h | h
            · exact remIndeg_append_zero g hwf P nd z
                (inv.zero_rem z (List.mem_append_left _ h))
            · rw [hrem' z, if_pos ⟨(hsucc_edge z).mp (hnewz_mem z h).1, hndP⟩,
                (hnewz_mem z h).2]
          · intro p hp
            rcases List.mem_append.mp hp with h | h
            · exact remIndeg_append_zero g hwf P nd p (inv.popped_rem p h)
            · rw [List.mem_singleton] at h
              rw [h]
              exact remIndeg_append_zero g hwf P nd nd hndrem
          · intro v hv1 hv2 hv3
            have hvP : v ∉ P := fun hc => hv2 (List.mem_append_left _ hc)
            have hvnd : v ≠ nd := by
              intro hc
              exact hv2 (List.mem_append_right _ (by rw [hc]; exact List.mem_singleton_self nd))
            have hvzs : v ∉ zs := fun hc => hv3 (List.mem_append_left _ hc)
            have hvz : v ∉ zs ++ [nd] := by
              intro hc
              rcases List.mem_append.mp hc with h | h
              · exact hvzs h
              · exact hvnd (List.mem_singleton.mp h)
            have hvnew : v ∉ ps.2 := fun hc => hv3 (List.mem_append_right _ hc)
            by_cases hvs : v ∈ g.succs nd
            · have hrne : remIndeg g P v ≠ 1 := by
                intro hc
                exact hvnew (hnewz_in v hvs hc)
              have := ((hsome2 v hv1 hvP hvz).1 hvs).2 hrne
              rw [hrem' v, if_pos ⟨(hsucc_edge v).mp hvs, hndP⟩]
              exact ⟨this.1, by omega⟩
            · have := (hsome2 v hv1 hvP hvz).2 hvs
              rw [hrem' v, if_neg (fun hc => hvs ((hsucc_edge v).mpr hc.1))]
              exact this
          · intro v hv
            rcases hv with h | h | h
            · exact hnone2 v (Or.inl h)
            · rcases List.mem_append.mp h with h2 | h2
              · exact hnone2 v (Or.inr (Or.inl h2))
              · rw [List.mem_singleton] at h2
                subst h2
                exact hnone2 v (Or.inr (Or.inr hndzero))
            · rcases List.mem_append.mp h with h2 | h2
              · exact hnone2 v (Or.inr (Or.inr (List.mem_append_left _ h2)))
              · have hvs := (hnewz_mem v h2).1
                have hvr := (hnewz_mem v h2).2
                exact ((hsome2 v (hnewz_nodes v h2) (hnewz_notP v h2)
                  (hnewz_notzero v h2)).1 hvs).1 hvr
          · exact hkeys2
          · exact topoList_append_singleton inv.popped_topo
              (fun u hu => (remIndeg_zero_iff g P nd).mp hndrem u hu)
        have hfuel' : ps.1.length + (zs ++ ps.2).length ≤ f := by
          simp only [List.length_append, List.length_cons, List.length_nil] at hfuel ⊢
          omega
        have hrec := ihf ps.1 (zs ++ ps.2) (P ++ [nd]) inv' hfuel'
        obtain ⟨ht1, ht2, ht3, ht4⟩ := hrec
        rw [hred]
        refine ⟨?_, ?_, ?_, ?_⟩
        · simpa [List.append_assoc] using ht1
        · simpa [List.append_assoc] using ht2
        · intro v hv
          rcases List.mem_cons.mp hv with rfl | hv'
          · exact hndnodes
          · exact ht3 v hv'
        · intro herr v hv
          have := ht4 herr v hv
          simpa [List.append_assoc] using this

theorem lookup_map_pair (f : Name → Nat) (k : Name) :
    ∀ L : List Name,
      Dict.lookup (L.map (fun v => (v, f v))) k =
        if k ∈ L then some (f k) else none := by
  intro L
  induction L with
  | nil => simp [Dict.lookup]
  | cons a L ih =>
      by_cases h : a = k
      · subst h
        simp [Dict.lookup]
      · simp only [List.map_cons, Dict.lookup, h, if_false, ih, List.mem_cons]
        by_cases hm : k ∈ L
        · simp [hm]
        · simp [hm, Ne.symm h]

theorem kahnInit_inv {g : DiGraph} (hwf : g.WF) :
    KahnInv g [] (kahnInit g).1 (kahnInit g).2 := by
  refine ⟨?_, ?_, ?_, ?_, ?_, ?_, ?_, ?_, ?_, ?_, ?_⟩
  · intro p hp
    exact absurd hp (List.not_mem_nil p)
  · exact List.nodup_nil
  · exact List.Nodup.filter _ hwf.nodes_nodup
  · intro z _
    exact List.not_mem_nil z
  · intro z hz
    exact List.mem_of_mem_filter hz
  · intro z hz
    have := (List.mem_filter.mp hz).2
    simpa using this
  · intro p hp
    exact absurd hp (List.not_mem_nil p)
  · intro v hv1 hv2 hv3
    have hne : remIndeg g [] v ≠ 0 := by
      intro hc
      exact hv3 (List.mem_filter.mpr ⟨hv1, by simpa using hc⟩)
    have hmem : v ∈ g.nodes.filter (fun v => decide (remIndeg g [] v ≠ 0)) :=
      List.mem_filter.mpr ⟨hv1, by simpa using hne⟩
    show Dict.lookup ((g.nodes.filter
        (fun v => decide (remIndeg g [] v ≠ 0))).map
        (fun v => (v, remIndeg g [] v))) v = _ ∧ _
    rw [lookup_map_pair, if_pos hmem]
    exact ⟨rfl, Nat.pos_of_ne_zero hne⟩
  · intro v hv
    show Dict.lookup ((g.nodes.filter
        (fun v => decide (remIndeg g [] v ≠ 0))).map
        (fun v => (v, remIndeg g [] v))) v = none
    rw [lookup_map_pair]
    rw [if_neg]
    intro hc
    have hc1 := List.mem_of_mem_filter hc
    have hc2 := (List.mem_filter.mp hc).2
    simp only [decide_eq_true_eq] at hc2
    rcases hv with h | h | h
    · exact h hc1
    · exact List.not_mem_nil v h
    · have := (List.mem_filter.mp h).2
      simp only [decide_eq_true_eq] at this
      exact hc2 this
  · show ((( g.nodes.filter (fun v => decide (remIndeg g [] v ≠ 0))).map
        (fun v => (v, remIndeg g [] v))).map Prod.fst).Nodup
    rw [List.map_map]
    have : (Prod.fst ∘ fun v => (v, remIndeg g [] v)) = id := rfl
    rw [this, List.map_id]
    exact List.Nodup.filter _ hwf.nodes_nodup
  · exact topoList_nil g

theorem topological_sort_spec {g : DiGraph} (hwf : g.WF) :
    TopoList g (topological_sort g).1 ∧
    (topological_sort g).1.Nodup ∧
    (∀ v ∈ (topological_sort g).1, v ∈ g.nodes) ∧
    ((topological_sort g).2 = false →
      ∀ v ∈ g.nodes, v ∈ (topological_sort g).1) := by
  have h := kahnFuel_spec hwf ((kahnInit g).1.length + (kahnInit g).2.length)
    (kahnInit g).1 (kahnInit g).2 [] (kahnInit_inv hwf) (le_refl _)
  obtain ⟨h1, h2, h3, h4⟩ := h
  refine ⟨by simpa using h1, by simpa using h2, h3, ?_⟩
  intro herr v hv
  have := h4 herr v hv
  simpa using this

theorem topological_sort_cycle {g : DiGraph} (hwf : g.WF) {C : List Name}
    (hne : C ≠ []) (hsub : ∀ v ∈ C, v ∈ g.nodes)
    (hpred : ∀ v ∈ C, ∃ u ∈ C, (u, v) ∈ g.edges) :
    (∀ v ∈ C, v ∉ (topological_sort g).1) ∧ (topological_sort g).2 = true := by
  obtain ⟨ht, hnd, hmem, hcomp⟩ := topological_sort_spec hwf
  have hnotin : ∀ v ∈ C, v ∉ (topological_sort g).1 := by
    intro v hv hvL
    have hex : ∃ x ∈ (topological_sort g).1, x ∈ C := ⟨v, hvL, hv⟩
    obtain ⟨l1, x, l2, heq, hxC, hl1⟩ := exists_first_with hex
    obtain ⟨u, huC, hedge⟩ := hpred x hxC
    have := ht l1 x l2 heq u hedge
    exact hl1 u this huC
  refine ⟨hnotin, ?_⟩
  by_contra hc
  simp only [Bool.not_eq_true] at hc
  obtain ⟨v, hv⟩ := List.exists_mem_of_ne_nil C hne
  exact hnotin v hv (hcomp hc v (hsub v hv))

theorem DiGraph.addNode_edges (g : DiGraph) (n : Name) :
    (g.addNode n).edges = g.edges := by
  unfold DiGraph.addNode
  split <;> rfl

theorem DiGraph.mem_addNode (g : DiGraph) (n m : Name) :
    m ∈ (g.addNode n).nodes ↔ m ∈ g.nodes ∨ m = n := by
  unfold DiGraph.addNode
  split
  · rename_i h
    constructor
    · exact Or.inl
    · rintro (hm | rfl)
      · exact hm
      · exact h
  · simp

theorem DiGraph.addNode_wf {g : DiGraph} (hwf : g.WF) (n : Name) :
    (g.addNode n).WF := by
  unfold DiGraph.addNode
  split
  · exact hwf
  · rename_i h
    refine ⟨?_, hwf.edges_nodup, ?_, ?_⟩
    · simp [List.nodup_append, hwf.nodes_nodup, h]
    · intro e he
      exact List.mem_append_left _ (hwf.edges_fst e he)
    · intro e he
      exact List.mem_append_left _ (hwf.edges_snd e he)

theorem DiGraph.mem_addEdge_nodes (g : DiGraph) (u v m : Name) :
    m ∈ (g.addEdge u v).nodes ↔ m ∈ g.nodes ∨ m = u ∨ m = v := by
  by_cases h : (u, v) ∈ ((g.addNode u).addNode v).edges <;>
    simp [DiGraph.addEdge, h, DiGraph.mem_addNode, or_assoc]

theorem DiGraph.mem_addEdge_edges (g : DiGraph) (u v : Name)
    (e : Name × Name) :
    e ∈ (g.addEdge u v).edges ↔ e ∈ g.edges ∨ e = (u, v) := by
  by_cases h : (u, v) ∈ ((g.addNode u).addNode v).edges
  · rw [DiGraph.addNode_edges, DiGraph.addNode_edges] at h
    simp only [DiGraph.addEdge, DiGraph.addNode_edges, h, if_true]
    constructor
    · exact Or.inl
    · rintro (hm | rfl)
      · exact hm
      · exact h
  · rw [DiGraph.addNode_edges, DiGraph.addNode_edges] at h
    simp only [DiGraph.addEdge, DiGraph.addNode_edges, h, if_false]
    simp

theorem DiGraph.addEdge_wf {g : DiGraph} (hwf : g.WF) (u v : Name) :
    (g.addEdge u v).WF := by
  have hwf2 : ((g.addNode u).addNode v).WF :=
    DiGraph.addNode_wf (DiGraph.addNode_wf hwf u) v
  have hu : u ∈ ((g.addNode u).addNode v).nodes := by
    rw [DiGraph.mem_addNode, DiGraph.mem_addNode]
    exact Or.inl (Or.inr rfl)
  have hv : v ∈ ((g.addNode u).addNode v).nodes := by
    rw [DiGraph.mem_addNode]
    exact Or.inr rfl
  have hnm : ∀ m, m ∈ g.nodes → m ∈ ((g.addNode u).addNode v).nodes := by
    intro m hm
    rw [DiGraph.mem_addNode, DiGraph.mem_addNode]
    exact Or.inl (Or.inl hm)
  by_cases h : (u, v) ∈ g.edges
  · have hred : g.addEdge u v = (g.addNode u).addNode v := by
      simp only [DiGraph.addEdge, DiGraph.addNode_edges, h, if_true]
    rw [hred]
    exact hwf2
  · have hred : g.addEdge u v =
        ⟨((g.addNode u).addNode v).nodes, g.edges ++ [(u, v)]⟩ := by
      simp only [DiGraph.addEdge, DiGraph.addNode_edges, h, if_false]
    rw [hred]
    refine ⟨hwf2.nodes_nodup, ?_, ?_, ?_⟩
    · simp [List.nodup_append, hwf.edges_nodup, h]
    · intro e he
      rcases List.mem_append.mp he with h2 | h2
      · exact hnm _ (hwf.edges_fst e h2)
      · rw [List.mem_singleton] at h2
        subst h2
        exact hu
    · intro e he
      rcases List.mem_append.mp he with h2 | h2
      · exact hnm _ (hwf.edges_snd e h2)
      · rw [List.mem_singleton] at h2
        subst h2
        exact hv

theorem foldl_addNode_wf :
    ∀ (dd : Dict (List Name)) (g : DiGraph), g.WF →
      (dd.foldl (fun g kv => g.addNode kv.1) g).WF := by
  intro dd
  induction dd with
  | nil => intro g hg; exact hg
  | cons kv dd ih =>
      intro g hg
      rw [List.foldl_cons]
      exact ih _ (DiGraph.addNode_wf hg kv.1)

theorem foldl_addEdge_wf :
    ∀ (k : Name) (args : List Name) (g : DiGraph), g.WF →
      (args.foldl (fun g2 a => g2.addEdge k a) g).WF := by
  intro k args
  induction args with
  | nil => intro g hg; exact hg
  | cons a args iha =>
      intro g hg
      rw [List.foldl_cons]
      exact iha _ (DiGraph.addEdge_wf hg k a)

theorem foldl_edgefold_wf :
    ∀ (dd : Dict (List Name)) (g : DiGraph), g.WF →
      (dd.foldl (fun g kv =>
        kv.2.foldl (fun g2 a => g2.addEdge kv.1 a) g) g).WF := by
  intro dd
  induction dd with
  | nil => intro g hg; exact hg
  | cons kv dd ih =>
      intro g hg
      rw [List.foldl_cons]
      exact ih _ (foldl_addEdge_wf kv.1 kv.2 g hg)

theorem graph_of_dag_dict_wf (dd : Dict (List Name)) :
    (graph_of_dag_dict dd).WF := by
  unfold graph_of_dag_dict
  have hbase : DiGraph.empty.WF :=
    ⟨List.nodup_nil, List.nodup_nil, by simp [DiGraph.empty], by simp [DiGraph.empty]⟩
  exact foldl_edgefold_wf dd _ (foldl_addNode_wf dd _ hbase)

theorem DiGraph.rev_wf {g : DiGraph} (hwf : g.WF) : g.rev.WF := by
  refine ⟨hwf.nodes_nodup, ?_, ?_, ?_⟩
  · apply List.Nodup.map
    · intro a b hab
      simp only [Prod.mk.injEq] at hab
      exact Prod.ext hab.2 hab.1
    · exact hwf.edges_nodup
  · intro e he
    obtain ⟨e0, he0, rfl⟩ := List.mem_map.mp he
    exact hwf.edges_snd e0 he0
  · intro e he
    obtain ⟨e0, he0, rfl⟩ := List.mem_map.mp he
    exact hwf.edges_fst e0 he0

theorem create_dag_wf {V P : Type} {fd : Dict (BoundFunc V P)} {g : DiGraph}
    (h : create_dag fd = .ok g) : g.WF := by
  unfold create_dag at h
  cases hdd : dag_dict_of fd with
  | error e => rw [hdd] at h; exact Except.noConfusion h
  | ok dd =>
      rw [hdd] at h
      simp only [Except.bind, Except.map, pure, Except.pure] at h
      have : g = (graph_of_dag_dict dd).rev := by
        cases h
        rfl
      rw [this]
      exact DiGraph.rev_wf (graph_of_dag_dict_wf dd)

theorem NSet.union_nodup {s t : NSet} (hs : s.Nodup) (ht : t.Nodup) :
    (NSet.union s t).Nodup := by
  rw [NSet.union, List.nodup_append]
  refine ⟨hs, List.Nodup.filter _ ht, ?_⟩
  intro a ha hb
  rw [List.mem_filter] at hb
  simp only [decide_eq_true_eq] at hb
  exact hb.2 ha

theorem reachTo_nodup {g : DiGraph} (hwf : g.WF) (n : Name) :
    (g.reachTo n).Nodup :=
  clos_iterate_nodup (List.nodup_singleton n) hwf.nodes_nodup _

theorem ancestors_nodup {g : DiGraph} (hwf : g.WF) (n : Name) :
    (g.ancestors n).Nodup :=
  List.Nodup.filter _ (reachTo_nodup hwf n)

theorem reachFrom_nodup {g : DiGraph} (hwf : g.WF) (n : Name) :
    (g.reachFrom n).Nodup :=
  clos_iterate_nodup (List.nodup_singleton n) hwf.nodes_nodup _

theorem descendants_nodup {g : DiGraph} (hwf : g.WF) (n : Name) :
    (g.descendants n).Nodup :=
  List.Nodup.filter _ (reachFrom_nodup hwf n)

theorem anc_chain {g : DiGraph} (hwf : g.WF) {y x t : Name}
    (h1 : y ∈ g.ancestors x) (h2 : x ∈ g.ancestors t) :
    y ∈ g.ancestors t ∨ y = t := by
  rw [mem_ancestors_iff hwf] at h1 h2
  by_cases hyt : y = t
  · exact Or.inr hyt
  · left
    rw [mem_ancestors_iff hwf]
    exact ⟨hyt, Relation.TransGen.trans h1.2 h2.2⟩

theorem nxAncestors_ok {g : DiGraph} {n : Name} (h : n ∈ g.nodes) :
    nxAncestors g n = .ok (g.ancestors n) := by
  simp [nxAncestors, h]

theorem prunePass_ok {g : DiGraph} (hwf : g.WF) :
    ∀ (L acc : NSet), (∀ v ∈ L, v ∈ g.nodes) → acc.Nodup →
      ∃ r, L.foldlM (fun acc node => do
          let a ← nxAncestors g node
          pure (NSet.union acc a)) acc = Except.ok r ∧
        r.Nodup ∧
        (∀ x, x ∈ r ↔ x ∈ acc ∨ ∃ v ∈ L, x ∈ g.ancestors v) := by
  intro L
  induction L with
  | nil =>
      intro acc _ hnd
      exact ⟨acc, rfl, hnd, by simp⟩
  | cons v L ih =>
      intro acc hsub hnd
      have hv : v ∈ g.nodes := hsub v (List.mem_cons_self _ _)
      have hstep : (v :: L).foldlM (fun acc node => do
          let a ← nxAncestors g node
          pure (NSet.union acc a)) acc =
          L.foldlM (fun acc node => do
            let a ← nxAncestors g node
            pure (NSet.union acc a)) (NSet.union acc (g.ancestors v)) := by
        rw [List.foldlM_cons, nxAncestors_ok hv]
        rfl
      obtain ⟨r, hr, hrnd, hrmem⟩ := ih (NSet.union acc (g.ancestors v))
        (fun w hw => hsub w (List.mem_cons_of_mem _ hw))
        (NSet.union_nodup hnd (ancestors_nodup hwf v))
      refine ⟨r, by rw [hstep]; exact hr, hrnd, ?_⟩
      intro x
      rw [hrmem x, NSet.mem_union]
      constructor
      · rintro ((h | h) | ⟨w, hw, hx⟩)
        · exact Or.inl h
        · exact Or.inr ⟨v, List.mem_cons_self _ _, h⟩
        · exact Or.inr ⟨w, List.mem_cons_of_mem _ hw, hx⟩
      · rintro (h | ⟨w, hw, hx⟩)
        · exact Or.inl (Or.inl h)
        · rcases List.mem_cons.mp hw with rfl | hw'
          · exact Or.inl (Or.inr hx)
          · exact Or.inr ⟨w, hw', hx⟩

theorem prunePass_spec {g : DiGraph} (hwf : g.WF) (visited : NSet)
    (hsub : ∀ v ∈ visited, v ∈ g.nodes) (hnd : visited.Nodup) :
    ∃ r, prunePass g visited = .ok r ∧ r.Nodup ∧
      (∀ x, x ∈ r ↔ x ∈ visited ∨ ∃ v ∈ visited, x ∈ g.ancestors v) :=
  prunePass_ok hwf visited visited hsub hnd

theorem prunePass_error {g : DiGraph} :
    ∀ (L acc : NSet), (∃ v ∈ L, v ∉ g.nodes) →
      ∃ u, u ∈ L ∧ u ∉ g.nodes ∧
        L.foldlM (fun acc node => do
          let a ← nxAncestors g node
          pure (NSet.union acc a)) acc =
          Except.error (RunError.nodeNotInGraph u) := by
  intro L
  induction L with
  | nil => intro acc h; simp at h
  | cons v L ih =>
      intro acc h
      by_cases hv : v ∈ g.nodes
      · have h' : ∃ w ∈ L, w ∉ g.nodes := by
          obtain ⟨w, hw, hwn⟩ := h
          rcases List.mem_cons.mp hw with rfl | hw'
          · exact absurd hv hwn
          · exact ⟨w, hw', hwn⟩
        obtain ⟨u, hu, hun, herr⟩ := ih (NSet.union acc (g.ancestors v)) h'
        refine ⟨u, List.mem_cons_of_mem _ hu, hun, ?_⟩
        rw [List.foldlM_cons, nxAncestors_ok hv]
        exact herr
      · refine ⟨v, List.mem_cons_self _ _, hv, ?_⟩
        rw [List.foldlM_cons]
        simp [nxAncestors, hv, Bind.bind, Except.bind]

theorem length_eq_of_nodup_mem_iff {l1 l2 : List Name} (h1 : l1.Nodup)
    (h2 : l2.Nodup) (hmem : ∀ x, x ∈ l1 ↔ x ∈ l2) : l1.length = l2.length := by
  have hfs : l1.toFinset = l2.toFinset := by
    apply Finset.ext
    intro a
    rw [List.mem_toFinset, List.mem_toFinset]
    exact hmem a
  calc l1.length = l1.toFinset.card := (List.toFinset_card_of_nodup h1).symm
    _ = l2.toFinset.card := by rw [hfs]
    _ = l2.length := List.toFinset_card_of_nodup h2

theorem pruneLoop_ok {g : DiGraph} (hwf : g.WF) (visited : NSet) (fuel : Nat)
    (hf : 1 ≤ fuel) (hf2 : 2 ≤ fuel ∨ visited = [])
    (hnd : visited.Nodup) (hsub : ∀ v ∈ visited, v ∈ g.nodes) :
    ∃ r, pruneLoop g fuel visited = .ok r ∧ r.Nodup ∧
      (∀ x, x ∈ r ↔ x ∈ visited ∨ ∃ t ∈ visited, x ∈ g.ancestors t) := by
  obtain ⟨f, rfl⟩ : ∃ f, fuel = f + 1 := ⟨fuel - 1, by omega⟩
  obtain ⟨v1, hp1, hnd1, hmem1⟩ := prunePass_spec hwf visited hsub hnd
  have hred1 : pruneLoop g (f + 1) visited =
      if v1.length = visited.length then Except.ok v1
      else pruneLoop g f v1 := by
    show (do
      let v' ← prunePass g visited
      if v'.length = visited.length then Except.ok v' else pruneLoop g f v') = _
    rw [hp1]
    rfl
  by_cases hlen : v1.length = visited.length
  · refine ⟨v1, ?_, hnd1, hmem1⟩
    rw [hred1, if_pos hlen]
  · have hvne : visited ≠ [] := by
      rintro rfl
      apply hlen
      have : v1 = [] := by
        rw [List.eq_nil_iff_forall_not_mem]
        intro x hx
        rcases (hmem1 x).mp hx with h | ⟨t, ht, _⟩
        · exact List.not_mem_nil x h
        · exact List.not_mem_nil t ht
      rw [this]
    have hf3 : 2 ≤ f + 1 := by
      rcases hf2 with h | h
      · exact h
      · exact absurd h hvne
    obtain ⟨f', rfl⟩ : ∃ f', f = f' + 1 := ⟨f - 1, by omega⟩
    have hsub1 : ∀ v ∈ v1, v ∈ g.nodes := by
      intro v hv
      rcases (hmem1 v).mp hv with h | ⟨t, _, ht⟩
      · exact hsub v h
      · exact ancestors_subset_nodes hwf ht
    obtain ⟨v2, hp2, hnd2, hmem2⟩ := prunePass_spec hwf v1 hsub1 hnd1
    have hmem21 : ∀ x, x ∈ v2 ↔ x ∈ v1 := by
      intro x
      rw [hmem2 x]
      constructor
      · rintro (h | ⟨t, ht, hx⟩)
        · exact h
        · rcases (hmem1 t).mp ht with h2 | ⟨t0, ht0, ht0x⟩
          · rw [hmem1 x]
            exact Or.inr ⟨t, h2, hx⟩
          · rcases anc_chain hwf hx ht0x with h3 | h3
            · rw [hmem1 x]
              exact Or.inr ⟨t0, ht0, h3⟩
            · rw [hmem1 x]
              exact Or.inl (h3 ▸ ht0)
      · exact Or.inl
    have hlen2 : v2.length = v1.length :=
      length_eq_of_nodup_mem_iff hnd2 hnd1 hmem21
    have hred2 : pruneLoop g (f' + 1) v1 = Except.ok v2 := by
      show (do
        let v' ← prunePass g v1
        if v'.length = v1.length then Except.ok v' else pruneLoop g f' v') = _
      rw [hp2]
      show (if v2.length = v1.length then Except.ok v2 else pruneLoop g f' v2) = _
      rw [if_pos hlen2]
    refine ⟨v2, ?_, hnd2, ?_⟩
    · rw [hred1, if_neg hlen, hred2]
    · intro x
      rw [hmem21 x, hmem1 x]

theorem prune_dag_spec {g : DiGraph} (hwf : g.WF) (targets : List Name)
    (htarg : ∀ t ∈ targets, t ∈ g.nodes) :
    ∃ g', prune_dag g targets = .ok g' ∧
      (∀ n, n ∈ g'.nodes ↔ n ∈ g.nodes ∧
        (n ∈ targets ∨ ∃ t ∈ targets, n ∈ g.ancestors t)) ∧
      (∀ e, e ∈ g'.edges ↔ e ∈ g.edges ∧
        e.1 ∈ g'.nodes ∧ e.2 ∈ g'.nodes) ∧
      g'.WF ∧ (∃ p : Name × Name → Bool, g'.edges = g.edges.filter p) := by
  have hf2 : 2 ≤ g.nodes.length + 1 ∨ targets.dedup = [] := by
    cases hn : g.nodes with
    | nil =>
        right
        rw [List.dedup_eq_nil]
        rw [List.eq_nil_iff_forall_not_mem]
        intro t ht
        have := htarg t ht
        rw [hn] at this
        exact List.not_mem_nil t this
    | cons a l => left; simp
  obtain ⟨R, hloop, hRnd, hRmem⟩ := pruneLoop_ok hwf targets.dedup
    (g.nodes.length + 1) (by omega) hf2 targets.nodup_dedup
    (fun v hv => htarg v (List.mem_dedup.mp hv))
  have hRmem' : ∀ x, x ∈ R ↔ x ∈ targets ∨ ∃ t ∈ targets, x ∈ g.ancestors t := by
    intro x
    rw [hRmem x]
    constructor
    · rintro (h | ⟨t, ht, hx⟩)
      · exact Or.inl (List.mem_dedup.mp h)
      · exact Or.inr ⟨t, List.mem_dedup.mp ht, hx⟩
    · rintro (h | ⟨t, ht, hx⟩)
      · exact Or.inl (List.mem_dedup.mpr h)
      · exact Or.inr ⟨t, List.mem_dedup.mpr ht, hx⟩
  have hred : prune_dag g targets = .ok
      ⟨g.nodes.filter (fun n => decide (n ∉ g.nodes.filter (fun n => decide (n ∉ R)))),
       g.edges.filter (fun e => decide (e.1 ∉ g.nodes.filter (fun n => decide (n ∉ R)) ∧
         e.2 ∉ g.nodes.filter (fun n => decide (n ∉ R))))⟩ := by
    show (do
      let visited ← pruneLoop g (g.nodes.length + 1) targets.dedup
      let redundant := g.nodes.filter (fun n => decide (n ∉ visited))
      pure (⟨g.nodes.filter (fun n => decide (n ∉ redundant)),
        g.edges.filter (fun e => decide (e.1 ∉ redundant ∧ e.2 ∉ redundant))⟩ :
          DiGraph)) = _
    rw [hloop]
    rfl
  have hnotred : ∀ n, n ∉ g.nodes.filter (fun n => decide (n ∉ R)) ↔
      (n ∉ g.nodes ∨ n ∈ R) := by
    intro n
    rw [List.mem_filter]
    by_cases h1 : n ∈ g.nodes <;> by_cases h2 : n ∈ R <;> simp [h1, h2]
  have hnodes : ∀ n, (n ∈ g.nodes.filter (fun n =>
      decide (n ∉ g.nodes.filter (fun n => decide (n ∉ R))))) ↔
      n ∈ g.nodes ∧ (n ∈ targets ∨ ∃ t ∈ targets, n ∈ g.ancestors t) := by
    intro n
    rw [List.mem_filter]
    constructor
    · rintro ⟨h1, h2⟩
      simp only [decide_eq_true_eq] at h2
      rcases (hnotred n).mp h2 with h3 | h3
      · exact absurd h1 h3
      · exact ⟨h1, (hRmem' n).mp h3⟩
    · rintro ⟨h1, h2⟩
      refine ⟨h1, ?_⟩
      simp only [decide_eq_true_eq]
      exact (hnotred n).mpr (Or.inr ((hRmem' n).mpr h2))
  refine ⟨_, hred, hnodes, ?_, ?_, ⟨_, rfl⟩⟩
  · intro e
    rw [List.mem_filter]
    constructor
    · rintro ⟨h1, h2⟩
      simp only [decide_eq_true_eq] at h2
      refine ⟨h1, ?_, ?_⟩
      · rw [hnodes]
        rcases (hnotred e.1).mp h2.1 with h3 | h3
        · exact absurd (hwf.edges_fst e h1) h3
        · exact ⟨hwf.edges_fst e h1, (hRmem' e.1).mp h3⟩
      · rw [hnodes]
        rcases (hnotred e.2).mp h2.2 with h3 | h3
        · exact absurd (hwf.edges_snd e h1) h3
        · exact ⟨hwf.edges_snd e h1, (hRmem' e.2).mp h3⟩
    · rintro ⟨h1, h2, h3⟩
      rw [hnodes] at h2 h3
      refine ⟨h1, ?_⟩
      simp only [decide_eq_true_eq]
      exact ⟨(hnotred e.1).mpr (Or.inr ((hRmem' e.1).mpr h2.2)),
        (hnotred e.2).mpr (Or.inr ((hRmem' e.2).mpr h3.2))⟩
  · refine ⟨List.Nodup.filter _ hwf.nodes_nodup,
      List.Nodup.filter _ hwf.edges_nodup, ?_, ?_⟩
    · intro e he
      rw [List.mem_filter] at he
      rw [List.mem_filter]
      refine ⟨hwf.edges_fst e he.1, ?_⟩
      simp only [decide_eq_true_eq] at he ⊢
      exact he.2.1
    · intro e he
      rw [List.mem_filter] at he
      rw [List.mem_filter]
      refine ⟨hwf.edges_snd e he.1, ?_⟩
      simp only [decide_eq_true_eq] at he ⊢
      exact he.2.2

theorem reaches_retained {g g' : DiGraph} (hwf : g.WF) {targets : List Name}
    (hnodes : ∀ n, n ∈ g'.nodes ↔ n ∈ g.nodes ∧
      (n ∈ targets ∨ ∃ t ∈ targets, n ∈ g.ancestors t))
    (hedges : ∀ e, e ∈ g'.edges ↔ e ∈ g.edges ∧
      e.1 ∈ g'.nodes ∧ e.2 ∈ g'.nodes)
    {n t : Name} (ht : t ∈ targets) (htn : t ∈ g.nodes)
    (hr : g.Reaches n t) : g'.Reaches n t := by
  have hret : ∀ m, g.Reaches m t → m ∈ g'.nodes := by
    intro m hm
    by_cases hmt : m = t
    · rw [hnodes]
      exact ⟨hmt ▸ htn, Or.inl (hmt ▸ ht)⟩
    · have hanc : m ∈ g.ancestors t := (mem_ancestors_iff hwf).mpr ⟨hmt, hm⟩
      rw [hnodes]
      exact ⟨ancestors_subset_nodes hwf hanc, Or.inr ⟨t, ht, hanc⟩⟩
  have htg : t ∈ g'.nodes := by
    rw [hnodes]
    exact ⟨htn, Or.inl ht⟩
  induction hr using Relation.TransGen.head_induction_on with
  | base h =>
      rename_i m
      apply Relation.TransGen.single
      rw [hedges]
      exact ⟨h, hret m (Relation.TransGen.single h), htg⟩
  | ih h hbt ih =>
      rename_i m b
      apply Relation.TransGen.head _ ih
      rw [hedges]
      exact ⟨h, hret m (Relation.TransGen.head h hbt), hret b hbt⟩

theorem anc_retained {g g' : DiGraph} (hwf : g.WF) (hwf' : g'.WF)
    {targets : List Name}
    (hnodes : ∀ n, n ∈ g'.nodes ↔ n ∈ g.nodes ∧
      (n ∈ targets ∨ ∃ t ∈ targets, n ∈ g.ancestors t))
    (hedges : ∀ e, e ∈ g'.edges ↔ e ∈ g.edges ∧
      e.1 ∈ g'.nodes ∧ e.2 ∈ g'.nodes)
    {n t : Name} (ht : t ∈ targets) (htn : t ∈ g.nodes)
    (hanc : n ∈ g.ancestors t) : n ∈ g'.ancestors t := by
  rw [mem_ancestors_iff hwf] at hanc
  rw [mem_ancestors_iff hwf']
  exact ⟨hanc.1, reaches_retained hwf hnodes hedges ht htn hanc.2⟩

theorem pruned_target_descendant {g g' : DiGraph} (hwf : g.WF) (hwf' : g'.WF)
    {targets : List Name}
    (hnodes : ∀ n, n ∈ g'.nodes ↔ n ∈ g.nodes ∧
      (n ∈ targets ∨ ∃ t ∈ targets, n ∈ g.ancestors t))
    (hedges : ∀ e, e ∈ g'.edges ↔ e ∈ g.edges ∧
      e.1 ∈ g'.nodes ∧ e.2 ∈ g'.nodes)
    (htarg : ∀ t ∈ targets, t ∈ g.nodes) :
    ∀ n ∈ g'.nodes, n ∉ targets →
      ∃ t' ∈ targets, t' ∈ g'.nodes ∧ t' ∈ g'.descendants n := by
  intro n hn hnt
  rcases ((hnodes n).mp hn).2 with h | ⟨t, ht, hanc⟩
  · exact absurd h hnt
  · have hanc' : n ∈ g'.ancestors t :=
      anc_retained hwf hwf' hnodes hedges ht (htarg t ht) hanc
    refine ⟨t, ht, (hnodes t).mpr ⟨htarg t ht, Or.inl ht⟩, ?_⟩
    exact (ancestors_iff_descendants hwf').mp hanc'

theorem pruned_preds {g g' : DiGraph} (hwf : g.WF)
    {targets : List Name}
    (hnodes : ∀ n, n ∈ g'.nodes ↔ n ∈ g.nodes ∧
      (n ∈ targets ∨ ∃ t ∈ targets, n ∈ g.ancestors t))
    (hedges : ∀ e, e ∈ g'.edges ↔ e ∈ g.edges ∧
      e.1 ∈ g'.nodes ∧ e.2 ∈ g'.nodes)
    (hfilter : ∃ p : Name × Name → Bool, g'.edges = g.edges.filter p) :
    ∀ t ∈ g'.nodes, g'.preds t = g.preds t := by
  intro t htn
  obtain ⟨p, hp⟩ := hfilter
  unfold DiGraph.preds
  rw [hp, List.filter_comm]
  congr 1
  apply List.filter_eq_self.mpr
  intro e he
  rw [List.mem_filter] at he
  have he1 : e ∈ g.edges := he.1
  have he2 : e.2 = t := by simpa using he.2
  have hretain : e ∈ g'.edges := by
    rw [hedges]
    refine ⟨he1, ?_, he2 ▸ htn⟩
    rcases ((hnodes t).mp htn).2 with h | ⟨t0, ht0, hanc⟩
    · by_cases h1t : e.1 = t
      · exact h1t ▸ htn
      · have hanc1 : e.1 ∈ g.ancestors t :=
          (mem_ancestors_iff hwf).mpr
            ⟨h1t, Relation.TransGen.single (he2 ▸ he1)⟩
        rw [hnodes]
        exact ⟨hwf.edges_fst e he1, Or.inr ⟨t, h, hanc1⟩⟩
    · by_cases h1t : e.1 = t
      · exact h1t ▸ htn
      · have hanc1 : e.1 ∈ g.ancestors t :=
          (mem_ancestors_iff hwf).mpr
            ⟨h1t, Relation.TransGen.single (he2 ▸ he1)⟩
        rcases anc_chain hwf hanc1 hanc with h2 | h2
        · rw [hnodes]
          exact ⟨hwf.edges_fst e he1, Or.inr ⟨t0, ht0, h2⟩⟩
        · rw [hnodes]
          exact ⟨hwf.edges_fst e he1, Or.inl (h2 ▸ ht0)⟩
  rw [hp, List.mem_filter] at hretain
  exact hretain.2

theorem prune_dag_all_retained {g : DiGraph} (targets : List Name)
    {R : NSet} (hloop : pruneLoop g (g.nodes.length + 1) targets.dedup = .ok R)
    (hall : ∀ n ∈ g.nodes, n ∈ R) : prune_dag g targets = .ok g := by
  have hred0 : g.nodes.filter (fun n => decide (n ∉ R)) = [] := by
    rw [List.filter_eq_nil_iff]
    intro n hn
    simp [hall n hn]
  show (do
    let visited ← pruneLoop g (g.nodes.length + 1) targets.dedup
    let redundant := g.nodes.filter (fun n => decide (n ∉ visited))
    pure (⟨g.nodes.filter (fun n => decide (n ∉ redundant)),
      g.edges.filter (fun e => decide (e.1 ∉ redundant ∧ e.2 ∉ redundant))⟩ :
        DiGraph)) = Except.ok g
  rw [hloop]
  show Except.ok (⟨g.nodes.filter
      (fun n => decide (n ∉ g.nodes.filter (fun n => decide (n ∉ R)))),
    g.edges.filter (fun e =>
      decide (e.1 ∉ g.nodes.filter (fun n => decide (n ∉ R)) ∧
        e.2 ∉ g.nodes.filter (fun n => decide (n ∉ R))))⟩ : DiGraph) = Except.ok g
  rw [hred0]
  have h1 : g.nodes.filter (fun n => decide (n ∉ ([] : List Name))) = g.nodes := by
    apply List.filter_eq_self.mpr
    intro a _
    simp
  have h2 : g.edges.filter (fun e =>
      decide (e.1 ∉ ([] : List Name) ∧ e.2 ∉ ([] : List Name))) = g.edges := by
    apply List.filter_eq_self.mpr
    intro a _
    simp
  rw [h1, h2]

theorem prune_dag_exact {g : DiGraph} (hwf : g.WF) (targets : List Name)
    (htarg : ∀ t ∈ targets, t ∈ g.nodes) :
    ∃ g', prune_dag g targets = .ok g' ∧
      (∀ n, n ∈ g'.nodes ↔
        n ∈ targets ∨ ∃ t ∈ targets, n ∈ g.ancestors t) ∧
      (∀ e, e ∈ g'.edges ↔ e ∈ g.edges ∧
        e.1 ∈ g'.nodes ∧ e.2 ∈ g'.nodes) ∧
      g'.WF ∧ (∃ p : Name × Name → Bool, g'.edges = g.edges.filter p) ∧
      prune_dag g' targets = .ok g' := by
  obtain ⟨g', hok, hnodes, hedges, hwf', hfilter⟩ :=
    prune_dag_spec hwf targets htarg
  have hnodes' : ∀ n, n ∈ g'.nodes ↔
      n ∈ targets ∨ ∃ t ∈ targets, n ∈ g.ancestors t := by
    intro n
    rw [hnodes n]
    constructor
    · rintro ⟨-, h⟩
      exact h
    · rintro (h | ⟨t, ht, hanc⟩)
      · exact ⟨htarg n h, Or.inl h⟩
      · exact ⟨ancestors_subset_nodes hwf hanc, Or.inr ⟨t, ht, hanc⟩⟩
  refine ⟨g', hok, hnodes', hedges, hwf', hfilter, ?_⟩
  have htarg' : ∀ t ∈ targets.dedup, t ∈ g'.nodes := by
    intro t ht
    exact (hnodes' t).mpr (Or.inl (List.mem_dedup.mp ht))
  have hf2 : 2 ≤ g'.nodes.length + 1 ∨ targets.dedup = [] := by
    cases hn : g'.nodes with
    | nil =>
        right
        rw [List.eq_nil_iff_forall_not_mem]
        intro t ht
        have := htarg' t ht
        rw [hn] at this
        exact List.not_mem_nil t this
    | cons a l => left; simp
  obtain ⟨R', hloop', hR'nd, hR'mem⟩ := pruneLoop_ok hwf' targets.dedup
    (g'.nodes.length + 1) (by omega) hf2 targets.nodup_dedup htarg'
  apply prune_dag_all_retained targets hloop'
  intro n hn
  rcases (hnodes' n).mp hn with h | ⟨t, ht, hanc⟩
  · rw [hR'mem]
    exact Or.inl (List.mem_dedup.mpr h)
  · have hanc' : n ∈ g'.ancestors t :=
      anc_retained hwf hwf' hnodes hedges ht (htarg t ht) hanc
    rw [hR'mem]
    exact Or.inr ⟨t, List.mem_dedup.mpr ht, hanc'⟩

theorem Dict.lookup_append {V : Type} (d1 d2 : Dict V) (k : Name) :
    Dict.lookup (d1 ++ d2) k =
      match Dict.lookup d1 k with
      | some v => some v
      | none => Dict.lookup d2 k := by
  induction d1 with
  | nil => simp [Dict.lookup]
  | cons kv d1 ih =>
      obtain ⟨k1, v1⟩ := kv
      by_cases h : k1 = k
      · show Dict.lookup ((k1, v1) :: (d1 ++ d2)) k = _
        rw [Dict.lookup, if_pos h]
        show _ = (match Dict.lookup ((k1, v1) :: d1) k with
          | some v => some v
          | none => Dict.lookup d2 k)
        rw [Dict.lookup, if_pos h]
      · show Dict.lookup ((k1, v1) :: (d1 ++ d2)) k = _
        rw [Dict.lookup, if_neg h, ih]
        show _ = (match Dict.lookup ((k1, v1) :: d1) k with
          | some v => some v
          | none => Dict.lookup d2 k)
        rw [Dict.lookup, if_neg h]

theorem dict_subset_congr {V : Type} (d1 d2 : Dict V) (keys : List Name)
    (h : ∀ k ∈ keys, Dict.lookup d1 k = Dict.lookup d2 k) :
    dict_subset d1 keys = dict_subset d2 keys := by
  unfold dict_subset
  suffices hs : ∀ acc : Dict V,
      List.foldlM (fun acc k =>
        match Dict.lookup d1 k with
        | some v => Except.ok (acc ++ [(k, v)])
        | none => Except.error (RunError.missingKey k)) acc keys =
      List.foldlM (fun acc k =>
        match Dict.lookup d2 k with
        | some v => Except.ok (acc ++ [(k, v)])
        | none => Except.error (RunError.missingKey k)) acc keys from hs []
  induction keys with
  | nil => intro acc; rfl
  | cons k keys ih =>
      intro acc
      have hk := h k (List.mem_cons_self _ _)
      rw [List.foldlM_cons, List.foldlM_cons, hk]
      cases Dict.lookup d2 k with
      | none => rfl
      | some v =>
          show List.foldlM _ (acc ++ [(k, v)]) keys = _
          exact ih (fun k hk => h k (List.mem_cons_of_mem _ hk)) (acc ++ [(k, v)])

theorem dict_subset_ok {V : Type} (d : Dict V) :
    ∀ (keys : List Name) (acc : Dict V),
      (∀ k ∈ keys, (Dict.lookup d k).isSome) →
      ∃ kw, List.foldlM (fun acc k =>
          match Dict.lookup d k with
          | some v => Except.ok (acc ++ [(k, v)])
          | none => Except.error (RunError.missingKey k)) acc keys =
        Except.ok kw ∧
        kw.map Prod.fst = acc.map Prod.fst ++ keys ∧
        (∀ pr ∈ kw, pr ∈ acc ∨ Dict.lookup d pr.1 = some pr.2) := by
  intro keys
  induction keys with
  | nil =>
      intro acc _
      exact ⟨acc, rfl, by simp, fun pr hpr => Or.inl hpr⟩
  | cons k keys ih =>
      intro acc hsome
      have hk := hsome k (List.mem_cons_self _ _)
      obtain ⟨v, hv⟩ := Option.isSome_iff_exists.mp hk
      obtain ⟨kw, hkw, hmap, hmem⟩ := ih (acc ++ [(k, v)])
        (fun k2 hk2 => hsome k2 (List.mem_cons_of_mem _ hk2))
      refine ⟨kw, ?_, ?_, ?_⟩
      · rw [List.foldlM_cons, hv]
        exact hkw
      · rw [hmap]
        simp
      · intro pr hpr
        rcases hmem pr hpr with hpr2 | hpr2
        · rcases List.mem_append.mp hpr2 with h2 | h2
          · exact Or.inl h2
          · rw [List.mem_singleton] at h2
            subst h2
            exact Or.inr hv
        · exact Or.inr hpr2

theorem lookup_of_entries {V : Type} (d : Dict V) :
    ∀ kw : Dict V, (∀ pr ∈ kw, Dict.lookup d pr.1 = some pr.2) →
      ∀ k, k ∈ kw.map Prod.fst → Dict.lookup kw k = Dict.lookup d k := by
  intro kw
  induction kw with
  | nil => intro _ k hk; simp at hk
  | cons pr kw ih =>
      intro hall k hk
      by_cases h : pr.1 = k
      · have := hall pr (List.mem_cons_self _ _)
        subst h
        simp only [Dict.lookup, if_pos rfl]
        exact this.symm
      · simp only [List.map_cons, List.mem_cons] at hk
        rcases hk with rfl | hk'
        · exact absurd rfl h
        · simp only [Dict.lookup, h, if_false]
          exact ih (fun q hq => hall q (List.mem_cons_of_mem _ hq)) k hk'

theorem dict_subset_spec {V : Type} (d : Dict V) (keys : List Name)
    (hsome : ∀ k ∈ keys, (Dict.lookup d k).isSome) :
    ∃ kw, dict_subset d keys = .ok kw ∧
      kw.map Prod.fst = keys ∧
      (∀ pr ∈ kw, Dict.lookup d pr.1 = some pr.2) ∧
      (∀ k ∈ keys, Dict.lookup kw k = Dict.lookup d k) := by
  obtain ⟨kw, hkw, hmap, hmem⟩ := dict_subset_ok d keys [] hsome
  have hmap' : kw.map Prod.fst = keys := by simpa using hmap
  have hmem' : ∀ pr ∈ kw, Dict.lookup d pr.1 = some pr.2 := by
    intro pr hpr
    rcases hmem pr hpr with h | h
    · exact absurd h (List.not_mem_nil pr)
    · exact h
  refine ⟨kw, hkw, hmap', hmem', ?_⟩
  intro k hk
  exact lookup_of_entries d kw hmem' k (hmap' ▸ hk)

theorem list_eq_of_keys_lookup {V : Type} (φ : Name → Option V) :
    ∀ (l1 l2 : Dict V), l1.map Prod.fst = l2.map Prod.fst →
      (∀ pr ∈ l1, φ pr.1 = some pr.2) →
      (∀ pr ∈ l2, φ pr.1 = some pr.2) → l1 = l2 := by
  intro l1
  induction l1 with
  | nil =>
      intro l2 hmap _ _
      cases l2 with
      | nil => rfl
      | cons q l2 => simp at hmap
  | cons p l1 ih =>
      intro l2 hmap h1 h2
      cases l2 with
      | nil => simp at hmap
      | cons q l2 =>
          simp only [List.map_cons, List.cons.injEq] at hmap
          have hp := h1 p (List.mem_cons_self _ _)
          have hq := h2 q (List.mem_cons_self _ _)
          rw [hmap.1] at hp
          rw [hp] at hq
          have hval : p.2 = q.2 := by
            injection hq
          have : p = q := Prod.ext hmap.1 hval
          rw [this, ih l2 hmap.2
            (fun r hr => h1 r (List.mem_cons_of_mem _ hr))
            (fun r hr => h2 r (List.mem_cons_of_mem _ hr))]

theorem execList_append {V P : Type} (fd : Dict (BoundFunc V P)) (dag : DiGraph)
    (targets : Option (List Name)) :
    ∀ (l1 l2 : List Name) (st : ExecState V),
      execList fd dag targets (l1 ++ l2) st =
        match execList fd dag targets l1 st with
        | (st1, none) => execList fd dag targets l2 st1
        | (st1, some e) => (st1, some e) := by
  intro l1
  induction l1 with
  | nil => intro l2 st; rfl
  | cons t l1 ih =>
      intro l2 st
      show execList fd dag targets (t :: (l1 ++ l2)) st = _
      rw [execList]
      cases hstep : execTask fd dag targets st t with
      | mk st' e =>
          cases e with
          | none =>
              show execList fd dag targets (l1 ++ l2) st' = _
              rw [ih l2 st']
              show (match execList fd dag targets l1 st' with
                | (st1, none) => execList fd dag targets l2 st1
                | (st1, some e) => (st1, some e)) =
                match execList fd dag targets (t :: l1) st with
                | (st1, none) => execList fd dag targets l2 st1
                | (st1, some e) => (st1, some e)
              rw [execList, hstep]
          | some err =>
              show (st', some err) = match execList fd dag targets (t :: l1) st with
                | (st1, none) => execList fd dag targets l2 st1
                | (st1, some e) => (st1, some e)
              rw [execList, hstep]

theorem nxDescendants_ok {g : DiGraph} {n : Name} (h : n ∈ g.nodes) :
    nxDescendants g n = .ok (g.descendants n) := by
  simp [nxDescendants, h]

theorem gc_fold_noop {V : Type} (g : DiGraph) (task : Name) (visited : NSet)
    (ts : List Name) :
    ∀ (L : List Name) (res : Dict V),
      (∀ m ∈ L, m ∈ g.nodes ∧
        ¬((∀ d ∈ g.descendants m, d ∈ visited) ∧ task ∉ ts)) →
      L.foldlM (fun res node => do
        let desc ← nxDescendants g node
        if (∀ d ∈ desc, d ∈ visited) ∧ task ∉ ts then
          delStrict res node
        else pure res) res = .ok res := by
  intro L
  induction L with
  | nil => intro res _; rfl
  | cons m L ih =>
      intro res hall
      obtain ⟨hm, hcond⟩ := hall m (List.mem_cons_self _ _)
      have hstep : (m :: L).foldlM (fun res node => do
          let desc ← nxDescendants g node
          if (∀ d ∈ desc, d ∈ visited) ∧ task ∉ ts then
            delStrict res node
          else pure res) res =
          L.foldlM (fun res node => do
            let desc ← nxDescendants g node
            if (∀ d ∈ desc, d ∈ visited) ∧ task ∉ ts then
              delStrict res node
            else pure res) res := by
        rw [List.foldlM_cons, nxDescendants_ok hm]
        show (if (∀ d ∈ g.descendants m, d ∈ visited) ∧ task ∉ ts then
            delStrict res m else pure res) >>= _ = _
        rw [if_neg hcond]
        rfl
      rw [hstep]
      exact ih res (fun q hq => hall q (List.mem_cons_of_mem _ hq))

theorem collect_garbage_noop {V : Type} {g : DiGraph} (hwf : g.WF)
    {ts : List Name}
    (Hdag : ∀ n ∈ g.nodes, n ∉ ts →
      ∃ t' ∈ ts, t' ∈ g.nodes ∧ t' ∈ g.descendants n)
    (results : Dict V) {task : Name} (htask : task ∈ g.nodes)
    {visited : NSet} (htv : task ∈ visited)
    (hts : ∀ w, g.Reaches task w → w ∉ visited) :
    collect_garbage results task visited ts g = .ok results := by
  unfold collect_garbage
  rw [nxAncestors_ok htask]
  refine gc_fold_noop g task visited ts (g.ancestors task) results ?_
  intro m hm
  have hmem := (mem_ancestors_iff hwf).mp hm
  refine ⟨ancestors_subset_nodes hwf hm, ?_⟩
  rintro ⟨hdesc, htts⟩
  obtain ⟨t', ht'ts, ht'node, ht'desc⟩ := Hdag task htask htts
  have ht'd := (mem_descendants_iff hwf).mp ht'desc
  by_cases he : t' = m
  · subst he
    have h1 : g.Reaches task task := Relation.TransGen.trans ht'd.2 hmem.2
    exact hts task h1 htv
  · have hr : g.Reaches m t' := Relation.TransGen.trans hmem.2 ht'd.2
    have hmem2 : t' ∈ g.descendants m := (mem_descendants_iff hwf).mpr ⟨he, hr⟩
    exact hts t' ht'd.2 (hdesc t' hmem2)

theorem execTask_reduce {V P : Type} (fd : Dict (BoundFunc V P)) (dag : DiGraph)
    (targets : Option (List Name)) (st : ExecState V) (t : Name)
    (f : BoundFunc V P) (kw : Dict V)
    (hnone : Dict.lookup st.results t = none)
    (hfd : Dict.lookup fd t = some f)
    (hkw : dict_subset st.results (dag.preds t) = .ok kw) :
    execTask fd dag targets st t =
      match BoundFunc.call f (fun n => Dict.lookup kw n) with
      | none => (⟨st.results, st.visited, st.invoked ++ [t]⟩,
          some (.funcFailed t))
      | some v =>
          match targets with
          | none => (⟨Dict.insert st.results t v, NSet.push st.visited t,
              st.invoked ++ [t]⟩, none)
          | some ts =>
              match collect_garbage (Dict.insert st.results t v) t
                  (NSet.push st.visited t) ts dag with
              | .ok r => (⟨r, NSet.push st.visited t,
                  st.invoked ++ [t]⟩, none)
              | .error e => (⟨Dict.insert st.results t v,
                  NSet.push st.visited t, st.invoked ++ [t]⟩, some e) := by
  unfold execTask
  rw [hnone, hfd, hkw]
  rfl

theorem execTask_cases {V P : Type} {fd : Dict (BoundFunc V P)} {dag : DiGraph}
    {targets : Option (List Name)} {data : Dict V} {RefOk : Name → V → Prop}
    (hwf : dag.WF)
    {tasks pre post : List Name} {t : Name} {st : ExecState V}
    (htopo : TopoList dag tasks) (htnd : tasks.Nodup)
    (htsub : ∀ v ∈ tasks, v ∈ dag.nodes)
    (hsplit : tasks = pre ++ t :: post)
    (hgood : ∀ ts, targets = some ts → ∀ n ∈ dag.nodes, n ∉ ts →
      ∃ t' ∈ ts, t' ∈ dag.nodes ∧ t' ∈ dag.descendants n)
    (hrefstep : ∀ u f kw v, u ∈ dag.nodes → Dict.lookup data u = none →
      Dict.lookup fd u = some f → kw.map Prod.fst = dag.preds u →
      (∀ pr ∈ kw, RefOk pr.1 pr.2) →
      BoundFunc.call f (fun n => Dict.lookup kw n) = some v → RefOk u v)
    (inv : ExecInv data RefOk pre st) :
    ((Dict.lookup st.results t).isSome →
      execTask fd dag targets st t = (st, none) ∧
      ExecInv data RefOk (pre ++ [t]) st) ∧
    (Dict.lookup st.results t = none → Dict.lookup fd t = none →
      execTask fd dag targets st t = (st, some (.missingVariable t))) ∧
    (∀ f, Dict.lookup st.results t = none → Dict.lookup fd t = some f →
      (∀ u ∈ dag.preds t, (Dict.lookup st.results u).isSome) ∧
      ∃ kw, dict_subset st.results (dag.preds t) = .ok kw ∧
        kw.map Prod.fst = dag.preds t ∧
        (∀ pr ∈ kw, Dict.lookup st.results pr.1 = some pr.2) ∧
        (∀ k ∈ dag.preds t, Dict.lookup kw k = Dict.lookup st.results k) ∧
        (BoundFunc.call f (fun n => Dict.lookup kw n) = none →
          execTask fd dag targets st t =
            (⟨st.results, st.visited, st.invoked ++ [t]⟩, some (.funcFailed t))) ∧
        (∀ v, BoundFunc.call f (fun n => Dict.lookup kw n) = some v →
          execTask fd dag targets st t =
            (⟨Dict.insert st.results t v, NSet.push st.visited t,
              st.invoked ++ [t]⟩, none) ∧
          ExecInv data RefOk (pre ++ [t])
            ⟨Dict.insert st.results t v, NSet.push st.visited t,
              st.invoked ++ [t]⟩)) := by
  have htmem : t ∈ tasks := by
    rw [hsplit]
    exact List.mem_append_right _ (List.mem_cons_self _ _)
  have htnode : t ∈ dag.nodes := htsub t htmem
  refine ⟨?_, ?_, ?_⟩
  · intro hsome
    refine ⟨by unfold execTask; rw [if_pos hsome], ?_⟩
    exact
      { visited_sub := fun v hv => List.mem_append_left _ (inv.visited_sub v hv)
        presence := by
          intro u hu
          rcases List.mem_append.mp hu with h | h
          · exact inv.presence u h
          · rw [List.mem_singleton] at h
            subst h
            exact hsome
        refok := inv.refok
        provenance := fun k v hk =>
          (inv.provenance k v hk).imp id (List.mem_append_left _)
        invoked_sub := fun v hv => List.mem_append_left _ (inv.invoked_sub v hv)
        data_sub := inv.data_sub }
  · intro hnone hfd
    unfold execTask
    rw [hnone, hfd]
    rfl
  · intro f hnone hfd
    have hpreds : ∀ u ∈ dag.preds t, (Dict.lookup st.results u).isSome := by
      intro u hu
      have hedge := DiGraph.mem_preds.mp hu
      exact inv.presence u (htopo pre t post hsplit u hedge)
    obtain ⟨kw, hkw, hkmap, hkent, hklook⟩ :=
      dict_subset_spec st.results (dag.preds t) hpreds
    have h1 := execTask_reduce fd dag targets st t f kw hnone hfd hkw
    refine ⟨hpreds, kw, hkw, hkmap, hkent, hklook, ?_, ?_⟩
    · intro hcall
      rw [h1, hcall]
    · intro v hcall
      have hdata_none : Dict.lookup data t = none := by
        cases hdt : Dict.lookup data t with
        | none => rfl
        | some w =>
            have := inv.data_sub t w hdt
            rw [hnone] at this
            exact absurd this (by simp)
      have hrefok_t : RefOk t v :=
        hrefstep t f kw v htnode hdata_none hfd hkmap
          (fun pr hpr => inv.refok pr.1 pr.2 (hkent pr hpr)) hcall
      have hinv' : ExecInv data RefOk (pre ++ [t])
          ⟨Dict.insert st.results t v, NSet.push st.visited t,
            st.invoked ++ [t]⟩ :=
        { visited_sub := by
            intro w hw
            rcases NSet.mem_push.mp hw with h | rfl
            · exact List.mem_append_left _ (inv.visited_sub w h)
            · exact List.mem_append_right _ (List.mem_singleton.mpr rfl)
          presence := by
            intro u hu
            by_cases he : t = u
            · subst he
              rw [Dict.lookup_insert_self]
              rfl
            · rw [Dict.lookup_insert_ne _ _ _ _ he]
              rcases List.mem_append.mp hu with h | h
              · exact inv.presence u h
              · rw [List.mem_singleton] at h
                exact absurd h.symm he
          refok := by
            intro k w hk
            by_cases he : t = k
            · subst he
              rw [Dict.lookup_insert_self] at hk
              injection hk with hk
              rw [← hk]
              exact hrefok_t
            · rw [Dict.lookup_insert_ne _ _ _ _ he] at hk
              exact inv.refok k w hk
          provenance := by
            intro k w hk
            by_cases he : t = k
            · subst he
              exact Or.inr (List.mem_append_right _ (List.mem_singleton.mpr rfl))
            · rw [Dict.lookup_insert_ne _ _ _ _ he] at hk
              exact (inv.provenance k w hk).imp id (List.mem_append_left _)
          invoked_sub := by
            intro w hw
            rcases List.mem_append.mp hw with h | h
            · exact List.mem_append_left _ (inv.invoked_sub w h)
            · exact List.mem_append_right _ h
          data_sub := by
            intro k w hk
            by_cases he : t = k
            · subst he
              have := inv.data_sub t w hk
              rw [hnone] at this
              exact absurd this (by simp)
            · rw [Dict.lookup_insert_ne _ _ _ _ he]
              exact inv.data_sub k w hk }
      refine ⟨?_, hinv'⟩
      rw [h1, hcall]
      cases htg : targets with
      | none => rfl
      | some ts =>
          have hgc : collect_garbage (Dict.insert st.results t v) t
              (NSet.push st.visited t) ts dag =
              .ok (Dict.insert st.results t v) := by
            refine collect_garbage_noop hwf (hgood ts htg)
              (Dict.insert st.results t v) htnode
              (NSet.mem_push.mpr (Or.inr rfl)) ?_
            intro w hr hw
            have hnb := topo_reach_not_before htopo htnd hsplit hr
            rcases NSet.mem_push.mp hw with h | rfl
            · exact hnb.1 (inv.visited_sub w h)
            · exact hnb.2 rfl
          show (match collect_garbage (Dict.insert st.results t v) t
              (NSet.push st.visited t) ts dag with
            | Except.ok r => ((⟨r, NSet.push st.visited t,
                st.invoked ++ [t]⟩ : ExecState V), (none : Option RunError))
            | Except.error e => (⟨Dict.insert st.results t v,
                NSet.push st.visited t, st.invoked ++ [t]⟩, some e)) = _
          rw [hgc]

theorem execList_master {V P : Type} {fd : Dict (BoundFunc V P)} {dag : DiGraph}
    {targets : Option (List Name)} {data : Dict V} {RefOk : Name → V → Prop}
    (hwf : dag.WF) {tasks : List Name}
    (htopo : TopoList dag tasks) (htnd : tasks.Nodup)
    (htsub : ∀ v ∈ tasks, v ∈ dag.nodes)
    (hgood : ∀ ts, targets = some ts → ∀ n ∈ dag.nodes, n ∉ ts →
      ∃ t' ∈ ts, t' ∈ dag.nodes ∧ t' ∈ dag.descendants n)
    (hrefstep : ∀ u f kw v, u ∈ dag.nodes → Dict.lookup data u = none →
      Dict.lookup fd u = some f → kw.map Prod.fst = dag.preds u →
      (∀ pr ∈ kw, RefOk pr.1 pr.2) →
      BoundFunc.call f (fun n => Dict.lookup kw n) = some v → RefOk u v) :
    ∀ (rest pre suffix : List Name) (st : ExecState V),
      tasks = pre ++ rest ++ suffix → ExecInv data RefOk pre st →
      (∀ v ∈ (execList fd dag targets rest st).1.invoked, v ∈ pre ++ rest) ∧
      ((execList fd dag targets rest st).2 = none →
        ExecInv data RefOk (pre ++ rest) (execList fd dag targets rest st).1) := by
  intro rest
  induction rest with
  | nil =>
      intro pre suffix st heq inv
      refine ⟨?_, ?_⟩
      · intro v hv
        exact List.mem_append_left _ (inv.invoked_sub v hv)
      · intro _
        rw [List.append_nil]
        exact inv
  | cons t rest ih =>
      intro pre suffix st heq inv
      have hsplit : tasks = pre ++ t :: (rest ++ suffix) := by
        rw [heq]
        simp
      have hcases := execTask_cases hwf htopo htnd htsub hsplit hgood hrefstep inv
      by_cases hsome : (Dict.lookup st.results t).isSome
      · obtain ⟨hstep, hinv'⟩ := hcases.1 hsome
        have hred : execList fd dag targets (t :: rest) st =
            execList fd dag targets rest st := by
          rw [execList, hstep]
        rw [hred]
        have heq' : tasks = (pre ++ [t]) ++ rest ++ suffix := by
          rw [heq]
          simp
        obtain ⟨hI, hE⟩ := ih (pre ++ [t]) suffix st heq' hinv'
        refine ⟨?_, ?_⟩
        · intro v hv
          have h := hI v hv
          rw [List.append_assoc] at h
          exact h
        · intro he
          have h := hE he
          rw [List.append_assoc] at h
          exact h
      · rw [Option.not_isSome_iff_eq_none] at hsome
        cases hfd : Dict.lookup fd t with
        | none =>
            have hstep := hcases.2.1 hsome hfd
            have hred : execList fd dag targets (t :: rest) st =
                (st, some (.missingVariable t)) := by
              rw [execList, hstep]
            rw [hred]
            refine ⟨?_, ?_⟩
            · intro v hv
              exact List.mem_append_left _ (inv.invoked_sub v hv)
            · intro he
              exact absurd he (by simp)
        | some f =>
            obtain ⟨hpreds, kw, hkw, hkmap, hkent, hklook, herr, hsucc⟩ :=
              hcases.2.2 f hsome hfd
            cases hcall : BoundFunc.call f (fun n => Dict.lookup kw n) with
            | none =>
                have hstep := herr hcall
                have hred : execList fd dag targets (t :: rest) st =
                    (⟨st.results, st.visited, st.invoked ++ [t]⟩,
                      some (.funcFailed t)) := by
                  rw [execList, hstep]
                rw [hred]
                refine ⟨?_, ?_⟩
                · intro v hv
                  rcases List.mem_append.mp hv with h | h
                  · exact List.mem_append_left _ (inv.invoked_sub v h)
                  · rw [List.mem_singleton] at h
                    subst h
                    exact List.mem_append_right _ (List.mem_cons_self _ _)
                · intro he
                  exact absurd he (by simp)
            | some v =>
                obtain ⟨hstep, hinv'⟩ := hsucc v hcall
                have hred : execList fd dag targets (t :: rest) st =
                    execList fd dag targets rest
                      ⟨Dict.insert st.results t v, NSet.push st.visited t,
                        st.invoked ++ [t]⟩ := by
                  rw [execList, hstep]
                rw [hred]
                have heq' : tasks = (pre ++ [t]) ++ rest ++ suffix := by
                  rw [heq]
                  simp
                obtain ⟨hI, hE⟩ := ih (pre ++ [t]) suffix _ heq' hinv'
                refine ⟨?_, ?_⟩
                · intro w hw
                  have h := hI w hw
                  rw [List.append_assoc] at h
                  exact h
                · intro he
                  have h := hE he
                  rw [List.append_assoc] at h
                  exact h

theorem ExecInv_init {V : Type} (data : Dict V) (RefOk : Name → V → Prop)
    (href0 : ∀ k v, Dict.lookup data k = some v → RefOk k v) :
    ExecInv data RefOk [] ⟨data, [], []⟩ :=
  { visited_sub := fun v hv => absurd hv (List.not_mem_nil v)
    presence := fun u hu => absurd hu (List.not_mem_nil u)
    refok := href0
    provenance := fun _ _ hk => Or.inl hk
    invoked_sub := fun v hv => absurd hv (List.not_mem_nil v)
    data_sub := fun _ _ h => h }

theorem execTask_none_results {V P : Type} (fd : Dict (BoundFunc V P))
    (dag : DiGraph) (st : ExecState V) (t : Name) {k : Name} {v : V}
    (hk : Dict.lookup st.results k = some v) :
    Dict.lookup (execTask fd dag none st t).1.results k = some v := by
  by_cases hsome : (Dict.lookup st.results t).isSome
  · have hred : execTask fd dag none st t = (st, none) := by
      unfold execTask
      rw [if_pos hsome]
    rw [hred]
    exact hk
  · rw [Option.not_isSome_iff_eq_none] at hsome
    cases hfd : Dict.lookup fd t with
    | none =>
        have hred : execTask fd dag none st t =
            (st, some (.missingVariable t)) := by
          unfold execTask
          rw [hsome, hfd]
          rfl
        rw [hred]
        exact hk
    | some f =>
        cases hkw : dict_subset st.results (dag.preds t) with
        | error e =>
            have hred : execTask fd dag none st t = (st, some e) := by
              unfold execTask
              rw [hsome, hfd, hkw]
              rfl
            rw [hred]
            exact hk
        | ok kw =>
            have h1 := execTask_reduce fd dag none st t f kw hsome hfd hkw
            cases hcall : BoundFunc.call f (fun n => Dict.lookup kw n) with
            | none =>
                rw [h1, hcall]
                exact hk
            | some w =>
                rw [h1, hcall]
                show Dict.lookup (Dict.insert st.results t w) k = some v
                have hne : t ≠ k := by
                  rintro rfl
                  rw [hsome] at hk
                  cases hk
                rw [Dict.lookup_insert_ne _ _ _ _ hne]
                exact hk

theorem execList_none_mono {V P : Type} (fd : Dict (BoundFunc V P))
    (dag : DiGraph) :
    ∀ (L : List Name) (st : ExecState V) (k : Name) (v : V),
      Dict.lookup st.results k = some v →
      Dict.lookup (execList fd dag none L st).1.results k = some v := by
  intro L
  induction L with
  | nil =>
      intro st k v hk
      exact hk
  | cons t L ih =>
      intro st k v hk
      have hstep := execTask_none_results fd dag st t hk
      rw [execList]
      cases hres : execTask fd dag none st t with
      | mk st' e =>
          rw [hres] at hstep
          cases e with
          | none => exact ih st' k v hstep
          | some err => exact hstep

theorem execList_none_compute {V P : Type} {fd : Dict (BoundFunc V P)}
    {dag : DiGraph} {data : Dict V} (hwf : dag.WF)
    {pre1 post1 : List Name} {u : Name}
    (hsplit : (topological_sort dag).1 = pre1 ++ u :: post1)
    {stF : ExecState V}
    (hrun : execList fd dag none ((topological_sort dag).1) ⟨data, [], []⟩ =
      (stF, none))
    (hdata : Dict.lookup data u = none)
    {f : BoundFunc V P} (hfd : Dict.lookup fd u = some f) :
    ∃ (st1 : ExecState V) (kw1 : Dict V) (v1 : V),
      dict_subset st1.results (dag.preds u) = .ok kw1 ∧
      (∀ pr ∈ kw1, Dict.lookup stF.results pr.1 = some pr.2) ∧
      kw1.map Prod.fst = dag.preds u ∧
      BoundFunc.call f (fun n => Dict.lookup kw1 n) = some v1 ∧
      Dict.lookup stF.results u = some v1 := by
  obtain ⟨htopo, htnd, htsub, hcomp⟩ := topological_sort_spec hwf
  rw [hsplit, execList_append] at hrun
  cases hpre : execList fd dag none pre1 ⟨data, [], []⟩ with
  | mk st1 e1 =>
      rw [hpre] at hrun
      cases e1 with
      | some err =>
          have h2 : ((st1, some err) : ExecState V × Option RunError) =
              (stF, none) := hrun
          exact absurd (congrArg Prod.snd h2) (by simp)
      | none =>
          have hrun1 : execList fd dag none (u :: post1) st1 = (stF, none) :=
            hrun
          have hmaster := @execList_master V P fd dag none data
            (fun _ _ => True) hwf (topological_sort dag).1 htopo htnd htsub
            (fun ts h => by cases h)
            (fun _ _ _ _ _ _ _ _ _ _ => trivial)
            pre1 [] (u :: post1) ⟨data, [], []⟩
            (by rw [hsplit]; rfl)
            (ExecInv_init data _ (fun _ _ _ => trivial))
          rw [hpre] at hmaster
          have inv1 : ExecInv data (fun _ _ => True) pre1 st1 :=
            hmaster.2 rfl
          have hnoneu : Dict.lookup st1.results u = none := by
            cases hl : Dict.lookup st1.results u with
            | none => rfl
            | some w =>
                rcases inv1.provenance u w hl with h | h
                · rw [hdata] at h
                  cases h
                · exact absurd h (not_mem_of_nodup_middle htnd hsplit)
          have hcases := @execTask_cases V P fd dag none data
            (fun _ _ => True) hwf (topological_sort dag).1 pre1 post1 u st1
            htopo htnd htsub hsplit (fun ts h => by cases h)
            (fun _ _ _ _ _ _ _ _ _ _ => trivial) inv1
          obtain ⟨hpreds, kw1, hkw, hkmap, hkent, hklook, herrc, hsucc⟩ :=
            hcases.2.2 f hnoneu hfd
          cases hcall : BoundFunc.call f (fun n => Dict.lookup kw1 n) with
          | none =>
              exfalso
              have hstep := herrc hcall
              rw [execList, hstep] at hrun1
              have h2 : ((⟨st1.results, st1.visited, st1.invoked ++ [u]⟩,
                  some (RunError.funcFailed u)) :
                  ExecState V × Option RunError) = (stF, none) := hrun1
              exact absurd (congrArg Prod.snd h2) (by simp)
          | some v1 =>
              obtain ⟨hstep, hinv2⟩ := hsucc v1 hcall
              rw [execList, hstep] at hrun1
              have hrun2 : execList fd dag none post1
                  ⟨Dict.insert st1.results u v1, NSet.push st1.visited u,
                    st1.invoked ++ [u]⟩ = (stF, none) := hrun1
              refine ⟨st1, kw1, v1, hkw, ?_, hkmap, hcall, ?_⟩
              · intro pr hpr
                have h0 := hkent pr hpr
                have hne : u ≠ pr.1 := by
                  rintro heq
                  rw [← heq, hnoneu] at h0
                  cases h0
                have h1 : Dict.lookup (Dict.insert st1.results u v1) pr.1 =
                    some pr.2 := by
                  rw [Dict.lookup_insert_ne _ _ _ _ hne]
                  exact h0
                have h3 := execList_none_mono fd dag post1
                  ⟨Dict.insert st1.results u v1, NSet.push st1.visited u,
                    st1.invoked ++ [u]⟩ pr.1 pr.2 h1
                rw [hrun2] at h3
                exact h3
              · have h1 : Dict.lookup (Dict.insert st1.results u v1) u =
                    some v1 := Dict.lookup_insert_self _ _ _
                have h3 := execList_none_mono fd dag post1
                  ⟨Dict.insert st1.results u v1, NSet.push st1.visited u,
                    st1.invoked ++ [u]⟩ u v1 h1
                rw [hrun2] at h3
                exact h3

theorem execute_dag_trace_eq {V P : Type} (fd : Dict (BoundFunc V P))
    (dag : DiGraph) (data : Dict V) (targets : Option (List Name)) :
    execute_dag_trace fd dag data targets =
      match (execList fd dag targets ((topological_sort dag).1)
          ⟨data, [], []⟩).2 with
      | some e => (.error e,
          (execList fd dag targets ((topological_sort dag).1)
            ⟨data, [], []⟩).1.invoked)
      | none =>
          if (topological_sort dag).2 then (.error .unfeasible,
            (execList fd dag targets ((topological_sort dag).1)
              ⟨data, [], []⟩).1.invoked)
          else (.ok (execList fd dag targets ((topological_sort dag).1)
              ⟨data, [], []⟩).1.results,
            (execList fd dag targets ((topological_sort dag).1)
              ⟨data, [], []⟩).1.invoked) := rfl

theorem prune_dag_ok_targets {g : DiGraph} {targets : List Name} {g' : DiGraph}
    (h : prune_dag g targets = .ok g') : ∀ t ∈ targets, t ∈ g.nodes := by
  intro t ht
  by_contra hnot
  obtain ⟨u, hu1, hu2, herr⟩ := prunePass_error targets.dedup targets.dedup
    ⟨t, List.mem_dedup.mpr ht, hnot⟩
  have hpp : prunePass g targets.dedup = .error (.nodeNotInGraph u) := herr
  have hloop : pruneLoop g (g.nodes.length + 1) targets.dedup =
      .error (.nodeNotInGraph u) := by
    rw [pruneLoop, hpp]
    rfl
  unfold prune_dag at h
  rw [hloop] at h
  have h2 : (Except.error (RunError.nodeNotInGraph u) :
      Except RunError DiGraph) = .ok g' := h
  exact Except.noConfusion h2

/-- Claim C4.  During execution, whenever the next node in the topological
order has neither an existing value in the result set nor a registered
function, `execute_dag` fails with the missing-variable error
(`KeyError("Missing variable or function: ...")`, the code's rendering of
`MissingDependencyError`) naming that node. -/
theorem C4_theorem {V P : Type} (fd : Dict (BoundFunc V P)) (dag : DiGraph)
    (data : Dict V) (targets : Option (List Name))
    {pre post : List Name} {t : Name} {st : ExecState V}
    (hsplit : (topological_sort dag).1 = pre ++ t :: post)
    (hrun : execList fd dag targets pre ⟨data, [], []⟩ = (st, none))
    (hnone : Dict.lookup st.results t = none)
    (hfd : Dict.lookup fd t = none) :
    execute_dag fd dag data targets = .error (.missingVariable t) := by
  have hstep : execTask fd dag targets st t =
      (st, some (.missingVariable t)) := by
    unfold execTask
    rw [hnone, hfd]
    rfl
  have hfull : execList fd dag targets ((topological_sort dag).1)
      ⟨data, [], []⟩ = (st, some (.missingVariable t)) := by
    rw [hsplit, execList_append, hrun]
    show execList fd dag targets (t :: post) st = _
    rw [execList, hstep]
  unfold execute_dag
  rw [execute_dag_trace_eq, hfull]

/-- Claim C4, witness: the scenario catalog run on empty input data fails
with the missing-variable error naming the first yielded node. -/
theorem C4_witness :
    execute_dag (create_function_dict [] (get_params "2019-01-01" []))
      scenario_graph ([] : Dict Val) none =
      .error (.missingVariable "n_children") :=
  @C4_theorem Val (Dict Val)
    (create_function_dict [] (get_params "2019-01-01" []))
    scenario_graph [] none
    [] ["wealth", "wealth_taxes", "income", "benefits", "income_taxes",
      "disposable_income"] "n_children" ⟨[], [], []⟩
    (by decide) rfl rfl rfl

/-- Claim C5.  For every edge `(D, C)` of the graph a `tax_transfer` run
executes over, and every input configuration, `D`'s value is present in
the result set at the moment `C` is reached in the topological order (in
fact the reclaimer deletes nothing, so no value is ever evicted before
its dependents are evaluated). -/
theorem C5_theorem (baseline_date : String) (data : Dict Val)
    (functions : Dict (PyFunc Val (Dict Val))) (params : Dict Val)
    (targets : Option (List Name)) {g0 dag : DiGraph}
    (hdag0 : create_dag (create_function_dict functions
      (get_params baseline_date params)) = .ok g0)
    (hprune : (match targets with
      | none => Except.ok g0
      | some ts => prune_dag g0 ts) = Except.ok dag)
    {pre post : List Name} {C : Name} {st : ExecState Val}
    (hsplit : (topological_sort dag).1 = pre ++ C :: post)
    (hrun : execList (create_function_dict functions
        (get_params baseline_date params)) dag targets pre
      ⟨data, [], []⟩ = (st, none)) :
    ∀ D, (D, C) ∈ dag.edges → (Dict.lookup st.results D).isSome := by
  have hwf0 : g0.WF := create_dag_wf hdag0
  have hmain : dag.WF ∧ (∀ ts, targets = some ts → ∀ n ∈ dag.nodes, n ∉ ts →
      ∃ t' ∈ ts, t' ∈ dag.nodes ∧ t' ∈ dag.descendants n) := by
    cases targets with
    | none =>
        have h2 : Except.ok g0 = Except.ok dag := hprune
        have hg : g0 = dag := by injection h2
        exact ⟨hg ▸ hwf0, fun ts h => Option.noConfusion h⟩
    | some ts =>
        have hpr : prune_dag g0 ts = .ok dag := hprune
        have htarg := prune_dag_ok_targets hpr
        obtain ⟨g', hok, hnodes, hedges, hwf', hfilter⟩ :=
          prune_dag_spec hwf0 ts htarg
        have hgg : g' = dag := by
          rw [hok] at hpr
          injection hpr
        subst hgg
        refine ⟨hwf', ?_⟩
        intro ts' h
        injection h with h
        subst h
        exact pruned_target_descendant hwf0 hwf' hnodes hedges htarg
  obtain ⟨hwf, hgood⟩ := hmain
  obtain ⟨htopo, htnd, htsub, -⟩ := topological_sort_spec hwf
  have hmaster := @execList_master Val (Dict Val)
    (create_function_dict functions (get_params baseline_date params)) dag
    targets data (fun _ _ => True) hwf (topological_sort dag).1 htopo htnd
    htsub hgood (fun _ _ _ _ _ _ _ _ _ _ => trivial)
    pre [] (C :: post) ⟨data, [], []⟩ (by rw [hsplit]; rfl)
    (ExecInv_init data _ (fun _ _ _ => trivial))
  rw [hrun] at hmaster
  have inv : ExecInv data (fun _ _ => True) pre st := hmaster.2 rfl
  intro D hD
  exact inv.presence D (htopo pre C post hsplit D hD)

/-- Claim C5, witness: in the reference scenario, at the moment
`disposable_income` is reached, every one of its five dependencies has a
value in the result set. -/
theorem C5_witness :
    (Dict.lookup ([("income", (25000 : Val)), ("wealth", 0),
      ("n_children", 2), ("wealth_taxes", 0), ("benefits", 4000),
      ("income_taxes", 5000)] : Dict Val) "income_taxes").isSome :=
  @C5_theorem ("2019-01-01") scenario_data [] [] none
    scenario_graph scenario_graph (by decide) (by decide)
    ["n_children", "wealth", "wealth_taxes", "income", "benefits",
      "income_taxes"] [] "disposable_income"
    ⟨[("income", 25000), ("wealth", 0), ("n_children", 2),
      ("wealth_taxes", 0), ("benefits", 4000), ("income_taxes", 5000)],
     ["wealth_taxes", "benefits", "income_taxes"],
     ["wealth_taxes", "benefits", "income_taxes"]⟩
    (by decide) (by decide) "income_taxes" (by decide)

/-- Claim C6.  For every well-formed graph and every target set whose
names occur in the graph, `prune_dag` succeeds and retains exactly the
nodes in `targets ∪ ancestors(targets)`, with exactly the induced edges
(the unique minimal induced subgraph containing the targets and all their
transitive dependencies), and pruning is idempotent: pruning the pruned
graph to the same targets returns it unchanged. -/
theorem C6_theorem {g : DiGraph} (hwf : g.WF) (targets : List Name)
    (htarg : ∀ t ∈ targets, t ∈ g.nodes) :
    ∃ g', prune_dag g targets = .ok g' ∧
      (∀ n, n ∈ g'.nodes ↔
        n ∈ targets ∨ ∃ t ∈ targets, n ∈ g.ancestors t) ∧
      (∀ e, e ∈ g'.edges ↔ e ∈ g.edges ∧
        e.1 ∈ g'.nodes ∧ e.2 ∈ g'.nodes) ∧
      prune_dag g' targets = .ok g' := by
  obtain ⟨g', hok, hnodes, hedges, hwf', hfilter, hidem⟩ :=
    prune_dag_exact hwf targets htarg
  exact ⟨g', hok, hnodes, hedges, hidem⟩

/-- Claim C6, witness: pruning the scenario graph to
`["wealth_taxes"]` keeps exactly `wealth_taxes` and its only ancestor
`wealth`, with the one induced edge, and pruning again is a no-op. -/
theorem C6_witness :
    ∃ g', prune_dag scenario_graph ["wealth_taxes"] = .ok g' ∧
      (∀ n, n ∈ g'.nodes ↔
        n ∈ ["wealth_taxes"] ∨
          ∃ t ∈ ["wealth_taxes"], n ∈ scenario_graph.ancestors t) ∧
      (∀ e, e ∈ g'.edges ↔ e ∈ scenario_graph.edges ∧
        e.1 ∈ g'.nodes ∧ e.2 ∈ g'.nodes) ∧
      prune_dag g' ["wealth_taxes"] = .ok g' :=
  C6_theorem ⟨by decide, by decide, by decide, by decide⟩
    ["wealth_taxes"] (by decide)

theorem run_pipeline_ok {V P : Type} {fd : Dict (BoundFunc V P)} {data : Dict V}
    {targets : Option (List Name)} {r : Dict V} {trace : List Name}
    (h : run_pipeline fd data targets = (.ok r, trace)) :
    ∃ g0 dag, create_dag fd = .ok g0 ∧
      (match targets with
        | none => Except.ok g0
        | some ts => prune_dag g0 ts) = Except.ok dag ∧
      execute_dag_trace fd dag data targets = (.ok r, trace) := by
  cases targets with
  | none =>
      unfold run_pipeline at h
      cases hdag : create_dag fd with
      | error e =>
          rw [hdag] at h
          have h2 : ((Except.error e, []) :
              Except RunError (Dict V) × List Name) = (.ok r, trace) := h
          exact absurd (congrArg Prod.fst h2) (by simp)
      | ok g0 =>
          rw [hdag] at h
          have h3 : execute_dag_trace fd g0 data none = (.ok r, trace) := h
          exact ⟨g0, g0, rfl, rfl, h3⟩
  | some ts =>
      unfold run_pipeline at h
      cases hdag : create_dag fd with
      | error e =>
          rw [hdag] at h
          have h2 : ((Except.error e, []) :
              Except RunError (Dict V) × List Name) = (.ok r, trace) := h
          exact absurd (congrArg Prod.fst h2) (by simp)
      | ok g0 =>
          rw [hdag] at h
          have h3 : (match prune_dag g0 ts with
            | .error e => ((Except.error e, []) :
                Except RunError (Dict V) × List Name)
            | .ok dag2 => execute_dag_trace fd dag2 data (some ts)) =
              (.ok r, trace) := h
          cases hpr : prune_dag g0 ts with
          | error e =>
              rw [hpr] at h3
              have h4 : ((Except.error e, []) :
                  Except RunError (Dict V) × List Name) = (.ok r, trace) := h3
              exact absurd (congrArg Prod.fst h4) (by simp)
          | ok dag =>
              rw [hpr] at h3
              exact ⟨g0, dag, rfl, hpr, h3⟩

theorem execute_dag_trace_ok {V P : Type} {fd : Dict (BoundFunc V P)}
    {dag : DiGraph} {data : Dict V} {targets : Option (List Name)}
    {r : Dict V} {trace : List Name}
    (h : execute_dag_trace fd dag data targets = (.ok r, trace)) :
    ∃ stF, execList fd dag targets ((topological_sort dag).1)
        ⟨data, [], []⟩ = (stF, none) ∧
      (topological_sort dag).2 = false ∧ r = stF.results ∧
      trace = stF.invoked := by
  rw [execute_dag_trace_eq] at h
  cases hel : execList fd dag targets ((topological_sort dag).1)
      ⟨data, [], []⟩ with
  | mk stF e =>
      rw [hel] at h
      cases e with
      | some err =>
          have h2 : ((Except.error err, stF.invoked) :
              Except RunError (Dict V) × List Name) = (.ok r, trace) := h
          exact absurd (congrArg Prod.fst h2) (by simp)
      | none =>
          cases hcyc : (topological_sort dag).2 with
          | true =>
              rw [hcyc] at h
              have h2 : ((Except.error RunError.unfeasible, stF.invoked) :
                  Except RunError (Dict V) × List Name) = (.ok r, trace) := h
              exact absurd (congrArg Prod.fst h2) (by simp)
          | false =>
              rw [hcyc] at h
              have h2 : ((Except.ok stF.results, stF.invoked) :
                  Except RunError (Dict V) × List Name) = (.ok r, trace) := h
              have hr : Except.ok stF.results = Except.ok r :=
                congrArg Prod.fst h2
              have ht : stF.invoked = trace := congrArg Prod.snd h2
              refine ⟨stF, rfl, rfl, ?_, ht.symm⟩
              injection hr with hr
              exact hr.symm

/-- Claim C1, corrected version.  For every run with an explicit target
set that returns successfully, every requested name is present in the
returned mapping — but the mapping is the full surviving result set, not
its restriction to the requested names, and no requested-name check is
performed. -/
theorem C1_theorem (baseline_date : String) (data : Dict Val)
    (functions : Dict (PyFunc Val (Dict Val))) (params : Dict Val)
    (ts : List Name) {r : Dict Val} {trace : List Name}
    (hrun : tax_transfer baseline_date data functions params (some ts) =
      (.ok r, trace)) :
    ∀ t ∈ ts, (Dict.lookup r t).isSome := by
  have hrp : run_pipeline (create_function_dict functions
      (get_params baseline_date params)) data (some ts) = (.ok r, trace) :=
    hrun
  obtain ⟨g0, dag, hdag, hpr0, hexec⟩ := run_pipeline_ok hrp
  have hpr : prune_dag g0 ts = .ok dag := hpr0
  have hwf0 : g0.WF := create_dag_wf hdag
  have htarg := prune_dag_ok_targets hpr
  obtain ⟨g', hok, hnodes, hedges, hwf', hfilter⟩ :=
    prune_dag_spec hwf0 ts htarg
  have hgg : g' = dag := by
    rw [hok] at hpr
    injection hpr
  subst hgg
  obtain ⟨stF, hel, hcyc, hr, htr⟩ := execute_dag_trace_ok hexec
  obtain ⟨htopo, htnd, htsub, hcomp⟩ := topological_sort_spec hwf'
  have hgood : ∀ ts', some ts = some ts' → ∀ n ∈ g'.nodes, n ∉ ts' →
      ∃ t' ∈ ts', t' ∈ g'.nodes ∧ t' ∈ g'.descendants n := by
    intro ts' h
    injection h with h
    subst h
    exact pruned_target_descendant hwf0 hwf' hnodes hedges htarg
  have hmaster := @execList_master Val (Dict Val)
    (create_function_dict functions (get_params baseline_date params)) g'
    (some ts) data (fun _ _ => True) hwf' (topological_sort g').1 htopo htnd
    htsub hgood (fun _ _ _ _ _ _ _ _ _ _ => trivial)
    ((topological_sort g').1) [] [] ⟨data, [], []⟩ (by simp)
    (ExecInv_init data _ (fun _ _ _ => trivial))
  rw [hel] at hmaster
  have inv : ExecInv data (fun _ _ => True)
      ([] ++ (topological_sort g').1) stF := hmaster.2 rfl
  intro t ht
  have htn : t ∈ g'.nodes := (hnodes t).mpr ⟨htarg t ht, Or.inl ht⟩
  have htask : t ∈ (topological_sort g').1 := hcomp hcyc t htn
  rw [hr]
  exact inv.presence t htask

/-- Claim C1, witness: the reference-scenario run with
`targets = ["disposable_income"]` succeeds, and the requested name is
present in the returned mapping. -/
theorem C1_witness :
    (Dict.lookup scenario_full_result "disposable_income").isSome :=
  @C1_theorem ("2019-01-01") scenario_data [] [] ["disposable_income"]
    scenario_full_result scenario_invoked (by decide) "disposable_income"
    (by decide)

/-- Claim C3, corrected version.  For every run whose execution graph
(the created graph, pruned when an explicit target set is given) still
contains a cycle, the run fails — but not with a `ConfigurationError`
and not before execution is attempted: the cycle members are never
invoked, and when the loop over the yielded (acyclic) prefix raises
nothing itself, the failure is exactly the `NetworkXUnfeasible` error of
the topological-sort generator, surfacing only after that prefix has
been processed (so functions outside the cycle may already have been
invoked, as in the reference trace).  A cyclic catalog whose cycle is
pruned away by the targets runs to completion successfully. -/
theorem C3_theorem {V P : Type} (fd : Dict (BoundFunc V P)) (data : Dict V)
    (targets : Option (List Name)) {g0 dag : DiGraph}
    (hdag0 : create_dag fd = .ok g0)
    (hprune : (match targets with
      | none => Except.ok g0
      | some ts => prune_dag g0 ts) = Except.ok dag)
    {C : List Name} (hne : C ≠ []) (hsub : ∀ v ∈ C, v ∈ dag.nodes)
    (hcyc : ∀ v ∈ C, ∃ u ∈ C, (u, v) ∈ dag.edges) :
    (∃ e, (execute_dag_trace fd dag data targets).1 = .error e) ∧
    (∀ v ∈ C, v ∉ (execute_dag_trace fd dag data targets).2) ∧
    ((execList fd dag targets ((topological_sort dag).1)
        ⟨data, [], []⟩).2 = none →
      (execute_dag_trace fd dag data targets).1 = .error .unfeasible) ∧
    tax_transfer "2019-01-01" scenario_data [("a", cyc_a), ("b", cyc_b)] []
        (some ["income_taxes"]) =
      (.ok [("income", 25000), ("wealth", 0), ("n_children", 2),
        ("income_taxes", 5000)], ["income_taxes"]) := by
  have hwf0 : g0.WF := create_dag_wf hdag0
  have hmain : dag.WF ∧ (∀ ts, targets = some ts → ∀ n ∈ dag.nodes, n ∉ ts →
      ∃ t' ∈ ts, t' ∈ dag.nodes ∧ t' ∈ dag.descendants n) := by
    cases targets with
    | none =>
        have h2 : Except.ok g0 = Except.ok dag := hprune
        have hg : g0 = dag := by injection h2
        exact ⟨hg ▸ hwf0, fun ts h => Option.noConfusion h⟩
    | some ts =>
        have hpr : prune_dag g0 ts = .ok dag := hprune
        have htarg := prune_dag_ok_targets hpr
        obtain ⟨g', hok, hnodes, hedges, hwf', hfilter⟩ :=
          prune_dag_spec hwf0 ts htarg
        have hgg : g' = dag := by
          rw [hok] at hpr
          injection hpr
        subst hgg
        refine ⟨hwf', ?_⟩
        intro ts' h
        injection h with h
        subst h
        exact pruned_target_descendant hwf0 hwf' hnodes hedges htarg
  obtain ⟨hwf, hgood⟩ := hmain
  obtain ⟨hnotin, hcyc2⟩ := topological_sort_cycle hwf hne hsub hcyc
  obtain ⟨htopo, htnd, htsub, -⟩ := topological_sort_spec hwf
  have hmaster := @execList_master V P fd dag targets data (fun _ _ => True)
    hwf (topological_sort dag).1 htopo htnd htsub hgood
    (fun _ _ _ _ _ _ _ _ _ _ => trivial)
    ((topological_sort dag).1) [] [] ⟨data, [], []⟩ (by simp)
    (ExecInv_init data _ (fun _ _ _ => trivial))
  have hinvoked := hmaster.1
  rw [execute_dag_trace_eq]
  cases hel : execList fd dag targets ((topological_sort dag).1)
      ⟨data, [], []⟩ with
  | mk stF e =>
      rw [hel] at hinvoked
      have hinv : ∀ v ∈ stF.invoked, v ∈ (topological_sort dag).1 := by
        intro v hv
        have h := hinvoked v hv
        simpa using h
      cases e with
      | some err =>
          refine ⟨⟨err, rfl⟩, ?_, ?_, by decide⟩
          · intro v hv hvt
            exact hnotin v hv (hinv v hvt)
          · intro h
            exact absurd h (by simp)
      | none =>
          rw [hcyc2]
          refine ⟨⟨.unfeasible, rfl⟩, ?_, fun _ => rfl, by decide⟩
          intro v hv hvt
          exact hnotin v hv (hinv v hvt)

/-- Claim C3, witness: with the cyclic user functions `a(b, params)` and
`b(a, params)` in the catalog and `targets = "all"` (the cycle retained),
the run fails, neither `a` nor `b` is ever invoked, the yielded prefix
raises nothing so the failure is exactly the unfeasible error, and the
`targets = ["income_taxes"]` run (cycle pruned away) succeeds. -/
theorem C3_witness :
    (∃ e, (execute_dag_trace cyc_function_dict cyc_graph scenario_data
      none).1 = .error e) ∧
    (∀ v ∈ ["a", "b"], v ∉ (execute_dag_trace cyc_function_dict cyc_graph
      scenario_data none).2) ∧
    ((execList cyc_function_dict cyc_graph none
        ((topological_sort cyc_graph).1) ⟨scenario_data, [], []⟩).2 =
        none →
      (execute_dag_trace cyc_function_dict cyc_graph scenario_data
        none).1 = .error .unfeasible) ∧
    tax_transfer "2019-01-01" scenario_data [("a", cyc_a), ("b", cyc_b)] []
        (some ["income_taxes"]) =
      (.ok [("income", 25000), ("wealth", 0), ("n_children", 2),
        ("income_taxes", 5000)], ["income_taxes"]) :=
  @C3_theorem Val (Dict Val) cyc_function_dict scenario_data none
    cyc_graph cyc_graph (by decide) rfl ["a", "b"] (by decide) (by decide)
    (by decide)

/-- Claim C7, corrected version.  A target name absent from the graph is
not a silent no-op for pruning: `prune_dag` itself raises the
`NetworkXError` of `nx.ancestors` for some absent target, so the whole
run fails at the pruning stage — before execution, with no function ever
invoked — rather than later as a missing-variable error. -/
theorem C7_theorem {V P : Type} (fd : Dict (BoundFunc V P)) (data : Dict V)
    {g : DiGraph} (hdag : create_dag fd = .ok g) {targets : List Name}
    (h : ∃ t ∈ targets, t ∉ g.nodes) :
    ∃ u, u ∈ targets ∧ u ∉ g.nodes ∧
      prune_dag g targets = .error (.nodeNotInGraph u) ∧
      run_pipeline fd data (some targets) =
        (.error (.nodeNotInGraph u), []) := by
  obtain ⟨t, ht, hnot⟩ := h
  obtain ⟨u, hu1, hu2, herr⟩ := prunePass_error targets.dedup targets.dedup
    ⟨t, List.mem_dedup.mpr ht, hnot⟩
  have hpp : prunePass g targets.dedup = .error (.nodeNotInGraph u) := herr
  have hloop : pruneLoop g (g.nodes.length + 1) targets.dedup =
      .error (.nodeNotInGraph u) := by
    rw [pruneLoop, hpp]
    rfl
  have hprune : prune_dag g targets = .error (.nodeNotInGraph u) := by
    unfold prune_dag
    rw [hloop]
    rfl
  refine ⟨u, List.mem_dedup.mp hu1, hu2, hprune, ?_⟩
  unfold run_pipeline
  rw [hdag]
  show (match prune_dag g targets with
    | Except.error e => ((Except.error e, []) :
        Except RunError (Dict V) × List Name)
    | Except.ok dag2 => execute_dag_trace fd dag2 data (some targets)) = _
  rw [hprune]

/-- Claim C7, witness: requesting the absent target `nonexistent` makes
the scenario pipeline fail at the pruning stage with the
node-not-in-graph error and an empty invocation trace. -/
theorem C7_witness :
    ∃ u, u ∈ ["nonexistent"] ∧ u ∉ scenario_graph.nodes ∧
      prune_dag scenario_graph ["nonexistent"] =
        .error (.nodeNotInGraph u) ∧
      run_pipeline (create_function_dict [] (get_params "2019-01-01" []))
        scenario_data (some ["nonexistent"]) =
        (.error (.nodeNotInGraph u), []) :=
  C7_theorem (create_function_dict [] (get_params "2019-01-01" []))
    scenario_data (by decide) (by decide)

/-- Claim C9.  A user-supplied function whose name equals a built-in's
name replaces the built-in outright in the merged registry
(last-writer-wins, no error, no merging), and in the reference scenario
overriding `income_taxes` with a function returning 0 makes the user
function's result (0, and a disposable income of 29000), not the
built-in's (5000 and 24000), appear in the output. -/
theorem C9_theorem :
    (∀ (user : Dict (PyFunc Val (Dict Val))) (ps : Dict Val) (name : Name)
        (f : PyFunc Val (Dict Val)),
      (user.map Prod.fst).Nodup → Dict.lookup user name = some f →
      Dict.lookup (create_function_dict user ps) name = some ⟨f, ps⟩) ∧
    (tax_transfer "2019-01-01" scenario_data
        [("income_taxes", zero_income_taxes)] [] none).1 =
      .ok [("income", 25000), ("wealth", 0), ("n_children", 2),
        ("wealth_taxes", 0), ("benefits", 4000), ("income_taxes", 0),
        ("disposable_income", 29000)] ∧
    Dict.lookup scenario_full_result "income_taxes" = some 5000 := by
  refine ⟨?_, by decide, by decide⟩
  intro user ps name f hnd hf
  unfold create_function_dict bindParams
  rw [Dict.lookup_mapVals, Dict.lookup_update_some _ _ _ _ hf hnd]
  rfl

/-- Claim C9, witness: the override registry maps `income_taxes` to the
user function bound to the default parameters. -/
theorem C9_witness :
    Dict.lookup (create_function_dict [("income_taxes", zero_income_taxes)]
      (get_params "2019-01-01" [])) "income_taxes" =
      some ⟨zero_income_taxes, get_params "2019-01-01" []⟩ :=
  C9_theorem.1 [("income_taxes", zero_income_taxes)]
    (get_params "2019-01-01" []) "income_taxes" zero_income_taxes
    (by decide) rfl

theorem argspec_some {V P : Type} {b : BoundFunc V P} {args : List Name}
    (h : BoundFunc.argspec b = some args) :
    "params" ∈ b.func.args ∧
      args = b.func.args.takeWhile (fun a => decide (a ≠ "params")) := by
  unfold BoundFunc.argspec at h
  split at h
  · rename_i hc
    refine ⟨hc, ?_⟩
    injection h with h
    exact h.symm
  · exact Option.noConfusion h

theorem argspec_none {V P : Type} {b : BoundFunc V P}
    (h : "params" ∉ b.func.args) : BoundFunc.argspec b = none := by
  unfold BoundFunc.argspec
  rw [if_neg h]

theorem params_not_mem_args {V P : Type} {b : BoundFunc V P} {args : List Name}
    (h : BoundFunc.argspec b = some args) : "params" ∉ args := by
  obtain ⟨-, hargs⟩ := argspec_some h
  rw [hargs]
  intro hmem
  have h2 := List.mem_takeWhile_imp hmem
  simp at h2

theorem dag_dict_entries {V P : Type} :
    ∀ (L : List (Name × BoundFunc V P)) (acc dd : Dict (List Name)),
      List.foldlM (fun acc nf =>
        match BoundFunc.argspec nf.2 with
        | some args => Except.ok (acc ++ [(nf.1, args)])
        | none => Except.error (RunError.unsupportedCallable nf.1)) acc L =
        Except.ok dd →
      ∀ kv ∈ dd, kv ∈ acc ∨
        ∃ b, (kv.1, b) ∈ L ∧ BoundFunc.argspec b = some kv.2 := by
  intro L
  induction L with
  | nil =>
      intro acc dd h kv hkv
      have h2 : Except.ok acc = Except.ok dd := h
      have : acc = dd := by injection h2
      exact Or.inl (this ▸ hkv)
  | cons nf L ih =>
      intro acc dd h kv hkv
      rw [List.foldlM_cons] at h
      cases hsp : BoundFunc.argspec nf.2 with
      | none =>
          rw [hsp] at h
          have h2 : (Except.error (RunError.unsupportedCallable nf.1) :
              Except RunError (Dict (List Name))) = Except.ok dd := h
          exact Except.noConfusion h2
      | some args =>
          rw [hsp] at h
          have h2 : List.foldlM (fun acc nf =>
              match BoundFunc.argspec nf.2 with
              | some args => Except.ok (acc ++ [(nf.1, args)])
              | none => Except.error (RunError.unsupportedCallable nf.1))
              (acc ++ [(nf.1, args)]) L = Except.ok dd := h
          rcases ih (acc ++ [(nf.1, args)]) dd h2 kv hkv with hacc | ⟨b, hb1, hb2⟩
          · rcases List.mem_append.mp hacc with h3 | h3
            · exact Or.inl h3
            · rw [List.mem_singleton] at h3
              subst h3
              exact Or.inr ⟨nf.2, List.mem_cons_self _ _, hsp⟩
          · exact Or.inr ⟨b, List.mem_cons_of_mem _ hb1, hb2⟩

theorem dag_dict_of_error {V P : Type} :
    ∀ (L : List (Name × BoundFunc V P)) (acc : Dict (List Name)),
      (∃ nf ∈ L, BoundFunc.argspec nf.2 = none) →
      ∃ u, (∃ b, (u, b) ∈ L ∧ BoundFunc.argspec b = none) ∧
        List.foldlM (fun acc nf =>
          match BoundFunc.argspec nf.2 with
          | some args => Except.ok (acc ++ [(nf.1, args)])
          | none => Except.error (RunError.unsupportedCallable nf.1)) acc L =
          Except.error (.unsupportedCallable u) := by
  intro L
  induction L with
  | nil =>
      intro acc h
      simp at h
  | cons nf L ih =>
      intro acc h
      cases hsp : BoundFunc.argspec nf.2 with
      | none =>
          refine ⟨nf.1, ⟨nf.2, List.mem_cons_self _ _, hsp⟩, ?_⟩
          rw [List.foldlM_cons, hsp]
          rfl
      | some args =>
          have h' : ∃ nf2 ∈ L, BoundFunc.argspec nf2.2 = none := by
            obtain ⟨nf2, hnf2, hsp2⟩ := h
            rcases List.mem_cons.mp hnf2 with rfl | hnf2'
            · rw [hsp] at hsp2
              exact Option.noConfusion hsp2
            · exact ⟨nf2, hnf2', hsp2⟩
          obtain ⟨u, hu, herr⟩ := ih (acc ++ [(nf.1, args)]) h'
          refine ⟨u, ?_, ?_⟩
          · obtain ⟨b, hb1, hb2⟩ := hu
            exact ⟨b, List.mem_cons_of_mem _ hb1, hb2⟩
          · rw [List.foldlM_cons, hsp]
            exact herr

theorem foldl_addNode_edges :
    ∀ (L : Dict (List Name)) (g : DiGraph),
      (L.foldl (fun g kv => g.addNode kv.1) g).edges = g.edges := by
  intro L
  induction L with
  | nil => intro g; rfl
  | cons kv L ih =>
      intro g
      rw [List.foldl_cons, ih, DiGraph.addNode_edges]

theorem foldl_addNode_nodes :
    ∀ (L : Dict (List Name)) (g : DiGraph) (n : Name),
      n ∈ (L.foldl (fun g kv => g.addNode kv.1) g).nodes ↔
        n ∈ g.nodes ∨ ∃ kv ∈ L, n = kv.1 := by
  intro L
  induction L with
  | nil =>
      intro g n
      simp
  | cons kv L ih =>
      intro g n
      rw [List.foldl_cons, ih, DiGraph.mem_addNode]
      constructor
      · rintro ((h | h) | ⟨kv2, hkv2, h⟩)
        · exact Or.inl h
        · exact Or.inr ⟨kv, List.mem_cons_self _ _, h⟩
        · exact Or.inr ⟨kv2, List.mem_cons_of_mem _ hkv2, h⟩
      · rintro (h | ⟨kv2, hkv2, h⟩)
        · exact Or.inl (Or.inl h)
        · rcases List.mem_cons.mp hkv2 with rfl | h2
          · exact Or.inl (Or.inr h)
          · exact Or.inr ⟨kv2, h2, h⟩

theorem foldl_addEdge_edges (k : Name) :
    ∀ (args : List Name) (g : DiGraph) (e : Name × Name),
      e ∈ (args.foldl (fun g2 a => g2.addEdge k a) g).edges ↔
        e ∈ g.edges ∨ ∃ a ∈ args, e = (k, a) := by
  intro args
  induction args with
  | nil =>
      intro g e
      simp
  | cons a args ih =>
      intro g e
      rw [List.foldl_cons, ih, DiGraph.mem_addEdge_edges]
      constructor
      · rintro ((h | h) | ⟨a2, ha2, h⟩)
        · exact Or.inl h
        · exact Or.inr ⟨a, List.mem_cons_self _ _, h⟩
        · exact Or.inr ⟨a2, List.mem_cons_of_mem _ ha2, h⟩
      · rintro (h | ⟨a2, ha2, h⟩)
        · exact Or.inl (Or.inl h)
        · rcases List.mem_cons.mp ha2 with rfl | h2
          · exact Or.inl (Or.inr h)
          · exact Or.inr ⟨a2, h2, h⟩

theorem foldl_addEdge_nodes (k : Name) :
    ∀ (args : List Name) (g : DiGraph) (n : Name),
      n ∈ (args.foldl (fun g2 a => g2.addEdge k a) g).nodes ↔
        n ∈ g.nodes ∨ ∃ a ∈ args, n = k ∨ n = a := by
  intro args
  induction args with
  | nil =>
      intro g n
      simp
  | cons a args ih =>
      intro g n
      rw [List.foldl_cons, ih, DiGraph.mem_addEdge_nodes]
      constructor
      · rintro ((h | h) | ⟨a2, ha2, h⟩)
        · exact Or.inl h
        · exact Or.inr ⟨a, List.mem_cons_self _ _, h⟩
        · exact Or.inr ⟨a2, List.mem_cons_of_mem _ ha2, h⟩
      · rintro (h | ⟨a2, ha2, h⟩)
        · exact Or.inl (Or.inl h)
        · rcases List.mem_cons.mp ha2 with rfl | h2
          · exact Or.inl (Or.inr h)
          · exact Or.inr ⟨a2, h2, h⟩

theorem foldl_edges_spec :
    ∀ (L : Dict (List Name)) (g : DiGraph) (e : Name × Name),
      e ∈ (L.foldl (fun g kv =>
          kv.2.foldl (fun g2 a => g2.addEdge kv.1 a) g) g).edges ↔
        e ∈ g.edges ∨ ∃ kv ∈ L, e.1 = kv.1 ∧ e.2 ∈ kv.2 := by
  intro L
  induction L with
  | nil =>
      intro g e
      simp
  | cons kv L ih =>
      intro g e
      rw [List.foldl_cons, ih, foldl_addEdge_edges]
      constructor
      · rintro ((h | ⟨a, ha, h⟩) | ⟨kv2, hkv2, h⟩)
        · exact Or.inl h
        · subst h
          exact Or.inr ⟨kv, List.mem_cons_self _ _, rfl, ha⟩
        · exact Or.inr ⟨kv2, List.mem_cons_of_mem _ hkv2, h⟩
      · rintro (h | ⟨kv2, hkv2, h1, h2⟩)
        · exact Or.inl (Or.inl h)
        · rcases List.mem_cons.mp hkv2 with rfl | hm
          · refine Or.inl (Or.inr ⟨e.2, h2, ?_⟩)
            obtain ⟨e1, e2⟩ := e
            simp only at h1
            rw [h1]
          · exact Or.inr ⟨kv2, hm, h1, h2⟩

theorem foldl_edges_nodes :
    ∀ (L : Dict (List Name)) (g : DiGraph) (n : Name),
      n ∈ (L.foldl (fun g kv =>
          kv.2.foldl (fun g2 a => g2.addEdge kv.1 a) g) g).nodes ↔
        n ∈ g.nodes ∨ ∃ kv ∈ L, ∃ a ∈ kv.2, n = kv.1 ∨ n = a := by
  intro L
  induction L with
  | nil =>
      intro g n
      simp
  | cons kv L ih =>
      intro g n
      rw [List.foldl_cons, ih, foldl_addEdge_nodes]
      constructor
      · rintro ((h | ⟨a, ha, h⟩) | ⟨kv2, hkv2, h⟩)
        · exact Or.inl h
        · exact Or.inr ⟨kv, List.mem_cons_self _ _, a, ha, h⟩
        · exact Or.inr ⟨kv2, List.mem_cons_of_mem _ hkv2, h⟩
      · rintro (h | ⟨kv2, hkv2, a, ha, h⟩)
        · exact Or.inl (Or.inl h)
        · rcases List.mem_cons.mp hkv2 with rfl | hm
          · exact Or.inl (Or.inr ⟨a, ha, h⟩)
          · exact Or.inr ⟨kv2, hm, a, ha, h⟩

theorem graph_of_dag_dict_edges (dd : Dict (List Name)) (e : Name × Name) :
    e ∈ (graph_of_dag_dict dd).edges ↔
      ∃ kv ∈ dd, e.1 = kv.1 ∧ e.2 ∈ kv.2 := by
  unfold graph_of_dag_dict
  rw [foldl_edges_spec, foldl_addNode_edges]
  simp [DiGraph.empty]

theorem graph_of_dag_dict_nodes (dd : Dict (List Name)) (n : Name) :
    n ∈ (graph_of_dag_dict dd).nodes ↔
      (∃ kv ∈ dd, n = kv.1) ∨
        ∃ kv ∈ dd, ∃ a ∈ kv.2, n = kv.1 ∨ n = a := by
  unfold graph_of_dag_dict
  rw [foldl_edges_nodes, foldl_addNode_nodes]
  simp [DiGraph.empty]

theorem DiGraph.mem_rev_edges (g : DiGraph) (e : Name × Name) :
    e ∈ g.rev.edges ↔ (e.2, e.1) ∈ g.edges := by
  unfold DiGraph.rev
  show e ∈ g.edges.map (fun e => (e.2, e.1)) ↔ _
  rw [List.mem_map]
  constructor
  · rintro ⟨x, hx, hxe⟩
    obtain ⟨a, b⟩ := x
    cases hxe
    exact hx
  · intro h
    exact ⟨(e.2, e.1), h, rfl⟩

theorem create_dag_ok_elim {V P : Type} {fd : Dict (BoundFunc V P)}
    {g : DiGraph} (h : create_dag fd = .ok g) :
    ∃ dd, dag_dict_of fd = .ok dd ∧ g = (graph_of_dag_dict dd).rev := by
  unfold create_dag at h
  cases hdd : dag_dict_of fd with
  | error e =>
      rw [hdd] at h
      exact Except.noConfusion h
  | ok dd =>
      rw [hdd] at h
      have h2 : Except.ok (graph_of_dag_dict dd).rev = Except.ok g := h
      refine ⟨dd, rfl, ?_⟩
      injection h2 with h2
      exact h2.symm

/-- Claim C10, corrected version.  The parameter bundle is bound as the
keyword argument `params` before dependency inference, so `params` is
never the source of a dependency edge, and (when no registered function
is itself named `params`) never a node of the graph.  However, a
registered function that does not accept a parameter named `params` does
not fail "when that node is evaluated": signature inspection of the
partial object raises `TypeError` inside `create_dag`, so the whole run
fails before the graph exists and before any function is invoked. -/
theorem C10_theorem {V P : Type} (fd : Dict (BoundFunc V P)) (data : Dict V)
    (targets : Option (List Name)) :
    (∀ g, create_dag fd = .ok g →
      (∀ e ∈ g.edges, e.1 ≠ "params") ∧
      ("params" ∉ fd.map Prod.fst → "params" ∉ g.nodes)) ∧
    ((∃ nf ∈ fd, "params" ∉ nf.2.func.args) →
      ∃ u, u ∈ fd.map Prod.fst ∧
        create_dag fd = .error (.unsupportedCallable u) ∧
        run_pipeline fd data targets =
          (.error (.unsupportedCallable u), [])) := by
  constructor
  · intro g hg
    obtain ⟨dd, hdd, hgeq⟩ := create_dag_ok_elim hg
    subst hgeq
    have hentries : ∀ kv ∈ dd,
        ∃ b, (kv.1, b) ∈ fd ∧ BoundFunc.argspec b = some kv.2 := by
      intro kv hkv
      have hdd2 : List.foldlM (fun acc nf =>
          match BoundFunc.argspec nf.2 with
          | some args => Except.ok (acc ++ [(nf.1, args)])
          | none => Except.error (RunError.unsupportedCallable nf.1))
          ([] : Dict (List Name)) fd = Except.ok dd := hdd
      rcases dag_dict_entries fd [] dd hdd2 kv hkv with hacc | h
      · exact absurd hacc (List.not_mem_nil kv)
      · exact h
    constructor
    · intro e he
      rw [DiGraph.mem_rev_edges, graph_of_dag_dict_edges] at he
      obtain ⟨kv, hkv, h1, h2⟩ := he
      obtain ⟨b, hb1, hb2⟩ := hentries kv hkv
      intro hp
      rw [hp] at h2
      exact params_not_mem_args hb2 h2
    · intro hpn hmem
      have hmem2 : "params" ∈ (graph_of_dag_dict dd).nodes := hmem
      rw [graph_of_dag_dict_nodes] at hmem2
      have hkey : ∀ kv, kv ∈ dd → "params" ≠ kv.1 := by
        intro kv hkv heq
        obtain ⟨b, hb1, hb2⟩ := hentries kv hkv
        exact hpn (List.mem_map.mpr ⟨(kv.1, b), hb1, heq.symm⟩)
      rcases hmem2 with ⟨kv, hkv, heq⟩ | ⟨kv, hkv, a, ha, heq | heq⟩
      · exact hkey kv hkv heq
      · exact hkey kv hkv heq
      · obtain ⟨b, hb1, hb2⟩ := hentries kv hkv
        rw [← heq] at ha
        exact params_not_mem_args hb2 ha
  · intro hex
    have hex2 : ∃ nf ∈ fd, BoundFunc.argspec nf.2 = none := by
      obtain ⟨nf, hnf, hp⟩ := hex
      exact ⟨nf, hnf, argspec_none hp⟩
    obtain ⟨u, ⟨b, hb1, hb2⟩, herr⟩ := dag_dict_of_error fd [] hex2
    have hdd : dag_dict_of fd = .error (.unsupportedCallable u) := herr
    have hcd : create_dag fd = .error (.unsupportedCallable u) := by
      unfold create_dag
      rw [hdd]
      rfl
    refine ⟨u, List.mem_map.mpr ⟨(u, b), hb1, rfl⟩, hcd, ?_⟩
    unfold run_pipeline
    rw [hcd]

/-- Claim C10, witness: the scenario graph has no `params` node or edge
source, and adding the user function `extra(income)` (no `params`
parameter) makes the whole pipeline fail inside `create_dag` with the
unsupported-callable error and an empty invocation trace. -/
theorem C10_witness :
    ((∀ e ∈ scenario_graph.edges, e.1 ≠ "params") ∧
      ("params" ∉ (create_function_dict [] (get_params "2019-01-01" [])).map
          Prod.fst →
        "params" ∉ scenario_graph.nodes)) ∧
    ∃ u, u ∈ (create_function_dict [("extra", no_params_func)]
        (get_params "2019-01-01" [])).map Prod.fst ∧
      create_dag (create_function_dict [("extra", no_params_func)]
        (get_params "2019-01-01" [])) = .error (.unsupportedCallable u) ∧
      run_pipeline (create_function_dict [("extra", no_params_func)]
          (get_params "2019-01-01" [])) scenario_data
          (some ["income_taxes"]) =
        (.error (.unsupportedCallable u), []) :=
  ⟨(C10_theorem (create_function_dict [] (get_params "2019-01-01" []))
      scenario_data none).1 scenario_graph (by decide),
   (C10_theorem (create_function_dict [("extra", no_params_func)]
      (get_params "2019-01-01" [])) scenario_data
      (some ["income_taxes"])).2
      ⟨("extra", ⟨no_params_func, get_params "2019-01-01" []⟩),
        by apply List.Mem.tail
           apply List.Mem.tail
           apply List.Mem.tail
           apply List.Mem.tail
           exact List.Mem.head _,
        by decide⟩⟩

/-- Claim C2, corrected version.  For every configuration and target
subset `S`, when both the `targets = "all"` run and the `targets = S` run
succeed, every value the `S` run computes agrees with the value the
all-run computes (reclamation never changes computed values — indeed it
never reclaims anything), and on every requested name the two returned
mappings hold the same present value.  What the original claim gets
wrong is the retained set: the `S` run returns the full surviving result
set, not the restriction to `S`. -/
theorem C2_theorem (baseline_date : String) (data : Dict Val)
    (functions : Dict (PyFunc Val (Dict Val))) (params : Dict Val)
    (S : List Name) {rS rall : Dict Val} {tr1 tr2 : List Name}
    (hS : tax_transfer baseline_date data functions params (some S) =
      (.ok rS, tr1))
    (hall : tax_transfer baseline_date data functions params none =
      (.ok rall, tr2)) :
    (∀ k v, Dict.lookup rS k = some v → Dict.lookup rall k = some v) ∧
    (∀ k ∈ S, Dict.lookup rS k = Dict.lookup rall k ∧
      (Dict.lookup rS k).isSome) := by
  have hrpS : run_pipeline (create_function_dict functions
      (get_params baseline_date params)) data (some S) = (.ok rS, tr1) := hS
  have hrpA : run_pipeline (create_function_dict functions
      (get_params baseline_date params)) data none = (.ok rall, tr2) := hall
  obtain ⟨g0a, daga, hdaga, hpra, hexa⟩ := run_pipeline_ok hrpA
  obtain ⟨g0, g', hdag, hprb, hexb⟩ := run_pipeline_ok hrpS
  have hga : g0a = daga := by
    have h2 : Except.ok g0a = Except.ok daga := hpra
    injection h2
  subst hga
  have hg0 : g0 = g0a := by
    rw [hdaga] at hdag
    injection hdag with h2
    exact h2.symm
  subst hg0
  have hwf0 : g0.WF := create_dag_wf hdaga
  have hpr : prune_dag g0 S = .ok g' := hprb
  have htarg := prune_dag_ok_targets hpr
  obtain ⟨g'', hok, hnodes, hedges, hwf', hfilter⟩ :=
    prune_dag_spec hwf0 S htarg
  have hgg : g' = g'' := by
    rw [hok] at hpr
    injection hpr with h2
    exact h2.symm
  subst hgg
  obtain ⟨stA, helA, hcycA, hrA, htrA⟩ := execute_dag_trace_ok hexa
  obtain ⟨stB, helB, hcycB, hrB, htrB⟩ := execute_dag_trace_ok hexb
  obtain ⟨htopoA, htndA, htsubA, hcompA⟩ := topological_sort_spec hwf0
  obtain ⟨htopoB, htndB, htsubB, hcompB⟩ := topological_sort_spec hwf'
  have hmasterA := @execList_master Val (Dict Val)
    (create_function_dict functions (get_params baseline_date params)) g0
    none data (fun _ _ => True) hwf0 (topological_sort g0).1 htopoA htndA
    htsubA (fun ts h => Option.noConfusion h)
    (fun _ _ _ _ _ _ _ _ _ _ => trivial)
    ((topological_sort g0).1) [] [] ⟨data, [], []⟩ (by simp)
    (ExecInv_init data _ (fun _ _ _ => trivial))
  rw [helA] at hmasterA
  have invA : ExecInv data (fun _ _ => True)
      ([] ++ (topological_sort g0).1) stA := hmasterA.2 rfl
  have hrefstep : ∀ (u : Name) (f : BoundFunc Val (Dict Val)) (kw : Dict Val)
      (v : Val), u ∈ g'.nodes → Dict.lookup data u = none →
      Dict.lookup (create_function_dict functions
        (get_params baseline_date params)) u = some f →
      kw.map Prod.fst = g'.preds u →
      (∀ pr ∈ kw, Dict.lookup stA.results pr.1 = some pr.2) →
      BoundFunc.call f (fun n => Dict.lookup kw n) = some v →
      Dict.lookup stA.results u = some v := by
    intro u f kw v hun hdu hfu hkmap hkref hcall
    have hpredeq : g'.preds u = g0.preds u :=
      pruned_preds hwf0 hnodes hedges hfilter u hun
    have hu0 : u ∈ g0.nodes := ((hnodes u).mp hun).1
    have humem : u ∈ (topological_sort g0).1 := hcompA hcycA u hu0
    obtain ⟨pre1, post1, hsplit1⟩ := List.append_of_mem humem
    obtain ⟨st1, kw1, v1, hkw1, hkent1, hkmap1, hcall1, hfin1⟩ :=
      execList_none_compute hwf0 hsplit1 helA hdu hfu
    have hkeq : kw = kw1 := by
      apply list_eq_of_keys_lookup (fun n => Dict.lookup stA.results n)
      · rw [hkmap, hkmap1, hpredeq]
      · exact hkref
      · exact hkent1
    rw [hkeq] at hcall
    rw [hcall1] at hcall
    injection hcall with hcall
    rw [← hcall]
    exact hfin1
  have hgood : ∀ ts', some S = some ts' → ∀ n ∈ g'.nodes, n ∉ ts' →
      ∃ t' ∈ ts', t' ∈ g'.nodes ∧ t' ∈ g'.descendants n := by
    intro ts' h
    injection h with h
    subst h
    exact pruned_target_descendant hwf0 hwf' hnodes hedges htarg
  have hmasterB := @execList_master Val (Dict Val)
    (create_function_dict functions (get_params baseline_date params)) g'
    (some S) data (fun k v => Dict.lookup stA.results k = some v) hwf'
    (topological_sort g').1 htopoB htndB htsubB hgood
    hrefstep
    ((topological_sort g').1) [] [] ⟨data, [], []⟩ (by simp)
    (ExecInv_init data _ (fun k v h => invA.data_sub k v h))
  rw [helB] at hmasterB
  have invB : ExecInv data (fun k v => Dict.lookup stA.results k = some v)
      ([] ++ (topological_sort g').1) stB := hmasterB.2 rfl
  have hmain : ∀ k v, Dict.lookup rS k = some v →
      Dict.lookup rall k = some v := by
    intro k v hk
    rw [hrB] at hk
    rw [hrA]
    exact invB.refok k v hk
  refine ⟨hmain, ?_⟩
  intro k hkS
  have hkn : k ∈ g'.nodes := (hnodes k).mpr ⟨htarg k hkS, Or.inl hkS⟩
  have hktask : k ∈ (topological_sort g').1 := hcompB hcycB k hkn
  have hksome : (Dict.lookup stB.results k).isSome :=
    invB.presence k hktask
  obtain ⟨v, hv⟩ := Option.isSome_iff_exists.mp hksome
  have hv' : Dict.lookup rS k = some v := by
    rw [hrB]
    exact hv
  refine ⟨?_, by rw [hv']; rfl⟩
  rw [hv', hmain k v hv']

/-- Claim C2, witness: in the reference scenario both runs succeed (in
fact with identical outputs), and on the requested name the two mappings
hold the same present value. -/
theorem C2_witness :
    (∀ k v, Dict.lookup scenario_full_result k = some v →
      Dict.lookup scenario_full_result k = some v) ∧
    (∀ k ∈ ["disposable_income"],
      Dict.lookup scenario_full_result k =
        Dict.lookup scenario_full_result k ∧
      (Dict.lookup scenario_full_result k).isSome) :=
  @C2_theorem ("2019-01-01") scenario_data [] [] ["disposable_income"]
    scenario_full_result scenario_full_result scenario_invoked
    scenario_invoked (by decide) (by decide)
